import Mathlib

/-!
# Verification of the bytekey order-preserving codec

A shallow embedding of the bytekey byte format (encoder.rs, decoder.rs,
de.rs, lib.rs) and proofs about it.

Conventions of the embedding:

* A byte stream is a `List Nat` whose elements are below 256.  Encoders
  produce such lists by construction; decoder theorems that quantify over
  arbitrary input carry the bound as a hypothesis.
* Rust machine integers are embedded as `Nat` (unsigned) or `Int`
  (signed), with `% 2^w` inserted exactly where the source truncates
  (`as u8`, `as u16`, …).
* Rust shifts on `u64` are embedded with the masked semantics of a
  non-overflow-checked build (`x << s` shifts by `s % 64`; this agrees
  with `overflowing_shl`, which de.rs uses explicitly for the header
  shift).  The repository's own round-trip tests exercise shift amounts
  of exactly 64 (the nine-byte class in decoder.rs `read_var_u64`), so
  the masked semantics is the one the shipped code actually has.
* Fallible reads return `Except Err (value × rest)` where `rest` is the
  unconsumed suffix of the stream.
-/

namespace Bytekey

/-- Errors a decoding operation can surface (lib.rs `Error`, de.rs `Error`):
end of input, malformed UTF-8, or a schema-level message (de.rs
`Error::Message`). I/O failures of the underlying stream cannot occur for
in-memory input and are not represented. -/
inductive Err where
  | eof
  | notUtf8
  | msg
deriving DecidableEq, Repr

/-- Unsigned lexicographic comparison of byte strings: the order of
`Vec<u8>`/`&[u8]` in Rust, which ordered key-value stores apply to keys. -/
def lexCompare : List Nat → List Nat → Ordering
  | [], [] => .eq
  | [], _ :: _ => .lt
  | _ :: _, [] => .gt
  | x :: xs, y :: ys =>
    match compare x y with
    | .eq => lexCompare xs ys
    | o => o

/-- The `k` big-endian bytes of `x % 2^(8k)`: byte `j` (from the most
significant end) is `(x >>> (8 * (k - 1 - j))) % 256`.  This is what
`write_u16::<BigEndian>`, `write_u32`, `write_u64` produce. -/
def beBytes : Nat → Nat → List Nat
  | 0, _ => []
  | k + 1, x => (x >>> (8 * k)) % 256 :: beBytes k x

/-- encoder.rs `emit_var_u64`: variable-length encoding of a `u64` into
1–9 bytes.  Each branch mirrors one `if val < 1 << _` arm of the source;
`write_u8`/`write_u16`/`write_u32`/`write_u64` become 1/2/4/8 big-endian
bytes and the `as uN` casts become `% 2^N`. -/
def emit_var_u64 (val : Nat) : List Nat :=
  if val < 1 <<< 4 then
    [val % 2 ^ 8]
  else if val < 1 <<< 12 then
    beBytes 2 ((val % 2 ^ 16) ||| (1 <<< 12))
  else if val < 1 <<< 20 then
    ((val >>> 16) % 2 ^ 8 ||| (2 <<< 4)) % 2 ^ 8 :: beBytes 2 (val % 2 ^ 16)
  else if val < 1 <<< 28 then
    beBytes 4 ((val % 2 ^ 32) ||| (3 <<< 28))
  else if val < 1 <<< 36 then
    ((val >>> 32) % 2 ^ 8 ||| (4 <<< 4)) % 2 ^ 8 :: beBytes 4 (val % 2 ^ 32)
  else if val < 1 <<< 44 then
    beBytes 2 ((val >>> 32) % 2 ^ 16 ||| (5 <<< 12)) ++ beBytes 4 (val % 2 ^ 32)
  else if val < 1 <<< 52 then
    ((val >>> 48) % 2 ^ 8 ||| (6 <<< 4)) % 2 ^ 8 ::
      (beBytes 2 ((val >>> 32) % 2 ^ 16) ++ beBytes 4 (val % 2 ^ 32))
  else if val < 1 <<< 60 then
    beBytes 8 ((val % 2 ^ 64) ||| (7 <<< 60))
  else
    (8 <<< 4) % 2 ^ 8 :: beBytes 8 (val % 2 ^ 64)

/-- The length class of a `u64` under `emit_var_u64`: class `c` encodes
into `c + 1` bytes.  Mirrors the branch structure of the source. -/
def clsU (val : Nat) : Nat :=
  if val < 2 ^ 4 then 0
  else if val < 2 ^ 12 then 1
  else if val < 2 ^ 20 then 2
  else if val < 2 ^ 28 then 3
  else if val < 2 ^ 36 then 4
  else if val < 2 ^ 44 then 5
  else if val < 2 ^ 52 then 6
  else if val < 2 ^ 60 then 7
  else 8

/-- The trailing-byte loop shared by decoder.rs `read_var_u64` and de.rs
`deserialize_var_u64`: `for i in 1..=n { val += byte << ((n - i) * 8) }`,
expressed with `j = n - i` counting down.  The shift amount is masked
by 64 and the accumulating addition wraps at `2^64` (u64 arithmetic of a
non-overflow-checked build). -/
def readVarTail : Nat → Nat → List Nat → Except Err (Nat × List Nat)
  | 0, val, l => .ok (val, l)
  | _ + 1, _, [] => .error .eof
  | j + 1, val, b :: l => readVarTail j ((val + (b <<< (8 * j % 64))) % 2 ^ 64) l

/-- decoder.rs `read_var_u64`: read the header byte, take the trailing
count `n` from its high nibble, seed the accumulator with the low nibble
shifted into place (a `u64` shift, masked at 64), then fold in `n` more
bytes. -/
def read_var_u64 : List Nat → Except Err (Nat × List Nat)
  | [] => .error .eof
  | h :: l =>
    readVarTail (h >>> 4) (((h &&& 0x0F) <<< (8 * (h >>> 4) % 64)) % 2 ^ 64) l

/-- de.rs `deserialize_var_u64`: identical to decoder.rs `read_var_u64`
except that the header shift's masking is explicit in the source
(`overflowing_shl(n as u32 * 8)`). -/
def deserialize_var_u64 : List Nat → Except Err (Nat × List Nat)
  | [] => .error .eof
  | h :: l =>
    readVarTail (h >>> 4) (((h &&& 0x0F) <<< (8 * (h >>> 4) % 64)) % 2 ^ 64) l

/-- The two's-complement reading of a 64-bit pattern (`as i64`). -/
def toI64 (x : Nat) : Int := if x < 2 ^ 63 then (x : Int) else (x : Int) - 2 ^ 64

/-- encoder.rs `emit_var_i64`, `let mask = (v >> 63) as u64`: all-ones for
negative input, zero otherwise. -/
def iMask (v : Int) : Nat := if v < 0 then 2 ^ 64 - 1 else 0

/-- encoder.rs `emit_var_i64`, `let val = v.abs() as u64 - (1 & mask)`: the
magnitude with one subtracted on negatives (for `v = i64::MIN` the wrapping
`abs` gives `2^63`, so `val = 2^63 - 1 = -v - 1` there as well). -/
def mI (v : Int) : Nat := if v < 0 then (-v - 1).toNat else v.toNat

/-- encoder.rs `emit_var_i64`: variable-length encoding of an `i64` into
1–9 bytes.  Each branch mirrors one `if val < 1 << _` arm of the source:
`masked = (val | header) ^ mask` is written out as 1–9 big-endian bytes
(`as uN` casts become `% 2^N`).  The final branch writes
`(0x18 << 3) ^ mask as u8` then `val ^ mask` as eight bytes. -/
def emit_var_i64 (v : Int) : List Nat :=
  if mI v < 1 <<< 3 then
    [((mI v ||| (0x10 <<< 3)) ^^^ iMask v) % 2 ^ 8]
  else if mI v < 1 <<< 11 then
    beBytes 2 (((mI v ||| (0x11 <<< 11)) ^^^ iMask v) % 2 ^ 16)
  else if mI v < 1 <<< 19 then
    (((mI v ||| (0x12 <<< 19)) ^^^ iMask v) >>> 16) % 2 ^ 8 ::
      beBytes 2 (((mI v ||| (0x12 <<< 19)) ^^^ iMask v) % 2 ^ 16)
  else if mI v < 1 <<< 27 then
    beBytes 4 (((mI v ||| (0x13 <<< 27)) ^^^ iMask v) % 2 ^ 32)
  else if mI v < 1 <<< 35 then
    (((mI v ||| (0x14 <<< 35)) ^^^ iMask v) >>> 32) % 2 ^ 8 ::
      beBytes 4 (((mI v ||| (0x14 <<< 35)) ^^^ iMask v) % 2 ^ 32)
  else if mI v < 1 <<< 43 then
    beBytes 2 ((((mI v ||| (0x15 <<< 43)) ^^^ iMask v) >>> 32) % 2 ^ 16) ++
      beBytes 4 (((mI v ||| (0x15 <<< 43)) ^^^ iMask v) % 2 ^ 32)
  else if mI v < 1 <<< 51 then
    (((mI v ||| (0x16 <<< 51)) ^^^ iMask v) >>> 48) % 2 ^ 8 ::
      (beBytes 2 ((((mI v ||| (0x16 <<< 51)) ^^^ iMask v) >>> 32) % 2 ^ 16) ++
        beBytes 4 (((mI v ||| (0x16 <<< 51)) ^^^ iMask v) % 2 ^ 32))
  else if mI v < 1 <<< 59 then
    beBytes 8 (((mI v ||| (0x17 <<< 59)) ^^^ iMask v) % 2 ^ 64)
  else
    ((0x18 <<< 3) ^^^ (iMask v % 2 ^ 8)) % 2 ^ 8 :: beBytes 8 ((mI v ^^^ iMask v) % 2 ^ 64)

/-- The length class of the adjusted magnitude under `emit_var_i64`:
class `c` encodes into `c + 1` bytes. -/
def clsI (m : Nat) : Nat :=
  if m < 2 ^ 3 then 0
  else if m < 2 ^ 11 then 1
  else if m < 2 ^ 19 then 2
  else if m < 2 ^ 27 then 3
  else if m < 2 ^ 35 then 4
  else if m < 2 ^ 43 then 5
  else if m < 2 ^ 51 then 6
  else if m < 2 ^ 59 then 7
  else 8

/-- The trailing-byte loop of decoder.rs `read_var_i64` and de.rs
`deserialize_var_i64`: like `readVarTail` but each byte is first un-XORed
with the 8-bit mask. -/
def readVarITail : Nat → Nat → Nat → List Nat → Except Err (Nat × List Nat)
  | _, 0, val, l => .ok (val, l)
  | _, _ + 1, _, [] => .error .eof
  | mask, j + 1, val, b :: l =>
    readVarITail mask j ((val + ((b ^^^ mask) <<< (8 * j % 64))) % 2 ^ 64) l

/-- decoder.rs `read_var_i64` (identical in de.rs `deserialize_var_i64`):
derive the 8-bit mask by arithmetic-shifting `(header ^ 0x80) as i8`, take
the length from bits [6:3] of the un-XORed header, seed the accumulator
with its low three bits, fold in `n` un-XORed bytes, then XOR with the
sign-extended mask and reinterpret as `i64`. -/
def read_var_i64 : List Nat → Except Err (Int × List Nat)
  | [] => .error .eof
  | h :: l =>
    let mask : Nat := if h ^^^ 0x80 < 0x80 then 0 else 0xFF
    let n := ((h >>> 3) ^^^ mask) &&& 0x0F
    match readVarITail mask n ((((h ^^^ mask) &&& 0x07) <<< (8 * n % 64)) % 2 ^ 64) l with
    | .error e => .error e
    | .ok (val, rest) =>
      let final_mask : Nat := if mask = 0 then 0 else 2 ^ 64 - 1
      .ok (toI64 (val ^^^ final_mask), rest)

/-! ## Arithmetic toolkit -/

theorem or_eq_add_of_lt {b k : Nat} (a : Nat) (hb : b < 2 ^ k) :
    b ||| (a <<< k) = a * 2 ^ k + b := by
  rw [Nat.shiftLeft_eq, Nat.lor_comm, Nat.mul_comm a (2 ^ k),
    ← Nat.mul_add_lt_is_or hb, Nat.mul_comm]

theorem or_mul_eq_add {b k : Nat} (a : Nat) (hb : b < 2 ^ k) :
    b ||| a * 2 ^ k = a * 2 ^ k + b := by
  rw [Nat.lor_comm, Nat.mul_comm, ← Nat.mul_add_lt_is_or hb, Nat.mul_comm]

theorem or_pow_eq_add {b k : Nat} (hb : b < 2 ^ k) : b ||| 2 ^ k = 2 ^ k + b := by
  have := or_mul_eq_add 1 hb
  rwa [one_mul] at this

theorem xor_complement {x k : Nat} (hx : x < 2 ^ k) :
    x ^^^ (2 ^ k - 1) = 2 ^ k - 1 - x := by
  apply Nat.eq_of_testBit_eq
  intro i
  have h1 : 2 ^ k - 1 - x = 2 ^ k - (x + 1) := by omega
  rw [Nat.testBit_xor, Nat.testBit_two_pow_sub_one, h1,
    Nat.testBit_two_pow_sub_succ hx]
  rcases Nat.lt_or_ge i k with hik | hik
  · simp [hik]
  · have h2 : ¬i < k := by omega
    have hxi : Nat.testBit x i = false :=
      Nat.testBit_lt_two_pow (lt_of_lt_of_le hx (Nat.pow_le_pow_right (by norm_num) hik))
    simp [h2, hxi]

theorem beBytes_cons (k x : Nat) :
    beBytes (k + 1) x = x / 2 ^ (8 * k) % 256 :: beBytes k x := by
  simp [beBytes, Nat.shiftRight_eq_div_pow]

theorem beBytes_length (k x : Nat) : (beBytes k x).length = k := by
  induction k generalizing x with
  | zero => rfl
  | succ k ih => simp [beBytes, ih]

theorem beBytes_mod (k x : Nat) : beBytes k (x % 2 ^ (8 * k)) = beBytes k x := by
  induction k generalizing x with
  | zero => rfl
  | succ k ih =>
    have h8 : (8 : Nat) * (k + 1) = 8 * k + 8 := by ring
    have hd : x % 2 ^ (8 * (k + 1)) / 2 ^ (8 * k) % 256 = x / 2 ^ (8 * k) % 256 := by
      rw [h8, pow_add, ← Nat.div_mod_eq_mod_mul_div]
      exact Nat.mod_mod_of_dvd _ (by norm_num)
    have tl : beBytes k (x % 2 ^ (8 * (k + 1))) = beBytes k x := by
      rw [← ih (x % 2 ^ (8 * (k + 1))), Nat.mod_mod_of_dvd, ih]
      exact pow_dvd_pow 2 (by omega)
    rw [beBytes_cons, beBytes_cons, hd, tl]

theorem lexCompare_cons (x y : Nat) (xs ys : List Nat) :
    lexCompare (x :: xs) (y :: ys) =
      match compare x y with
      | .eq => lexCompare xs ys
      | o => o := rfl

theorem lexCompare_cons_lt {x y : Nat} (h : x < y) (xs ys : List Nat) :
    lexCompare (x :: xs) (y :: ys) = .lt := by
  rw [lexCompare_cons, Nat.compare_eq_lt.2 h]

theorem lexCompare_cons_gt {x y : Nat} (h : y < x) (xs ys : List Nat) :
    lexCompare (x :: xs) (y :: ys) = .gt := by
  rw [lexCompare_cons, Nat.compare_eq_gt.2 h]

theorem nat_compare_self (a : Nat) : compare a a = .eq := Nat.compare_eq_eq.2 rfl

theorem lexCompare_cons_self (x : Nat) (xs ys : List Nat) :
    lexCompare (x :: xs) (x :: ys) = lexCompare xs ys := by
  rw [lexCompare_cons, nat_compare_self]

theorem beBytes_compare {k a b : Nat} (ha : a < 2 ^ (8 * k)) (hb : b < 2 ^ (8 * k)) :
    lexCompare (beBytes k a) (beBytes k b) = compare a b := by
  induction k generalizing a b with
  | zero =>
    have ha0 : a = 0 := by simpa using ha
    have hb0 : b = 0 := by simpa using hb
    subst ha0; subst hb0; rfl
  | succ k ih =>
    have hp : (0 : Nat) < 2 ^ (8 * k) := by positivity
    have h8 : (2 : Nat) ^ (8 * (k + 1)) = 2 ^ (8 * k) * 256 := by
      rw [show 8 * (k + 1) = 8 * k + 8 by ring, pow_add]; norm_num
    rw [h8] at ha hb
    have hha : a / 2 ^ (8 * k) < 256 := Nat.div_lt_of_lt_mul ha
    have hhb : b / 2 ^ (8 * k) < 256 := Nat.div_lt_of_lt_mul hb
    rw [beBytes_cons, beBytes_cons, Nat.mod_eq_of_lt hha, Nat.mod_eq_of_lt hhb]
    have ea := Nat.div_add_mod a (2 ^ (8 * k))
    have eb := Nat.div_add_mod b (2 ^ (8 * k))
    have hma := Nat.mod_lt a hp
    have hmb := Nat.mod_lt b hp
    rcases lt_trichotomy (a / 2 ^ (8 * k)) (b / 2 ^ (8 * k)) with h | h | h
    · have hab : a < b := Nat.lt_of_div_lt_div h
      rw [lexCompare_cons_lt h, Nat.compare_eq_lt.2 hab]
    · rw [h, lexCompare_cons_self, ← beBytes_mod k a, ← beBytes_mod k b, ih hma hmb]
      have hq : 2 ^ (8 * k) * (a / 2 ^ (8 * k)) = 2 ^ (8 * k) * (b / 2 ^ (8 * k)) := by rw [h]
      rcases lt_trichotomy a b with hab | hab | hab
      · rw [Nat.compare_eq_lt.2 hab, Nat.compare_eq_lt.2 (show a % _ < b % _ by omega)]
      · rw [hab, nat_compare_self, nat_compare_self]
      · rw [Nat.compare_eq_gt.2 hab, Nat.compare_eq_gt.2 (show b % _ < a % _ by omega)]
    · have hab : b < a := Nat.lt_of_div_lt_div h
      rw [lexCompare_cons_gt h, Nat.compare_eq_gt.2 hab]

theorem beBytes_one (x : Nat) : beBytes 1 x = [x % 256] := by
  rw [beBytes_cons]; norm_num; rfl

theorem beBytes_split (j k x : Nat) :
    beBytes (j + k) x = beBytes j (x / 2 ^ (8 * k)) ++ beBytes k x := by
  induction j generalizing x with
  | zero => simp [beBytes]
  | succ j ih =>
    have hdiv : x / 2 ^ (8 * (j + k)) = x / 2 ^ (8 * k) / 2 ^ (8 * j) := by
      rw [Nat.div_div_eq_div_mul, ← pow_add]; ring_nf
    rw [show j + 1 + k = (j + k) + 1 by ring, beBytes_cons, beBytes_cons, ih, hdiv,
      List.cons_append]

theorem beBytes_congr_mod {k x y : Nat} (h : x % 2 ^ (8 * k) = y % 2 ^ (8 * k)) :
    beBytes k x = beBytes k y := by
  rw [← beBytes_mod k x, h, beBytes_mod]

theorem nat_compare_add_left (c a b : Nat) : compare (c + a) (c + b) = compare a b := by
  rcases lt_trichotomy a b with h | h | h
  · rw [Nat.compare_eq_lt.2 h, Nat.compare_eq_lt.2 (by omega)]
  · rw [h, nat_compare_self, nat_compare_self]
  · rw [Nat.compare_eq_gt.2 h, Nat.compare_eq_gt.2 (by omega)]

/-! ## Unsigned variable-length integers (§4.2.1) -/

theorem clsU_le (v : Nat) : clsU v ≤ 8 := by
  unfold clsU; split_ifs <;> omega

theorem clsU_lt {v : Nat} (hv : v < 2 ^ 64) : v < 2 ^ (8 * clsU v + 4) := by
  unfold clsU; split_ifs <;> norm_num <;> omega

set_option maxHeartbeats 1600000 in
theorem clsU_mono {a b : Nat} (h : a ≤ b) : clsU a ≤ clsU b := by
  unfold clsU; split_ifs <;> omega

/-- Uniform closed form of `emit_var_u64`: class `c` writes the `c + 1`
big-endian bytes of `v + 16·c·2^(8c)`, i.e. the value with the length
nibble `c` glued above its top bits. -/
theorem emit_var_u64_eq {v : Nat} (hv : v < 2 ^ 64) :
    emit_var_u64 v = beBytes (clsU v + 1) (v + 16 * clsU v * 2 ^ (8 * clsU v)) := by
  unfold emit_var_u64 clsU
  simp only [Nat.shiftLeft_eq, one_mul]
  have hsr : ∀ s : Nat, v >>> s = v / 2 ^ s := fun s => Nat.shiftRight_eq_div_pow v s
  split_ifs with h0 h1 h2 h3 h4 h5 h6 h7
  · -- class 0, one byte
    rw [show 16 * 0 * 2 ^ (8 * 0) = 0 by norm_num, Nat.add_zero, beBytes_one]
    norm_num
  · -- class 1, two bytes
    rw [Nat.mod_eq_of_lt (show v < 2 ^ 16 by omega),
      or_pow_eq_add (show v < 2 ^ 12 by omega)]
    exact beBytes_congr_mod (by omega)
  · -- class 2, three bytes
    rw [hsr 16, Nat.mod_eq_of_lt (show v / 2 ^ 16 < 2 ^ 8 by omega),
      or_mul_eq_add 2 (show v / 2 ^ 16 < 2 ^ 4 by omega)]
    conv_rhs => rw [beBytes_cons]
    exact congrArg₂ _ (by omega) (beBytes_congr_mod (by omega))
  · -- class 3, four bytes
    rw [Nat.mod_eq_of_lt (show v < 2 ^ 32 by omega),
      or_mul_eq_add 3 (show v < 2 ^ 28 by omega)]
    exact beBytes_congr_mod (by omega)
  · -- class 4, five bytes
    rw [hsr 32, Nat.mod_eq_of_lt (show v / 2 ^ 32 < 2 ^ 8 by omega),
      or_mul_eq_add 4 (show v / 2 ^ 32 < 2 ^ 4 by omega)]
    conv_rhs => rw [beBytes_cons]
    exact congrArg₂ _ (by omega) (beBytes_congr_mod (by omega))
  · -- class 5, six bytes
    rw [hsr 32, Nat.mod_eq_of_lt (show v / 2 ^ 32 < 2 ^ 16 by omega),
      or_mul_eq_add 5 (show v / 2 ^ 32 < 2 ^ 12 by omega)]
    conv_rhs => rw [show (5 : Nat) + 1 = 2 + 4 by norm_num, beBytes_split 2 4]
    refine congrArg₂ _ (beBytes_congr_mod ?_) (beBytes_congr_mod ?_)
    · omega
    · omega
  · -- class 6, seven bytes
    rw [hsr 48, hsr 32, Nat.mod_eq_of_lt (show v / 2 ^ 48 < 2 ^ 8 by omega),
      or_mul_eq_add 6 (show v / 2 ^ 48 < 2 ^ 4 by omega)]
    conv_rhs =>
      rw [show (6 : Nat) + 1 = 3 + 4 by norm_num, beBytes_split 3 4, beBytes_cons,
        Nat.div_div_eq_div_mul]
    rw [List.cons_append]
    refine congrArg₂ _ (by norm_num; omega)
      (congrArg₂ _ (beBytes_congr_mod ?_) (beBytes_congr_mod ?_))
    · omega
    · omega
  · -- class 7, eight bytes
    rw [Nat.mod_eq_of_lt (show v < 2 ^ 64 by omega),
      or_mul_eq_add 7 (show v < 2 ^ 60 by omega)]
    exact beBytes_congr_mod (by omega)
  · -- class 8, nine bytes
    conv_rhs => rw [beBytes_cons]
    exact congrArg₂ _ (by omega) (beBytes_congr_mod (by omega))

theorem nibble_shift {c q : Nat} (hq : q < 16) : (16 * c + q) >>> 4 = c := by
  rw [Nat.shiftRight_eq_div_pow]
  omega

theorem nibble_low {c q : Nat} (hq : q < 16) : (16 * c + q) &&& 0x0F = q := by
  rw [show (0x0F : Nat) = 2 ^ 4 - 1 by norm_num, Nat.and_pow_two_sub_one_eq_mod]
  omega

theorem head_lt_head {ca cb qa qb : Nat} (hc : ca < cb) (hqa : qa < 16) :
    16 * ca + qa < 16 * cb + qb := by
  omega

/-- Structural form: the header byte carries the class in its high nibble
and the value's top four bits in its low nibble; the trailing bytes are the
rest of the value, big-endian. -/
theorem emit_var_u64_head {v : Nat} (hv : v < 2 ^ 64) :
    emit_var_u64 v = (16 * clsU v + v / 2 ^ (8 * clsU v)) :: beBytes (clsU v) v := by
  have hc := clsU_le v
  have hbound := clsU_lt hv
  have hdig : v / 2 ^ (8 * clsU v) < 16 := by
    apply Nat.div_lt_of_lt_mul
    calc v < 2 ^ (8 * clsU v + 4) := hbound
    _ = 2 ^ (8 * clsU v) * 16 := by rw [pow_add]; norm_num
  rw [emit_var_u64_eq hv, beBytes_cons,
    Nat.add_mul_div_right _ _ (by positivity : (0 : Nat) < 2 ^ (8 * clsU v))]
  refine congrArg₂ _ ?_ (beBytes_congr_mod (by rw [Nat.add_mul_mod_self_right]))
  generalize hq : v / 2 ^ (8 * clsU v) = q at hdig ⊢
  have hc8 : clsU v ≤ 8 := hc
  rw [Nat.mod_eq_of_lt (by omega)]
  omega

theorem emit_var_u64_length {v : Nat} (hv : v < 2 ^ 64) :
    (emit_var_u64 v).length = clsU v + 1 := by
  rw [emit_var_u64_eq hv, beBytes_length]

/-- The header digit of `emit_var_u64` determines the class: classes
occupy disjoint, increasing first-byte ranges `[16c, 16c + 16)`. -/
theorem readVarTail_beBytes {j : Nat} (hj : j ≤ 8) {x : Nat} (hx : x < 2 ^ (8 * j))
    {acc : Nat} (hacc : acc < 2 ^ 64) (r : List Nat) :
    readVarTail j acc (beBytes j x ++ r) = .ok ((acc + x) % 2 ^ 64, r) := by
  induction j generalizing x acc with
  | zero =>
    have hx0 : x = 0 := by simpa using hx
    subst hx0
    show readVarTail 0 acc ([] ++ r) = _
    simp only [List.nil_append, readVarTail]
    rw [Nat.add_zero, Nat.mod_eq_of_lt hacc]
  | succ j ih =>
    have hj' : j ≤ 7 := by omega
    have hshift : 8 * j % 64 = 8 * j := Nat.mod_eq_of_lt (by omega)
    have hdig : x / 2 ^ (8 * j) < 256 := by
      apply Nat.div_lt_of_lt_mul
      calc x < 2 ^ (8 * (j + 1)) := hx
      _ = 2 ^ (8 * j) * 256 := by rw [show 8 * (j + 1) = 8 * j + 8 by ring, pow_add]; norm_num
    rw [beBytes_cons, List.cons_append, Nat.mod_eq_of_lt hdig]
    show readVarTail j _ _ = _
    rw [← beBytes_mod j x,
      ih (by omega) (Nat.mod_lt _ (by positivity)) (Nat.mod_lt _ (by norm_num))]
    have hxsplit := Nat.div_add_mod x (2 ^ (8 * j))
    have harith : ((acc + x / 2 ^ (8 * j) * 2 ^ (8 * j)) % 2 ^ 64 + x % 2 ^ (8 * j)) % 2 ^ 64
        = (acc + x) % 2 ^ 64 := by
      rw [Nat.mod_add_mod, Nat.add_assoc, Nat.mul_comm (x / 2 ^ (8 * j)) (2 ^ (8 * j)), hxsplit]
    rw [Nat.shiftLeft_eq, hshift, harith]

theorem readVarTail_eof {j : Nat} {l : List Nat} (h : l.length < j) (acc : Nat) :
    readVarTail j acc l = .error .eof := by
  induction j generalizing l acc with
  | zero => omega
  | succ j ih =>
    cases l with
    | nil => rfl
    | cons b l => exact ih (by simpa using h) _

theorem readVarTail_ok {j : Nat} {l : List Nat} (h : j ≤ l.length) {acc : Nat}
    (hacc : acc < 2 ^ 64) :
    ∃ v, v < 2 ^ 64 ∧ readVarTail j acc l = .ok (v, l.drop j) := by
  induction j generalizing l acc with
  | zero => exact ⟨acc, hacc, rfl⟩
  | succ j ih =>
    cases l with
    | nil => simp at h
    | cons b l =>
      have h' : j ≤ l.length := by simpa using h
      obtain ⟨v, hv, he⟩ :=
        ih h' (show (acc + (b <<< (8 * j % 64))) % 2 ^ 64 < 2 ^ 64 from
          Nat.mod_lt _ (by norm_num))
      exact ⟨v, hv, he⟩

/-- Round trip of the variable-length `u64` codec. -/
theorem read_var_u64_emit {v : Nat} (hv : v < 2 ^ 64) (r : List Nat) :
    read_var_u64 (emit_var_u64 v ++ r) = .ok (v, r) := by
  have hc := clsU_le v
  have hbound := clsU_lt hv
  have hdig : v / 2 ^ (8 * clsU v) < 16 := by
    apply Nat.div_lt_of_lt_mul
    calc v < 2 ^ (8 * clsU v + 4) := hbound
    _ = 2 ^ (8 * clsU v) * 16 := by rw [pow_add]; norm_num
  rw [emit_var_u64_head hv, List.cons_append]
  show readVarTail _ _ _ = _
  rw [nibble_shift hdig, nibble_low hdig]
  have hacc : (v / 2 ^ (8 * clsU v)) <<< (8 * clsU v % 64) % 2 ^ 64
      = v / 2 ^ (8 * clsU v) * 2 ^ (8 * clsU v) := by
    rcases Nat.lt_or_ge (clsU v) 8 with h8 | h8
    · rw [Nat.mod_eq_of_lt (show 8 * clsU v < 64 by omega), Nat.shiftLeft_eq]
      apply Nat.mod_eq_of_lt
      calc v / 2 ^ (8 * clsU v) * 2 ^ (8 * clsU v) ≤ v := Nat.div_mul_le_self v _
      _ < 2 ^ 64 := hv
    · have hc8 : clsU v = 8 := by omega
      rw [hc8, show (8 : Nat) * 8 = 64 by norm_num, Nat.div_eq_of_lt hv]
      simp
  rw [hacc, ← beBytes_mod _ v,
    readVarTail_beBytes hc (Nat.mod_lt _ (by positivity))
      (by
        calc v / 2 ^ (8 * clsU v) * 2 ^ (8 * clsU v) ≤ v := Nat.div_mul_le_self v _
        _ < 2 ^ 64 := hv) r]
  have hvsplit : v / 2 ^ (8 * clsU v) * 2 ^ (8 * clsU v) + v % 2 ^ (8 * clsU v) = v := by
    rw [Nat.mul_comm]
    exact Nat.div_add_mod v _
  rw [hvsplit, Nat.mod_eq_of_lt hv]

/-- Order preservation of the variable-length `u64` encoding. -/
theorem emit_var_u64_compare {a b : Nat} (ha : a < 2 ^ 64) (hb : b < 2 ^ 64) :
    lexCompare (emit_var_u64 a) (emit_var_u64 b) = compare a b := by
  have hda : a / 2 ^ (8 * clsU a) < 16 := by
    apply Nat.div_lt_of_lt_mul
    calc a < 2 ^ (8 * clsU a + 4) := clsU_lt ha
    _ = 2 ^ (8 * clsU a) * 16 := by rw [pow_add]; norm_num
  have hdb : b / 2 ^ (8 * clsU b) < 16 := by
    apply Nat.div_lt_of_lt_mul
    calc b < 2 ^ (8 * clsU b + 4) := clsU_lt hb
    _ = 2 ^ (8 * clsU b) * 16 := by rw [pow_add]; norm_num
  rcases lt_trichotomy (clsU a) (clsU b) with hcls | hcls | hcls
  · have hab : a < b := by
      by_contra hle
      exact absurd (clsU_mono (by omega : b ≤ a)) (by omega)
    rw [emit_var_u64_head ha, emit_var_u64_head hb,
      lexCompare_cons_lt (head_lt_head hcls hda), Nat.compare_eq_lt.2 hab]
  · have hKa : a + 16 * clsU a * 2 ^ (8 * clsU a) < 2 ^ (8 * (clsU a + 1)) := by
      have h1 := clsU_lt ha
      have h2 := clsU_le a
      calc a + 16 * clsU a * 2 ^ (8 * clsU a)
          < 2 ^ (8 * clsU a + 4) + 16 * 8 * 2 ^ (8 * clsU a) := by
            have h3 : 16 * clsU a * 2 ^ (8 * clsU a) ≤ 16 * 8 * 2 ^ (8 * clsU a) :=
              Nat.mul_le_mul_right _ (by omega)
            omega
      _ ≤ 2 ^ (8 * (clsU a + 1)) := by
            rw [show 8 * (clsU a + 1) = 8 * clsU a + 8 by ring, pow_add, pow_add]
            have h4 : (0 : Nat) < 2 ^ (8 * clsU a) := by positivity
            nlinarith
    have hKb : b + 16 * clsU b * 2 ^ (8 * clsU b) < 2 ^ (8 * (clsU b + 1)) := by
      have h1 := clsU_lt hb
      have h2 := clsU_le b
      calc b + 16 * clsU b * 2 ^ (8 * clsU b)
          < 2 ^ (8 * clsU b + 4) + 16 * 8 * 2 ^ (8 * clsU b) := by
            have h3 : 16 * clsU b * 2 ^ (8 * clsU b) ≤ 16 * 8 * 2 ^ (8 * clsU b) :=
              Nat.mul_le_mul_right _ (by omega)
            omega
      _ ≤ 2 ^ (8 * (clsU b + 1)) := by
            rw [show 8 * (clsU b + 1) = 8 * clsU b + 8 by ring, pow_add, pow_add]
            have h4 : (0 : Nat) < 2 ^ (8 * clsU b) := by positivity
            nlinarith
    rw [emit_var_u64_eq ha, emit_var_u64_eq hb, hcls]
    rw [hcls] at hKa
    rw [beBytes_compare hKa hKb]
    rcases lt_trichotomy a b with h | h | h
    · rw [Nat.compare_eq_lt.2 h, Nat.compare_eq_lt.2 (by omega)]
    · rw [h, nat_compare_self, nat_compare_self]
    · rw [Nat.compare_eq_gt.2 h, Nat.compare_eq_gt.2 (by omega)]
  · have hab : b < a := by
      by_contra hle
      exact absurd (clsU_mono (by omega : a ≤ b)) (by omega)
    rw [emit_var_u64_head ha, emit_var_u64_head hb,
      lexCompare_cons_gt (head_lt_head hcls hdb), Nat.compare_eq_gt.2 hab]


/-! ## Signed variable-length integers (§4.2.2) -/

theorem complement_div_mod {M x : Nat} (hM : 0 < M) (hx : x < M * 256) :
    (M * 256 - 1 - x) / M = 255 - x / M ∧ (M * 256 - 1 - x) % M = M - 1 - x % M := by
  have hq : x / M < 256 := Nat.div_lt_of_lt_mul hx
  have hr : x % M < M := Nat.mod_lt _ hM
  have e1 : M * (x / M) + x % M = x := Nat.div_add_mod x M
  have key : M * 256 - 1 - x = M * (255 - x / M) + (M - 1 - x % M) := by
    zify [show x ≤ M * 256 - 1 by omega, show x / M ≤ 255 by omega,
      show x % M ≤ M - 1 by omega, show 1 ≤ M * 256 by omega, show 1 ≤ M by omega]
    have e1z : (M : Int) * (x / M : Nat) + (x % M : Nat) = x := by exact_mod_cast e1
    linarith [e1z, mul_comm (M : Int) ((x / M : Nat) : Int)]
  constructor
  · rw [key, Nat.mul_add_div hM,
      Nat.div_eq_of_lt (show M - 1 - x % M < M by omega), Nat.add_zero]
  · rw [key, Nat.mul_add_mod, Nat.mod_eq_of_lt (show M - 1 - x % M < M by omega)]

theorem beBytes_complement {k x : Nat} (hx : x < 2 ^ (8 * k)) :
    beBytes k (2 ^ (8 * k) - 1 - x) = (beBytes k x).map (fun b => 255 - b) := by
  induction k generalizing x with
  | zero => rfl
  | succ k ih =>
    have hM : (0 : Nat) < 2 ^ (8 * k) := by positivity
    have h8 : (2 : Nat) ^ (8 * (k + 1)) = 2 ^ (8 * k) * 256 := by
      rw [show 8 * (k + 1) = 8 * k + 8 by ring, pow_add]; norm_num
    have hx' : x < 2 ^ (8 * k) * 256 := h8 ▸ hx
    obtain ⟨hdiv, hmod⟩ := complement_div_mod hM hx'
    have hq : x / 2 ^ (8 * k) < 256 := Nat.div_lt_of_lt_mul hx'
    rw [beBytes_cons, beBytes_cons, List.map_cons, h8, hdiv]
    refine congrArg₂ _ ?_ ?_
    · rw [Nat.mod_eq_of_lt (Nat.lt_succ_of_le (Nat.sub_le 255 _)), Nat.mod_eq_of_lt hq]
    · rw [← beBytes_mod k (2 ^ (8 * k) * 256 - 1 - x), hmod, ← beBytes_mod k x,
        ih (Nat.mod_lt _ hM)]

/-- Writing the low bytes of the all-ones-masked value is the bytewise
complement of writing the unmasked value. -/
theorem bytes_of_masked {k Y : Nat} (hk : 8 * k ≤ 64) (hY : Y < 2 ^ (8 * k)) :
    beBytes k (2 ^ 64 - 1 - Y) = (beBytes k Y).map (fun b => 255 - b) := by
  have hdvd : 2 ^ (8 * k) ∣ 2 ^ 64 - 2 ^ (8 * k) :=
    Nat.dvd_sub' (pow_dvd_pow 2 hk) dvd_rfl
  obtain ⟨t, ht⟩ := hdvd
  have hle : (2 : Nat) ^ (8 * k) ≤ 2 ^ 64 := Nat.pow_le_pow_right (by norm_num) hk
  have h1 : 2 ^ 64 - 1 - Y = 2 ^ (8 * k) * t + (2 ^ (8 * k) - 1 - Y) := by omega
  rw [← beBytes_mod k (2 ^ 64 - 1 - Y), h1, Nat.mul_add_mod, beBytes_mod,
    ← beBytes_complement hY]

theorem slice3 (X : Nat) :
    (X >>> 16) % 2 ^ 8 :: beBytes 2 (X % 2 ^ 16) = beBytes 3 X := by
  rw [Nat.shiftRight_eq_div_pow]
  conv_rhs => rw [show (3 : Nat) = 2 + 1 by norm_num, beBytes_cons]
  exact congrArg₂ _ (by norm_num) (beBytes_congr_mod (by omega))

theorem slice5 (X : Nat) :
    (X >>> 32) % 2 ^ 8 :: beBytes 4 (X % 2 ^ 32) = beBytes 5 X := by
  rw [Nat.shiftRight_eq_div_pow]
  conv_rhs => rw [show (5 : Nat) = 4 + 1 by norm_num, beBytes_cons]
  exact congrArg₂ _ (by norm_num) (beBytes_congr_mod (by omega))

theorem slice6 (X : Nat) :
    beBytes 2 ((X >>> 32) % 2 ^ 16) ++ beBytes 4 (X % 2 ^ 32) = beBytes 6 X := by
  rw [Nat.shiftRight_eq_div_pow]
  conv_rhs => rw [show (6 : Nat) = 2 + 4 by norm_num, beBytes_split 2 4]
  exact congrArg₂ _ (beBytes_congr_mod (by omega)) (beBytes_congr_mod (by omega))

theorem slice7 (X : Nat) :
    (X >>> 48) % 2 ^ 8 ::
      (beBytes 2 ((X >>> 32) % 2 ^ 16) ++ beBytes 4 (X % 2 ^ 32)) = beBytes 7 X := by
  rw [Nat.shiftRight_eq_div_pow, Nat.shiftRight_eq_div_pow]
  conv_rhs => rw [show (7 : Nat) = 3 + 4 by norm_num, beBytes_split 3 4,
    show (3 : Nat) = 2 + 1 by norm_num, beBytes_cons]
  rw [List.cons_append]
  refine congrArg₂ _ ?_ (congrArg₂ _ (beBytes_congr_mod ?_) (beBytes_congr_mod ?_))
  · rw [Nat.div_div_eq_div_mul]
    norm_num
  · omega
  · omega

theorem clsI_le (m : Nat) : clsI m ≤ 8 := by
  unfold clsI; split_ifs <;> omega

theorem clsI_lt {m : Nat} (hm : m < 2 ^ 63) : m < 2 ^ (8 * clsI m + 3) := by
  unfold clsI; split_ifs <;> omega

set_option maxHeartbeats 1600000 in
theorem clsI_mono {a b : Nat} (h : a ≤ b) : clsI a ≤ clsI b := by
  unfold clsI; split_ifs <;> omega


theorem beBytes_mod_wide {k t x : Nat} (h : 8 * k ≤ t) :
    beBytes k (x % 2 ^ t) = beBytes k x := by
  rw [← beBytes_mod k (x % 2 ^ t), Nat.mod_mod_of_dvd _ (pow_dvd_pow 2 h), beBytes_mod]

set_option maxHeartbeats 4000000 in
/-- Uniform closed form of `emit_var_i64`: with `m` the adjusted magnitude
and `c` its length class, the encoding is the `c + 1` big-endian bytes of
`m + (0x10 + c)·2^(8c+3)` (header OR-ed above the magnitude), complemented
bytewise when the input is negative (the XOR with the all-ones mask). -/
theorem emit_var_i64_eq {v : Int} (hlo : -(2 ^ 63) ≤ v) (hhi : v < 2 ^ 63) :
    emit_var_i64 v =
      if 0 ≤ v then
        beBytes (clsI (mI v) + 1) (mI v + (16 + clsI (mI v)) * 2 ^ (8 * clsI (mI v) + 3))
      else
        (beBytes (clsI (mI v) + 1)
          (mI v + (16 + clsI (mI v)) * 2 ^ (8 * clsI (mI v) + 3))).map
          (fun b => 255 - b) := by
  have hm : mI v < 2 ^ 63 := by
    unfold mI
    split_ifs with h
    · omega
    · omega
  rcases le_or_lt 0 v with hv0 | hv0
  · rw [if_pos hv0]
    have hmask : iMask v = 0 := by unfold iMask; rw [if_neg (by omega)]
    unfold emit_var_i64 clsI
    rw [hmask]
    simp only [Nat.shiftLeft_eq, one_mul, Nat.xor_zero, Nat.zero_mod]
    set m := mI v with hmdef
    split_ifs with h0 h1 h2 h3 h4 h5 h6 h7
    · conv_rhs => rw [beBytes_cons]
      rw [or_mul_eq_add 16 (show m < 2 ^ 3 by omega)]
      exact congrArg₂ _ (by omega) rfl
    · rw [beBytes_mod_wide (by norm_num), or_mul_eq_add 17 (show m < 2 ^ 11 by omega)]
      exact beBytes_congr_mod (by omega)
    · rw [slice3, or_mul_eq_add 18 (show m < 2 ^ 19 by omega)]
      exact beBytes_congr_mod (by omega)
    · rw [beBytes_mod_wide (by norm_num), or_mul_eq_add 19 (show m < 2 ^ 27 by omega)]
      exact beBytes_congr_mod (by omega)
    · rw [slice5, or_mul_eq_add 20 (show m < 2 ^ 35 by omega)]
      exact beBytes_congr_mod (by omega)
    · rw [slice6, or_mul_eq_add 21 (show m < 2 ^ 43 by omega)]
      exact beBytes_congr_mod (by omega)
    · rw [slice7, or_mul_eq_add 22 (show m < 2 ^ 51 by omega)]
      exact beBytes_congr_mod (by omega)
    · rw [beBytes_mod_wide (by norm_num), or_mul_eq_add 23 (show m < 2 ^ 59 by omega)]
      exact beBytes_congr_mod (by omega)
    · rw [beBytes_mod_wide (by norm_num)]
      conv_rhs => rw [beBytes_cons]
      exact congrArg₂ _ (by omega) (beBytes_congr_mod (by omega))
  · rw [if_neg (by omega)]
    have hmask : iMask v = 2 ^ 64 - 1 := by unfold iMask; rw [if_pos hv0]
    unfold emit_var_i64 clsI
    rw [hmask]
    simp only [Nat.shiftLeft_eq, one_mul]
    set m := mI v with hmdef
    split_ifs with h0 h1 h2 h3 h4 h5 h6 h7
    · rw [or_mul_eq_add 16 (show m < 2 ^ 3 by omega),
        xor_complement (show 16 * 2 ^ 3 + m < 2 ^ 64 by omega)]
      conv_rhs => rw [beBytes_cons, List.map_cons]
      exact congrArg₂ _ (by omega) rfl
    · rw [beBytes_mod_wide (by norm_num), or_mul_eq_add 17 (show m < 2 ^ 11 by omega),
        xor_complement (show 17 * 2 ^ 11 + m < 2 ^ 64 by omega),
        bytes_of_masked (show 8 * 2 ≤ 64 by norm_num)
          (show 17 * 2 ^ 11 + m < 2 ^ (8 * 2) by omega)]
      exact congrArg _ (beBytes_congr_mod (by omega))
    · rw [or_mul_eq_add 18 (show m < 2 ^ 19 by omega),
        xor_complement (show 18 * 2 ^ 19 + m < 2 ^ 64 by omega), slice3,
        bytes_of_masked (show 8 * 3 ≤ 64 by norm_num)
          (show 18 * 2 ^ 19 + m < 2 ^ (8 * 3) by omega)]
      exact congrArg _ (beBytes_congr_mod (by omega))
    · rw [beBytes_mod_wide (by norm_num), or_mul_eq_add 19 (show m < 2 ^ 27 by omega),
        xor_complement (show 19 * 2 ^ 27 + m < 2 ^ 64 by omega),
        bytes_of_masked (show 8 * 4 ≤ 64 by norm_num)
          (show 19 * 2 ^ 27 + m < 2 ^ (8 * 4) by omega)]
      exact congrArg _ (beBytes_congr_mod (by omega))
    · rw [or_mul_eq_add 20 (show m < 2 ^ 35 by omega),
        xor_complement (show 20 * 2 ^ 35 + m < 2 ^ 64 by omega), slice5,
        bytes_of_masked (show 8 * 5 ≤ 64 by norm_num)
          (show 20 * 2 ^ 35 + m < 2 ^ (8 * 5) by omega)]
      exact congrArg _ (beBytes_congr_mod (by omega))
    · rw [or_mul_eq_add 21 (show m < 2 ^ 43 by omega),
        xor_complement (show 21 * 2 ^ 43 + m < 2 ^ 64 by omega), slice6,
        bytes_of_masked (show 8 * 6 ≤ 64 by norm_num)
          (show 21 * 2 ^ 43 + m < 2 ^ (8 * 6) by omega)]
      exact congrArg _ (beBytes_congr_mod (by omega))
    · rw [or_mul_eq_add 22 (show m < 2 ^ 51 by omega),
        xor_complement (show 22 * 2 ^ 51 + m < 2 ^ 64 by omega), slice7,
        bytes_of_masked (show 8 * 7 ≤ 64 by norm_num)
          (show 22 * 2 ^ 51 + m < 2 ^ (8 * 7) by omega)]
      exact congrArg _ (beBytes_congr_mod (by omega))
    · rw [beBytes_mod_wide (by norm_num), or_mul_eq_add 23 (show m < 2 ^ 59 by omega),
        xor_complement (show 23 * 2 ^ 59 + m < 2 ^ 64 by omega),
        bytes_of_masked (show 8 * 8 ≤ 64 by norm_num)
          (show 23 * 2 ^ 59 + m < 2 ^ (8 * 8) by omega)]
      exact congrArg _ (beBytes_congr_mod (by omega))
    · rw [beBytes_mod_wide (by norm_num),
        xor_complement (show m < 2 ^ 64 by omega),
        bytes_of_masked (show 8 * 8 ≤ 64 by norm_num) (show m < 2 ^ (8 * 8) by omega)]
      conv_rhs => rw [beBytes_cons, List.map_cons]
      refine congrArg₂ _ ?_ (congrArg _ (beBytes_congr_mod (by omega)))
      rw [show (24 * 2 ^ 3 ^^^ (2 ^ 64 - 1) % 2 ^ 8) % 2 ^ 8 = 63 from by decide]
      omega


theorem or_eq_xor_of_lt {t k : Nat} (ht : t < 2 ^ k) : t ||| 2 ^ k = t ^^^ 2 ^ k := by
  apply Nat.eq_of_testBit_eq
  intro i
  rw [Nat.testBit_lor, Nat.testBit_xor, Nat.testBit_two_pow]
  rcases eq_or_ne k i with rfl | hne
  · simp [Nat.testBit_lt_two_pow ht]
  · simp [hne]

theorem add_pow_xor {t k : Nat} (ht : t < 2 ^ k) : (t + 2 ^ k) ^^^ 2 ^ k = t := by
  rw [Nat.add_comm, ← or_pow_eq_add ht, or_eq_xor_of_lt ht, Nat.xor_cancel_right]

theorem xor_pow_add {t k : Nat} (ht : t < 2 ^ k) : t ^^^ 2 ^ k = 2 ^ k + t := by
  rw [← or_eq_xor_of_lt ht, or_pow_eq_add ht]

theorem compl_xor_ff {y : Nat} (hy : y < 256) : (255 - y) ^^^ 0xFF = y := by
  have h := xor_complement (x := 255 - y) (k := 8) (by omega)
  norm_num at h
  rw [h]
  omega

theorem readVarITail_zero (j acc : Nat) (l : List Nat) :
    readVarITail 0 j acc l = readVarTail j acc l := by
  induction j generalizing acc l with
  | zero => rfl
  | succ j ih =>
    cases l with
    | nil => rfl
    | cons b t => simp only [readVarITail, readVarTail, Nat.xor_zero, ih]

theorem readVarITail_compl {j : Nat} (hj : j ≤ 8) {x : Nat} (hx : x < 2 ^ (8 * j))
    {acc : Nat} (hacc : acc < 2 ^ 64) (r : List Nat) :
    readVarITail 0xFF j acc ((beBytes j x).map (fun b => 255 - b) ++ r) =
      .ok ((acc + x) % 2 ^ 64, r) := by
  induction j generalizing x acc with
  | zero =>
    have hx0 : x = 0 := by simpa using hx
    subst hx0
    show readVarITail 0xFF 0 acc ([] ++ r) = _
    simp only [List.nil_append, readVarITail]
    rw [Nat.add_zero, Nat.mod_eq_of_lt hacc]
  | succ j ih =>
    have hshift : 8 * j % 64 = 8 * j := Nat.mod_eq_of_lt (by omega)
    have hdig : x / 2 ^ (8 * j) < 256 := by
      apply Nat.div_lt_of_lt_mul
      calc x < 2 ^ (8 * (j + 1)) := hx
      _ = 2 ^ (8 * j) * 256 := by rw [show 8 * (j + 1) = 8 * j + 8 by ring, pow_add]; norm_num
    rw [beBytes_cons, List.map_cons, List.cons_append, Nat.mod_eq_of_lt hdig]
    show readVarITail 0xFF j _ _ = _
    rw [compl_xor_ff hdig, ← beBytes_mod j x,
      ih (by omega) (Nat.mod_lt _ (by positivity)) (Nat.mod_lt _ (by norm_num))]
    have hxsplit := Nat.div_add_mod x (2 ^ (8 * j))
    have harith : ((acc + x / 2 ^ (8 * j) * 2 ^ (8 * j)) % 2 ^ 64 + x % 2 ^ (8 * j)) % 2 ^ 64
        = (acc + x) % 2 ^ 64 := by
      rw [Nat.mod_add_mod, Nat.add_assoc, Nat.mul_comm (x / 2 ^ (8 * j)) (2 ^ (8 * j)), hxsplit]
    rw [Nat.shiftLeft_eq, hshift, harith]

theorem read_var_i64_eval {h : Nat} {l : List Nat} (mask n acc : Nat)
    (hmask : mask = if h ^^^ 0x80 < 0x80 then 0 else 0xFF)
    (hn : n = ((h >>> 3) ^^^ mask) &&& 0x0F)
    (hacc : acc = (((h ^^^ mask) &&& 0x07) <<< (8 * n % 64)) % 2 ^ 64) :
    read_var_i64 (h :: l) =
      match readVarITail mask n acc l with
      | .error e => .error e
      | .ok (val, rest) =>
        .ok (toI64 (val ^^^ (if mask = 0 then 0 else 2 ^ 64 - 1)), rest) := by
  subst hmask
  subst hn
  subst hacc
  rfl

theorem beBytesI_step {m : Nat} (hm : m < 2 ^ 63) :
    beBytes (clsI m + 1) (m + (16 + clsI m) * 2 ^ (8 * clsI m + 3)) =
      (128 + 8 * clsI m + m / 2 ^ (8 * clsI m)) :: beBytes (clsI m) m := by
  have hc := clsI_le m
  have hd : m / 2 ^ (8 * clsI m) < 8 := by
    apply Nat.div_lt_of_lt_mul
    calc m < 2 ^ (8 * clsI m + 3) := clsI_lt hm
    _ = 2 ^ (8 * clsI m) * 8 := by rw [pow_add]; norm_num
  have hh : (16 + clsI m) * 2 ^ (8 * clsI m + 3) = ((16 + clsI m) * 8) * 2 ^ (8 * clsI m) := by
    rw [pow_add]; ring
  rw [hh, beBytes_cons,
    Nat.add_mul_div_right _ _ (by positivity : (0 : Nat) < 2 ^ (8 * clsI m))]
  refine congrArg₂ _ ?_ (beBytes_congr_mod (by rw [Nat.add_mul_mod_self_right]))
  set d := m / 2 ^ (8 * clsI m) with hdd
  rw [Nat.mod_eq_of_lt (by omega)]
  omega

theorem mI_lt {v : Int} (hlo : -(2 ^ 63) ≤ v) (hhi : v < 2 ^ 63) : mI v < 2 ^ 63 := by
  unfold mI
  split_ifs with h
  · omega
  · omega

theorem emit_var_i64_head_pos {v : Int} (hv0 : 0 ≤ v) (hhi : v < 2 ^ 63) :
    emit_var_i64 v =
      (128 + 8 * clsI (mI v) + mI v / 2 ^ (8 * clsI (mI v))) ::
        beBytes (clsI (mI v)) (mI v) := by
  rw [emit_var_i64_eq (by omega) hhi, if_pos hv0, beBytesI_step (mI_lt (by omega) hhi)]

theorem emit_var_i64_head_neg {v : Int} (hv0 : v < 0) (hlo : -(2 ^ 63) ≤ v) :
    emit_var_i64 v =
      (127 - (8 * clsI (mI v) + mI v / 2 ^ (8 * clsI (mI v)))) ::
        (beBytes (clsI (mI v)) (mI v)).map (fun b => 255 - b) := by
  have hm : mI v < 2 ^ 63 := mI_lt hlo (by omega)
  rw [emit_var_i64_eq hlo (by omega), if_neg (by omega), beBytesI_step hm, List.map_cons]
  refine congrArg₂ _ ?_ rfl
  have hc := clsI_le (mI v)
  have hd : mI v / 2 ^ (8 * clsI (mI v)) < 8 := by
    apply Nat.div_lt_of_lt_mul
    calc mI v < 2 ^ (8 * clsI (mI v) + 3) := clsI_lt hm
    _ = 2 ^ (8 * clsI (mI v)) * 8 := by rw [pow_add]; norm_num
  set d := mI v / 2 ^ (8 * clsI (mI v)) with hdd
  omega

theorem emit_var_i64_length {v : Int} (hlo : -(2 ^ 63) ≤ v) (hhi : v < 2 ^ 63) :
    (emit_var_i64 v).length = clsI (mI v) + 1 := by
  rw [emit_var_i64_eq hlo hhi]
  split_ifs
  · rw [beBytes_length]
  · rw [List.length_map, beBytes_length]


theorem read_var_i64_eval_ok {h : Nat} {l rest : List Nat} {mask n acc val : Nat}
    (hmask : mask = if h ^^^ 0x80 < 0x80 then 0 else 0xFF)
    (hn : n = ((h >>> 3) ^^^ mask) &&& 0x0F)
    (hacc : acc = (((h ^^^ mask) &&& 0x07) <<< (8 * n % 64)) % 2 ^ 64)
    (hrun : readVarITail mask n acc l = .ok (val, rest)) :
    read_var_i64 (h :: l) =
      .ok (toI64 (val ^^^ (if mask = 0 then 0 else 2 ^ 64 - 1)), rest) := by
  subst hmask
  subst hn
  subst hacc
  simp only [read_var_i64]
  rw [hrun]

theorem read_var_i64_pos_core {c m : Nat} (hc : c ≤ 8) (hm : m < 2 ^ 63)
    (hd : m / 2 ^ (8 * c) < 8) (r : List Nat) :
    read_var_i64 (((128 + 8 * c + m / 2 ^ (8 * c)) :: beBytes c m) ++ r)
      = .ok ((m : Int), r) := by
  obtain ⟨d, hdd, hd8⟩ : ∃ d, m / 2 ^ (8 * c) = d ∧ d < 8 := ⟨_, rfl, hd⟩
  rw [hdd]
  rw [List.cons_append]
  have h1 : (128 + 8 * c + d) ^^^ 0x80 = 8 * c + d := by
    rw [show 128 + 8 * c + d = (8 * c + d) + 2 ^ 7 by omega,
      show (0x80 : Nat) = 2 ^ 7 by norm_num,
      add_pow_xor (show 8 * c + d < 2 ^ 7 by omega)]
  have hdm : d * 2 ^ (8 * c) ≤ m := hdd ▸ Nat.div_mul_le_self m _
  have hds : d * 2 ^ (8 * c) + m % 2 ^ (8 * c) = m := by
    rw [← hdd, Nat.mul_comm]
    exact Nat.div_add_mod m _
  have haccv : ((d <<< (8 * c % 64)) % 2 ^ 64 : Nat) = d * 2 ^ (8 * c) := by
    rcases Nat.lt_or_ge c 8 with h8 | h8
    · rw [Nat.mod_eq_of_lt (show 8 * c < 64 by omega), Nat.shiftLeft_eq]
      exact Nat.mod_eq_of_lt (by omega)
    · have hc8 : c = 8 := by omega
      have hd0 : d = 0 := by
        rw [← hdd, hc8]
        exact Nat.div_eq_of_lt (by omega)
      rw [hd0]
      simp
  have hrun : readVarITail 0 c
      ((((128 + 8 * c + d) ^^^ 0) &&& 0x07) <<< (8 * c % 64) % 2 ^ 64)
      (beBytes c m ++ r) = .ok (m, r) := by
    rw [Nat.xor_zero, show (0x07 : Nat) = 2 ^ 3 - 1 by norm_num,
      Nat.and_pow_two_sub_one_eq_mod,
      show (128 + 8 * c + d) % 2 ^ 3 = d by omega, haccv, readVarITail_zero,
      ← beBytes_mod c m,
      readVarTail_beBytes hc (Nat.mod_lt _ (by positivity)) (by omega) r]
    rw [hds, Nat.mod_eq_of_lt (by omega)]
  rw [read_var_i64_eval_ok
    (by rw [h1, if_pos (show 8 * c + d < 0x80 by omega)])
    (by
      rw [Nat.xor_zero, Nat.shiftRight_eq_div_pow,
        show (0x0F : Nat) = 2 ^ 4 - 1 by norm_num, Nat.and_pow_two_sub_one_eq_mod]
      omega)
    rfl hrun]
  rw [if_pos rfl, Nat.xor_zero]
  unfold toI64
  rw [if_pos (show m < 2 ^ 63 by omega)]

theorem read_var_i64_neg_core {c m : Nat} (hc : c ≤ 8) (hm : m < 2 ^ 63)
    (hd : m / 2 ^ (8 * c) < 8) (r : List Nat) :
    read_var_i64 (((127 - (8 * c + m / 2 ^ (8 * c))) ::
        (beBytes c m).map (fun b => 255 - b)) ++ r)
      = .ok (-(m : Int) - 1, r) := by
  obtain ⟨d, hdd, hd8⟩ : ∃ d, m / 2 ^ (8 * c) = d ∧ d < 8 := ⟨_, rfl, hd⟩
  rw [hdd]
  rw [List.cons_append]
  have h1 : (127 - (8 * c + d)) ^^^ 0x80 = 2 ^ 7 + (127 - (8 * c + d)) := by
    rw [show (0x80 : Nat) = 2 ^ 7 by norm_num,
      xor_pow_add (show 127 - (8 * c + d) < 2 ^ 7 by omega)]
  have h2 : (127 - (8 * c + d)) ^^^ 0xFF = 128 + 8 * c + d := by
    have h := xor_complement (x := 127 - (8 * c + d)) (k := 8) (by omega)
    norm_num at h
    rw [h]
    omega
  have hdm : d * 2 ^ (8 * c) ≤ m := hdd ▸ Nat.div_mul_le_self m _
  have hds : d * 2 ^ (8 * c) + m % 2 ^ (8 * c) = m := by
    rw [← hdd, Nat.mul_comm]
    exact Nat.div_add_mod m _
  have haccv : ((d <<< (8 * c % 64)) % 2 ^ 64 : Nat) = d * 2 ^ (8 * c) := by
    rcases Nat.lt_or_ge c 8 with h8 | h8
    · rw [Nat.mod_eq_of_lt (show 8 * c < 64 by omega), Nat.shiftLeft_eq]
      exact Nat.mod_eq_of_lt (by omega)
    · have hc8 : c = 8 := by omega
      have hd0 : d = 0 := by
        rw [← hdd, hc8]
        exact Nat.div_eq_of_lt (by omega)
      rw [hd0]
      simp
  have hrun : readVarITail 0xFF c
      ((((127 - (8 * c + d)) ^^^ 0xFF) &&& 0x07) <<< (8 * c % 64) % 2 ^ 64)
      ((beBytes c m).map (fun b => 255 - b) ++ r) = .ok (m, r) := by
    rw [h2, show (0x07 : Nat) = 2 ^ 3 - 1 by norm_num,
      Nat.and_pow_two_sub_one_eq_mod,
      show (128 + 8 * c + d) % 2 ^ 3 = d by omega, haccv,
      ← beBytes_mod c m,
      readVarITail_compl hc (Nat.mod_lt _ (by positivity)) (by omega) r]
    rw [hds, Nat.mod_eq_of_lt (by omega)]
  rw [read_var_i64_eval_ok
    (by rw [h1, if_neg (show ¬2 ^ 7 + (127 - (8 * c + d)) < 0x80 by omega)])
    (by
      rw [Nat.shiftRight_eq_div_pow,
        show (127 - (8 * c + d)) / 2 ^ 3 = 15 - c by omega,
        show (15 - c) ^^^ 0xFF = 240 + c from ?_,
        show (0x0F : Nat) = 2 ^ 4 - 1 by norm_num, Nat.and_pow_two_sub_one_eq_mod]
      · omega
      · have h := xor_complement (x := 15 - c) (k := 8) (by omega)
        norm_num at h
        rw [h]
        omega)
    rfl hrun]
  rw [if_neg (show (0xFF : Nat) ≠ 0 by norm_num),
    xor_complement (show m < 2 ^ 64 by omega)]
  unfold toI64
  rw [if_neg (show ¬(2 ^ 64 - 1 - m < 2 ^ 63) by omega)]
  have hfin : ((2 ^ 64 - 1 - m : Nat) : Int) - 2 ^ 64 = -(m : Int) - 1 := by omega
  rw [hfin]

/-- Round trip of the variable-length `i64` codec. -/
theorem read_var_i64_emit {v : Int} (hlo : -(2 ^ 63) ≤ v) (hhi : v < 2 ^ 63) (r : List Nat) :
    read_var_i64 (emit_var_i64 v ++ r) = .ok (v, r) := by
  have hm := mI_lt hlo hhi
  have hd : mI v / 2 ^ (8 * clsI (mI v)) < 8 := by
    apply Nat.div_lt_of_lt_mul
    calc mI v < 2 ^ (8 * clsI (mI v) + 3) := clsI_lt hm
    _ = 2 ^ (8 * clsI (mI v)) * 8 := by rw [pow_add]; norm_num
  rcases le_or_lt 0 v with hv0 | hv0
  · rw [emit_var_i64_head_pos hv0 hhi, read_var_i64_pos_core (clsI_le _) hm hd r]
    have hval : (mI v : Int) = v := by
      unfold mI
      rw [if_neg (by omega)]
      omega
    rw [hval]
  · rw [emit_var_i64_head_neg hv0 hlo, read_var_i64_neg_core (clsI_le _) hm hd r]
    have hval : -(mI v : Int) - 1 = v := by
      unfold mI
      rw [if_pos hv0]
      omega
    rw [hval]


/-- Rust `Ord::cmp` on `i64` values, as an `Ordering`. -/
def i64Cmp (a b : Int) : Ordering := if a < b then .lt else if a = b then .eq else .gt

theorem i64Cmp_lt {a b : Int} (h : a < b) : i64Cmp a b = .lt := if_pos h

theorem i64Cmp_eq {a : Int} : i64Cmp a a = .eq := by
  unfold i64Cmp
  rw [if_neg (lt_irrefl a), if_pos rfl]

theorem i64Cmp_gt {a b : Int} (h : b < a) : i64Cmp a b = .gt := by
  unfold i64Cmp
  rw [if_neg (by omega), if_neg (by omega)]

theorem mI_lt_iff_pos {a b : Int} (ha : 0 ≤ a) (hb : 0 ≤ b) : mI a < mI b ↔ a < b := by
  unfold mI
  rw [if_neg (by omega), if_neg (by omega)]
  omega

theorem mI_lt_iff_neg {a b : Int} (ha : a < 0) (hb : b < 0) : mI a < mI b ↔ b < a := by
  unfold mI
  rw [if_pos ha, if_pos hb]
  omega

theorem clsI_K_lt {m : Nat} (hm : m < 2 ^ 63) :
    m + (16 + clsI m) * 2 ^ (8 * clsI m + 3) < 2 ^ (8 * (clsI m + 1)) := by
  have h1 := clsI_lt hm
  have h2 := clsI_le m
  calc m + (16 + clsI m) * 2 ^ (8 * clsI m + 3)
      < 2 ^ (8 * clsI m + 3) + 24 * 2 ^ (8 * clsI m + 3) := by
        have h3 : (16 + clsI m) * 2 ^ (8 * clsI m + 3) ≤ 24 * 2 ^ (8 * clsI m + 3) :=
          Nat.mul_le_mul_right _ (by omega)
        omega
  _ = 25 * 2 ^ (8 * clsI m + 3) := by ring
  _ ≤ 32 * 2 ^ (8 * clsI m + 3) := Nat.mul_le_mul_right _ (by norm_num)
  _ = 2 ^ (8 * (clsI m + 1)) := by
        rw [show 8 * (clsI m + 1) = (8 * clsI m + 3) + 5 by ring, pow_add]
        ring

/-- Order preservation of the variable-length `i64` encoding. -/
theorem emit_var_i64_compare {a b : Int}
    (halo : -(2 ^ 63) ≤ a) (hahi : a < 2 ^ 63)
    (hblo : -(2 ^ 63) ≤ b) (hbhi : b < 2 ^ 63) :
    lexCompare (emit_var_i64 a) (emit_var_i64 b) = i64Cmp a b := by
  have hma := mI_lt halo hahi
  have hmb := mI_lt hblo hbhi
  have hca := clsI_le (mI a)
  have hcb := clsI_le (mI b)
  have hda : mI a / 2 ^ (8 * clsI (mI a)) < 8 := by
    apply Nat.div_lt_of_lt_mul
    calc mI a < 2 ^ (8 * clsI (mI a) + 3) := clsI_lt hma
    _ = 2 ^ (8 * clsI (mI a)) * 8 := by rw [pow_add]; norm_num
  have hdb : mI b / 2 ^ (8 * clsI (mI b)) < 8 := by
    apply Nat.div_lt_of_lt_mul
    calc mI b < 2 ^ (8 * clsI (mI b) + 3) := clsI_lt hmb
    _ = 2 ^ (8 * clsI (mI b)) * 8 := by rw [pow_add]; norm_num
  obtain ⟨da, hdda, hda8⟩ :
      ∃ d, mI a / 2 ^ (8 * clsI (mI a)) = d ∧ d < 8 := ⟨_, rfl, hda⟩
  obtain ⟨db, hddb, hdb8⟩ :
      ∃ d, mI b / 2 ^ (8 * clsI (mI b)) = d ∧ d < 8 := ⟨_, rfl, hdb⟩
  rcases le_or_lt 0 a with ha0 | ha0 <;> rcases le_or_lt 0 b with hb0 | hb0
  · -- both non-negative
    rcases lt_trichotomy (clsI (mI a)) (clsI (mI b)) with hcls | hcls | hcls
    · have hmab : mI a < mI b := by
        by_contra hle
        exact absurd (clsI_mono (by omega : mI b ≤ mI a)) (by omega)
      rw [emit_var_i64_head_pos ha0 hahi, emit_var_i64_head_pos hb0 hbhi, hdda, hddb,
        lexCompare_cons_lt (by omega), i64Cmp_lt ((mI_lt_iff_pos ha0 hb0).1 hmab)]
    · have hKa := clsI_K_lt hma
      have hKb := clsI_K_lt hmb
      rw [emit_var_i64_eq halo hahi, emit_var_i64_eq hblo hbhi, if_pos ha0, if_pos hb0,
        hcls]
      rw [hcls] at hKa
      rw [beBytes_compare hKa hKb]
      rcases lt_trichotomy a b with h | h | h
      · have : mI a < mI b := (mI_lt_iff_pos ha0 hb0).2 h
        rw [Nat.compare_eq_lt.2 (by omega), i64Cmp_lt h]
      · rw [h, nat_compare_self, i64Cmp_eq]
      · have : mI b < mI a := (mI_lt_iff_pos hb0 ha0).2 h
        rw [Nat.compare_eq_gt.2 (by omega), i64Cmp_gt h]
    · have hmab : mI b < mI a := by
        by_contra hle
        exact absurd (clsI_mono (by omega : mI a ≤ mI b)) (by omega)
      rw [emit_var_i64_head_pos ha0 hahi, emit_var_i64_head_pos hb0 hbhi, hdda, hddb,
        lexCompare_cons_gt (by omega), i64Cmp_gt ((mI_lt_iff_pos hb0 ha0).1 hmab)]
  · -- a ≥ 0 > b
    rw [emit_var_i64_head_pos ha0 hahi, emit_var_i64_head_neg hb0 hblo, hdda, hddb,
      lexCompare_cons_gt (by omega), i64Cmp_gt (by omega)]
  · -- a < 0 ≤ b
    rw [emit_var_i64_head_neg ha0 halo, emit_var_i64_head_pos hb0 hbhi, hdda, hddb,
      lexCompare_cons_lt (by omega), i64Cmp_lt (by omega)]
  · -- both negative
    rcases lt_trichotomy (clsI (mI a)) (clsI (mI b)) with hcls | hcls | hcls
    · have hmab : mI a < mI b := by
        by_contra hle
        exact absurd (clsI_mono (by omega : mI b ≤ mI a)) (by omega)
      rw [emit_var_i64_head_neg ha0 halo, emit_var_i64_head_neg hb0 hblo, hdda, hddb,
        lexCompare_cons_gt (by omega), i64Cmp_gt ((mI_lt_iff_neg ha0 hb0).1 hmab)]
    · have hKa := clsI_K_lt hma
      have hKb := clsI_K_lt hmb
      have hMpos : (0 : Nat) < 2 ^ (8 * (clsI (mI b) + 1)) := by positivity
      rw [emit_var_i64_eq halo hahi, emit_var_i64_eq hblo hbhi,
        if_neg (by omega), if_neg (by omega), hcls]
      rw [hcls] at hKa
      rw [← beBytes_complement hKa, ← beBytes_complement hKb]
      rw [beBytes_compare (by omega) (by omega)]
      rcases lt_trichotomy a b with h | h | h
      · have : mI b < mI a := (mI_lt_iff_neg hb0 ha0).2 h
        rw [Nat.compare_eq_lt.2 (by omega), i64Cmp_lt h]
      · rw [h, nat_compare_self, i64Cmp_eq]
      · have : mI a < mI b := (mI_lt_iff_neg ha0 hb0).2 h
        rw [Nat.compare_eq_gt.2 (by omega), i64Cmp_gt h]
    · have hmab : mI b < mI a := by
        by_contra hle
        exact absurd (clsI_mono (by omega : mI a ≤ mI b)) (by omega)
      rw [emit_var_i64_head_neg ha0 halo, emit_var_i64_head_neg hb0 hblo, hdda, hddb,
        lexCompare_cons_lt (by omega), i64Cmp_lt ((mI_lt_iff_neg hb0 ha0).1 hmab)]


/-! ## Fixed-width integers (§4.1) -/

/-- The `w`-bit two's-complement pattern of a signed value (`v as uN`). -/
def toU (w : Nat) (v : Int) : Nat := (v % ((2 : Int) ^ w)).toNat

/-- The signed reading of a `w`-bit pattern (inverse of `toU` on range). -/
def toI (w : Nat) (x : Nat) : Int :=
  if x < 2 ^ (w - 1) then (x : Int) else (x : Int) - (2 : Int) ^ w

/-- encoder.rs `emit_u8` … `emit_u64`: big-endian bytes, unchanged. -/
def emit_u8 (v : Nat) : List Nat := beBytes 1 v

def emit_u16 (v : Nat) : List Nat := beBytes 2 v

def emit_u32 (v : Nat) : List Nat := beBytes 4 v

def emit_u64 (v : Nat) : List Nat := beBytes 8 v

/-- encoder.rs `emit_i8` … `emit_i64`: big-endian bytes of `v ^ MIN`
(the two's-complement pattern with the sign bit flipped). -/
def emit_i8 (v : Int) : List Nat := beBytes 1 (toU 8 v ^^^ 2 ^ 7)

def emit_i16 (v : Int) : List Nat := beBytes 2 (toU 16 v ^^^ 2 ^ 15)

def emit_i32 (v : Int) : List Nat := beBytes 4 (toU 32 v ^^^ 2 ^ 31)

def emit_i64 (v : Int) : List Nat := beBytes 8 (toU 64 v ^^^ 2 ^ 63)

/-- Reading `k` big-endian bytes (`read_be_uN` of the byteorder crate). -/
def readN : Nat → List Nat → Except Err (Nat × List Nat)
  | 0, l => .ok (0, l)
  | _ + 1, [] => .error .eof
  | k + 1, b :: l =>
    match readN k l with
    | .error e => .error e
    | .ok (x, r) => .ok (b * 2 ^ (8 * k) + x, r)

/-- decoder.rs `read_i8` … `read_i64`: read the pattern, flip the sign bit
back, reinterpret. -/
def read_i (w k : Nat) (l : List Nat) : Except Err (Int × List Nat) :=
  match readN k l with
  | .error e => .error e
  | .ok (x, r) => .ok (toI w (x ^^^ 2 ^ (w - 1)), r)

theorem readN_beBytes {k x : Nat} (hx : x < 2 ^ (8 * k)) (r : List Nat) :
    readN k (beBytes k x ++ r) = .ok (x, r) := by
  induction k generalizing x with
  | zero =>
    have hx0 : x = 0 := by simpa using hx
    subst hx0
    rfl
  | succ k ih =>
    have hdig : x / 2 ^ (8 * k) < 256 := by
      apply Nat.div_lt_of_lt_mul
      calc x < 2 ^ (8 * (k + 1)) := hx
      _ = 2 ^ (8 * k) * 256 := by rw [show 8 * (k + 1) = 8 * k + 8 by ring, pow_add]; norm_num
    rw [beBytes_cons, List.cons_append]
    simp only [readN]
    rw [← beBytes_mod k x, ih (Nat.mod_lt _ (by positivity))]
    show Except.ok (x / 2 ^ (8 * k) % 256 * 2 ^ (8 * k) + x % 2 ^ (8 * k), r)
      = Except.ok (x, r)
    rw [Nat.mod_eq_of_lt hdig]
    have hsplit : x / 2 ^ (8 * k) * 2 ^ (8 * k) + x % 2 ^ (8 * k) = x := by
      rw [Nat.mul_comm]
      exact Nat.div_add_mod x _
    rw [hsplit]

theorem readN_eof {k : Nat} {l : List Nat} (h : l.length < k) :
    readN k l = .error .eof := by
  induction k generalizing l with
  | zero => omega
  | succ k ih =>
    cases l with
    | nil => rfl
    | cons b t =>
      simp only [readN]
      rw [ih (by simpa using h)]

/-- The sign-flipped pattern is the biased value. -/
theorem toU_xor_bias {k : Nat} {v : Int} (hlo : -((2 ^ k : Nat) : Int) ≤ v)
    (hhi : v < ((2 ^ k : Nat) : Int)) :
    toU (k + 1) v ^^^ 2 ^ k = (v + ((2 ^ k : Nat) : Int)).toNat := by
  have hpow : ((2 : Int) ^ (k + 1)) = 2 * ((2 ^ k : Nat) : Int) := by push_cast; ring
  rcases le_or_lt 0 v with h0 | h0
  · have h1 : toU (k + 1) v = v.toNat := by
      unfold toU
      rw [hpow, Int.emod_eq_of_lt h0 (by omega)]
    rw [h1, xor_pow_add (show v.toNat < 2 ^ k by omega)]
    omega
  · have h1 : toU (k + 1) v = (v + 2 * ((2 ^ k : Nat) : Int)).toNat := by
      unfold toU
      rw [hpow]
      congr 1
      have e1 := Int.add_mul_emod_self_left v (2 * ((2 ^ k : Nat) : Int)) 1
      rw [mul_one] at e1
      rw [← e1, Int.emod_eq_of_lt (by omega) (by omega)]
    rw [h1, show (v + 2 * ((2 ^ k : Nat) : Int)).toNat = (v + ((2 ^ k : Nat) : Int)).toNat + 2 ^ k by omega,
      add_pow_xor (show (v + ((2 ^ k : Nat) : Int)).toNat < 2 ^ k by omega)]

/-- Un-flipping the sign bit and reinterpreting recovers the value. -/
theorem toI_unbias {k : Nat} {v : Int} (hlo : -((2 ^ k : Nat) : Int) ≤ v)
    (hhi : v < ((2 ^ k : Nat) : Int)) :
    toI (k + 1) ((v + ((2 ^ k : Nat) : Int)).toNat ^^^ 2 ^ k) = v := by
  have hpow : ((2 : Int) ^ (k + 1)) = 2 * ((2 ^ k : Nat) : Int) := by push_cast; ring
  have hk1 : k + 1 - 1 = k := rfl
  rcases le_or_lt 0 v with h0 | h0
  · rw [show (v + ((2 ^ k : Nat) : Int)).toNat = v.toNat + 2 ^ k by omega,
      add_pow_xor (show v.toNat < 2 ^ k by omega)]
    unfold toI
    rw [hk1, if_pos (by omega)]
    omega
  · rw [xor_pow_add (show (v + ((2 ^ k : Nat) : Int)).toNat < 2 ^ k by omega)]
    unfold toI
    rw [hk1, if_neg (by omega), hpow]
    omega

/-- Round trip of the fixed-width signed codec at width `k + 1`. -/
theorem read_i_emit {k : Nat} {v : Int} (h8 : (k + 1) % 8 = 0)
    (hlo : -((2 ^ k : Nat) : Int) ≤ v) (hhi : v < ((2 ^ k : Nat) : Int)) (r : List Nat) :
    read_i (k + 1) ((k + 1) / 8) (beBytes ((k + 1) / 8) (toU (k + 1) v ^^^ 2 ^ k) ++ r)
      = .ok (v, r) := by
  have hwk : 8 * ((k + 1) / 8) = k + 1 := by omega
  have hp : toU (k + 1) v ^^^ 2 ^ k < 2 ^ (8 * ((k + 1) / 8)) := by
    rw [hwk, toU_xor_bias hlo hhi]
    have : ((2 : Nat) ^ (k + 1)) = 2 * 2 ^ k := by ring
    omega
  unfold read_i
  rw [readN_beBytes hp, toU_xor_bias hlo hhi]
  show Except.ok (toI (k + 1) ((v + ((2 ^ k : Nat) : Int)).toNat ^^^ 2 ^ (k + 1 - 1)), r)
    = Except.ok (v, r)
  have hk1 : k + 1 - 1 = k := rfl
  rw [hk1, toI_unbias hlo hhi]

/-- Order preservation of the sign-flipped pattern. -/
theorem biased_compare {k : Nat} {a b : Int}
    (halo : -((2 ^ k : Nat) : Int) ≤ a) (hahi : a < ((2 ^ k : Nat) : Int))
    (hblo : -((2 ^ k : Nat) : Int) ≤ b) (hbhi : b < ((2 ^ k : Nat) : Int)) :
    compare (toU (k + 1) a ^^^ 2 ^ k) (toU (k + 1) b ^^^ 2 ^ k) = i64Cmp a b := by
  rw [toU_xor_bias halo hahi, toU_xor_bias hblo hbhi]
  rcases lt_trichotomy a b with h | h | h
  · rw [Nat.compare_eq_lt.2 (by omega), i64Cmp_lt h]
  · rw [h, nat_compare_self, i64Cmp_eq]
  · rw [Nat.compare_eq_gt.2 (by omega), i64Cmp_gt h]


/-! ## Floats (§4.3)

encoder.rs `emit_f32`/`emit_f64` work on the IEEE-754 bit pattern
(`transmute` is the identity on bits): `t = (val >> (w-1)) | iN::MIN`
arithmetic-shifts the sign into every position, so `t` is `2^(w-1)` for a
non-negative pattern and all-ones for a negative one, and the written word
is `val ^ t`. -/

def emit_f32 (bits : Nat) : List Nat :=
  beBytes 4 (bits ^^^ ((if bits < 2 ^ 31 then 0 else 2 ^ 32 - 1) ||| 2 ^ 31))

def emit_f64 (bits : Nat) : List Nat :=
  beBytes 8 (bits ^^^ ((if bits < 2 ^ 63 then 0 else 2 ^ 64 - 1) ||| 2 ^ 63))

/-- decoder.rs `read_f32`: `t = ((val ^ i32::MIN) >> 31) | i32::MIN`, result
`val ^ t`.  `(val ^ MIN) >> 31` is all-ones exactly when `val ^ 2^31` has the
top bit set, i.e. when `val < 2^31`. -/
def read_f32 (l : List Nat) : Except Err (Nat × List Nat) :=
  match readN 4 l with
  | .error e => .error e
  | .ok (x, r) =>
    .ok (x ^^^ ((if x ^^^ 2 ^ 31 < 2 ^ 31 then 0 else 2 ^ 32 - 1) ||| 2 ^ 31), r)

def read_f64 (l : List Nat) : Except Err (Nat × List Nat) :=
  match readN 8 l with
  | .error e => .error e
  | .ok (x, r) =>
    .ok (x ^^^ ((if x ^^^ 2 ^ 63 < 2 ^ 63 then 0 else 2 ^ 64 - 1) ||| 2 ^ 63), r)

/-- A width-32 pattern is a NaN: exponent all ones, mantissa nonzero. -/
def f32IsNaN (p : Nat) : Prop := p / 2 ^ 23 % 2 ^ 8 = 0xFF ∧ p % 2 ^ 23 ≠ 0

instance (p : Nat) : Decidable (f32IsNaN p) := by unfold f32IsNaN; infer_instance

/-- A width-64 pattern is a NaN: exponent all ones, mantissa nonzero. -/
def f64IsNaN (p : Nat) : Prop := p / 2 ^ 52 % 2 ^ 11 = 0x7FF ∧ p % 2 ^ 52 ≠ 0

instance (p : Nat) : Decidable (f64IsNaN p) := by unfold f64IsNaN; infer_instance

/-- IEEE-754 comparison of two non-NaN patterns of width `w` (Rust
`PartialOrd` on `f32`/`f64`): the two zeros compare equal; otherwise a
negative sign sorts first and equal signs compare by magnitude, reversed
when both are negative. -/
def floatCmp (w a b : Nat) : Ordering :=
  if a % 2 ^ (w - 1) = 0 ∧ b % 2 ^ (w - 1) = 0 then .eq
  else if a / 2 ^ (w - 1) ≠ b / 2 ^ (w - 1) then
    (if a / 2 ^ (w - 1) = 1 then .lt else .gt)
  else if a / 2 ^ (w - 1) = 0 then compare (a % 2 ^ (w - 1)) (b % 2 ^ (w - 1))
  else compare (b % 2 ^ (w - 1)) (a % 2 ^ (w - 1))

theorem nat_compare_congr {u v x y : Nat} (h1 : u < v ↔ x < y) (h2 : v < u ↔ y < x) :
    compare u v = compare x y := by
  rcases lt_trichotomy u v with h | h | h
  · rw [Nat.compare_eq_lt.2 h, Nat.compare_eq_lt.2 (h1.1 h)]
  · rw [h, nat_compare_self]
    exact (Nat.compare_eq_eq.2 (by omega)).symm
  · rw [Nat.compare_eq_gt.2 h, Nat.compare_eq_gt.2 (h2.1 h)]

theorem emit_f32_word {x : Nat} (hx : x < 2 ^ 32) :
    x ^^^ ((if x < 2 ^ 31 then 0 else 2 ^ 32 - 1) ||| 2 ^ 31)
      = if x < 2 ^ 31 then 2 ^ 31 + x else 2 ^ 32 - 1 - x := by
  split_ifs with h
  · rw [Nat.zero_or, xor_pow_add h]
  · rw [show (2 ^ 32 - 1 ||| 2 ^ 31 : Nat) = 2 ^ 32 - 1 by decide, xor_complement hx]

theorem emit_f64_word {x : Nat} (hx : x < 2 ^ 64) :
    x ^^^ ((if x < 2 ^ 63 then 0 else 2 ^ 64 - 1) ||| 2 ^ 63)
      = if x < 2 ^ 63 then 2 ^ 63 + x else 2 ^ 64 - 1 - x := by
  split_ifs with h
  · rw [Nat.zero_or, xor_pow_add h]
  · rw [show (2 ^ 64 - 1 ||| 2 ^ 63 : Nat) = 2 ^ 64 - 1 by decide, xor_complement hx]

/-- Round trip of the f32 codec at the bit-pattern level. -/
theorem read_f32_emit {bits : Nat} (hb : bits < 2 ^ 32) (r : List Nat) :
    read_f32 (emit_f32 bits ++ r) = .ok (bits, r) := by
  unfold emit_f32 read_f32
  rw [emit_f32_word hb]
  split_ifs with h
  · rw [readN_beBytes (by omega) r]
    show Except.ok ((2 ^ 31 + bits) ^^^
      ((if (2 ^ 31 + bits) ^^^ 2 ^ 31 < 2 ^ 31 then 0 else 2 ^ 32 - 1) ||| 2 ^ 31), r)
      = Except.ok (bits, r)
    rw [show (2 : Nat) ^ 31 + bits = bits + 2 ^ 31 by ring, add_pow_xor h, if_pos h,
      Nat.zero_or, add_pow_xor h]
  · rw [readN_beBytes (by omega) r]
    show Except.ok ((2 ^ 32 - 1 - bits) ^^^
      ((if (2 ^ 32 - 1 - bits) ^^^ 2 ^ 31 < 2 ^ 31 then 0 else 2 ^ 32 - 1) ||| 2 ^ 31), r)
      = Except.ok (bits, r)
    have hlt : 2 ^ 32 - 1 - bits < 2 ^ 31 := by omega
    rw [xor_pow_add hlt, if_neg (by omega),
      show (2 ^ 32 - 1 ||| 2 ^ 31 : Nat) = 2 ^ 32 - 1 by decide,
      xor_complement (show 2 ^ 32 - 1 - bits < 2 ^ 32 by omega)]
    congr 1
    congr 1
    omega

/-- Round trip of the f64 codec at the bit-pattern level. -/
theorem read_f64_emit {bits : Nat} (hb : bits < 2 ^ 64) (r : List Nat) :
    read_f64 (emit_f64 bits ++ r) = .ok (bits, r) := by
  unfold emit_f64 read_f64
  rw [emit_f64_word hb]
  split_ifs with h
  · rw [readN_beBytes (by omega) r]
    show Except.ok ((2 ^ 63 + bits) ^^^
      ((if (2 ^ 63 + bits) ^^^ 2 ^ 63 < 2 ^ 63 then 0 else 2 ^ 64 - 1) ||| 2 ^ 63), r)
      = Except.ok (bits, r)
    rw [show (2 : Nat) ^ 63 + bits = bits + 2 ^ 63 by ring, add_pow_xor h, if_pos h,
      Nat.zero_or, add_pow_xor h]
  · rw [readN_beBytes (by omega) r]
    show Except.ok ((2 ^ 64 - 1 - bits) ^^^
      ((if (2 ^ 64 - 1 - bits) ^^^ 2 ^ 63 < 2 ^ 63 then 0 else 2 ^ 64 - 1) ||| 2 ^ 63), r)
      = Except.ok (bits, r)
    have hlt : 2 ^ 64 - 1 - bits < 2 ^ 63 := by omega
    rw [xor_pow_add hlt, if_neg (by omega),
      show (2 ^ 64 - 1 ||| 2 ^ 63 : Nat) = 2 ^ 64 - 1 by decide,
      xor_complement (show 2 ^ 64 - 1 - bits < 2 ^ 64 by omega)]
    congr 1
    congr 1
    omega

/-- Order preservation for f32, away from the `-0.0 / +0.0` pair. -/
theorem emit_f32_compare {a b : Nat} (ha : a < 2 ^ 32) (hb : b < 2 ^ 32)
    (hz : ¬(a % 2 ^ 31 = 0 ∧ b % 2 ^ 31 = 0 ∧ a ≠ b)) :
    lexCompare (emit_f32 a) (emit_f32 b) = floatCmp 32 a b := by
  unfold emit_f32
  rw [emit_f32_word ha, emit_f32_word hb,
    beBytes_compare (by split_ifs <;> omega) (by split_ifs <;> omega)]
  unfold floatCmp
  split_ifs <;>
    first
    | rfl
    | exact nat_compare_congr (by omega) (by omega)
    | exact Nat.compare_eq_lt.2 (by omega)
    | exact Nat.compare_eq_gt.2 (by omega)
    | exact Nat.compare_eq_eq.2 (by omega)
    | (exfalso; omega)

/-- Order preservation for f64, away from the `-0.0 / +0.0` pair. -/
theorem emit_f64_compare {a b : Nat} (ha : a < 2 ^ 64) (hb : b < 2 ^ 64)
    (hz : ¬(a % 2 ^ 63 = 0 ∧ b % 2 ^ 63 = 0 ∧ a ≠ b)) :
    lexCompare (emit_f64 a) (emit_f64 b) = floatCmp 64 a b := by
  unfold emit_f64
  rw [emit_f64_word ha, emit_f64_word hb,
    beBytes_compare (by split_ifs <;> omega) (by split_ifs <;> omega)]
  unfold floatCmp
  split_ifs <;>
    first
    | rfl
    | exact nat_compare_congr (by omega) (by omega)
    | exact Nat.compare_eq_lt.2 (by omega)
    | exact Nat.compare_eq_gt.2 (by omega)
    | exact Nat.compare_eq_eq.2 (by omega)
    | (exfalso; omega)


/-! ## Chars and strings (§4.4, §4.5)

encoder.rs `emit_char` writes the scalar's UTF-8 bytes (`char::encode_utf8`);
`emit_str` writes the string's UTF-8 bytes followed by a `0x00` terminator.
Strings are modelled as lists of Unicode scalar values. -/

/-- A Unicode scalar value (what a Rust `char` can hold). -/
def isScalar (c : Nat) : Prop := c < 0x110000 ∧ (c < 0xD800 ∨ 0xE000 ≤ c)

instance (c : Nat) : Decidable (isScalar c) := by unfold isScalar; infer_instance

/-- `char::encode_utf8`. -/
def utf8Char (c : Nat) : List Nat :=
  if c < 0x80 then [c]
  else if c < 0x800 then [0xC0 ||| c >>> 6, 0x80 ||| c &&& 0x3F]
  else if c < 0x10000 then
    [0xE0 ||| c >>> 12, 0x80 ||| (c >>> 6) &&& 0x3F, 0x80 ||| c &&& 0x3F]
  else
    [0xF0 ||| c >>> 18, 0x80 ||| (c >>> 12) &&& 0x3F, 0x80 ||| (c >>> 6) &&& 0x3F,
      0x80 ||| c &&& 0x3F]

def utf8Str : List Nat → List Nat
  | [] => []
  | c :: s => utf8Char c ++ utf8Str s

/-- encoder.rs `emit_char`. -/
def emit_char (c : Nat) : List Nat := utf8Char c

/-- encoder.rs `emit_str`: the UTF-8 bytes, then a `0x00` terminator. -/
def emit_str (s : List Nat) : List Nat := utf8Str s ++ [0]

theorem and_3f (c : Nat) : c &&& 0x3F = c % 0x40 := by
  have := Nat.and_pow_two_sub_one_eq_mod c 6
  norm_num at this
  exact this

theorem lit_or_eq_add {a b k : Nat} (ha : a % 2 ^ k = 0) (hb : b < 2 ^ k) :
    a ||| b = a + b := by
  obtain ⟨q, rfl⟩ : ∃ q, a = q * 2 ^ k :=
    ⟨a / 2 ^ k, (Nat.div_mul_cancel (Nat.dvd_of_mod_eq_zero ha)).symm⟩
  rw [Nat.lor_comm, or_mul_eq_add q hb]

theorem utf8Char_eq {c : Nat} (h : c < 0x110000) : utf8Char c =
    if c < 0x80 then [c]
    else if c < 0x800 then [0xC0 + c / 0x40, 0x80 + c % 0x40]
    else if c < 0x10000 then
      [0xE0 + c / 0x1000, 0x80 + c / 0x40 % 0x40, 0x80 + c % 0x40]
    else
      [0xF0 + c / 0x40000, 0x80 + c / 0x1000 % 0x40, 0x80 + c / 0x40 % 0x40,
        0x80 + c % 0x40] := by
  unfold utf8Char
  simp only [Nat.shiftRight_eq_div_pow, and_3f]
  norm_num
  split_ifs with h1 h2 h3
  · rfl
  · rw [lit_or_eq_add (show (192 : Nat) % 2 ^ 6 = 0 by norm_num)
        (show c / 64 < 2 ^ 6 by omega),
      lit_or_eq_add (show (128 : Nat) % 2 ^ 6 = 0 by norm_num)
        (show c % 64 < 2 ^ 6 by omega)]
  · rw [lit_or_eq_add (show (224 : Nat) % 2 ^ 4 = 0 by norm_num)
        (show c / 4096 < 2 ^ 4 by omega),
      lit_or_eq_add (show (128 : Nat) % 2 ^ 6 = 0 by norm_num)
        (show c / 64 % 64 < 2 ^ 6 by omega),
      lit_or_eq_add (show (128 : Nat) % 2 ^ 6 = 0 by norm_num)
        (show c % 64 < 2 ^ 6 by omega)]
  · rw [lit_or_eq_add (show (240 : Nat) % 2 ^ 3 = 0 by norm_num)
        (show c / 262144 < 2 ^ 3 by omega),
      lit_or_eq_add (show (128 : Nat) % 2 ^ 6 = 0 by norm_num)
        (show c / 4096 % 64 < 2 ^ 6 by omega),
      lit_or_eq_add (show (128 : Nat) % 2 ^ 6 = 0 by norm_num)
        (show c / 64 % 64 < 2 ^ 6 by omega),
      lit_or_eq_add (show (128 : Nat) % 2 ^ 6 = 0 by norm_num)
        (show c % 64 < 2 ^ 6 by omega)]

/-- `std::str::utf8_char_width` of a leading byte (0 marks an invalid lead). -/
def utf8Width (b0 : Nat) : Nat :=
  if b0 < 0x80 then 1
  else if b0 < 0xC2 then 0
  else if b0 < 0xE0 then 2
  else if b0 < 0xF0 then 3
  else if b0 < 0xF5 then 4
  else 0

/-- Validation and decoding of one complete UTF-8 sequence (the
`str::from_utf8` checks, including the E0/ED/F0/F4 continuation ranges). -/
def utf8Decode1 : List Nat → Option Nat
  | [b0] => if b0 < 0x80 then some b0 else none
  | [b0, b1] =>
    if 0xC2 ≤ b0 ∧ b0 < 0xE0 ∧ 0x80 ≤ b1 ∧ b1 < 0xC0 then
      some ((b0 - 0xC0) * 0x40 + (b1 - 0x80))
    else none
  | [b0, b1, b2] =>
    if 0xE0 ≤ b0 ∧ b0 < 0xF0 ∧ (if b0 = 0xE0 then 0xA0 ≤ b1 else 0x80 ≤ b1)
        ∧ (if b0 = 0xED then b1 < 0xA0 else b1 < 0xC0) ∧ 0x80 ≤ b2 ∧ b2 < 0xC0 then
      some ((b0 - 0xE0) * 0x1000 + (b1 - 0x80) * 0x40 + (b2 - 0x80))
    else none
  | [b0, b1, b2, b3] =>
    if 0xF0 ≤ b0 ∧ b0 < 0xF5 ∧ (if b0 = 0xF0 then 0x90 ≤ b1 else 0x80 ≤ b1)
        ∧ (if b0 = 0xF4 then b1 < 0x90 else b1 < 0xC0) ∧ 0x80 ≤ b2 ∧ b2 < 0xC0
        ∧ 0x80 ≤ b3 ∧ b3 < 0xC0 then
      some ((b0 - 0xF0) * 0x40000 + (b1 - 0x80) * 0x1000 + (b2 - 0x80) * 0x40
        + (b3 - 0x80))
    else none
  | _ => none

/-- decoder.rs `read_char` (old_io `read_char`): read the lead byte, get the
sequence width from it, read the rest of the sequence, validate, decode.
Running out of bytes mid-sequence is an EOF error; a bad lead or a failed
validation is the invalid-UTF-8 error. -/
def readChar : List Nat → Except Err (Nat × List Nat)
  | [] => .error .eof
  | b0 :: t =>
    if utf8Width b0 = 0 then .error .notUtf8
    else if (b0 :: t).length < utf8Width b0 then .error .eof
    else
      match utf8Decode1 ((b0 :: t).take (utf8Width b0)) with
      | some c => .ok (c, (b0 :: t).drop (utf8Width b0))
      | none => .error .notUtf8

def read_char (l : List Nat) : Except Err (Nat × List Nat) := readChar l

theorem readChar_length {l : List Nat} {c : Nat} {r : List Nat}
    (h : readChar l = .ok (c, r)) : r.length < l.length := by
  cases l with
  | nil => exact absurd h (by simp [readChar])
  | cons b0 t =>
    simp only [readChar] at h
    split_ifs at h with h1 h2
    rcases hm : utf8Decode1 ((b0 :: t).take (utf8Width b0)) with _ | c0 <;>
      rw [hm] at h
    · exact absurd h (by simp)
    · simp only [Except.ok.injEq, Prod.mk.injEq] at h
      rw [← h.2, List.length_drop]
      simp only [List.length_cons] at h2 ⊢
      omega

/-- decoder.rs `read_str`: read chars until the `'\0'` terminator, which is
consumed and discarded. -/
def read_str (l : List Nat) : Except Err (List Nat × List Nat) :=
  match h : readChar l with
  | .error e => .error e
  | .ok (c, r) =>
    if c = 0 then .ok ([], r)
    else
      match read_str r with
      | .error e => .error e
      | .ok (s, r') => .ok (c :: s, r')
termination_by l.length
decreasing_by exact readChar_length h

theorem readChar_utf8Char {c : Nat} (h : isScalar c) (r : List Nat) :
    readChar (utf8Char c ++ r) = .ok (c, r) := by
  obtain ⟨h1, h2⟩ := h
  rw [utf8Char_eq h1]
  split_ifs with ha hb hc
  · show readChar (c :: r) = .ok (c, r)
    have hw : utf8Width c = 1 := by
      unfold utf8Width
      rw [if_pos ha]
    simp only [readChar, hw]
    rw [if_neg (by omega), if_neg (by simp only [List.length_cons]; omega),
      show (c :: r).take 1 = [c] from rfl, show (c :: r).drop 1 = r from rfl,
      show utf8Decode1 [c] = some c from by simp only [utf8Decode1]; rw [if_pos ha]]
  · show readChar ((0xC0 + c / 0x40) :: (0x80 + c % 0x40) :: r) = .ok (c, r)
    have hw : utf8Width (0xC0 + c / 0x40) = 2 := by
      unfold utf8Width
      rw [if_neg (by omega), if_neg (by omega), if_pos (by omega)]
    simp only [readChar, hw]
    rw [if_neg (by omega), if_neg (by simp only [List.length_cons]; omega),
      show ((0xC0 + c / 0x40) :: (0x80 + c % 0x40) :: r).take 2
        = [0xC0 + c / 0x40, 0x80 + c % 0x40] from rfl,
      show ((0xC0 + c / 0x40) :: (0x80 + c % 0x40) :: r).drop 2 = r from rfl]
    have hd : utf8Decode1 [0xC0 + c / 0x40, 0x80 + c % 0x40]
        = some ((0xC0 + c / 0x40 - 0xC0) * 0x40 + (0x80 + c % 0x40 - 0x80)) := by
      simp only [utf8Decode1]
      rw [if_pos (by omega)]
    rw [hd]
    have hv : (0xC0 + c / 0x40 - 0xC0) * 0x40 + (0x80 + c % 0x40 - 0x80) = c := by
      omega
    rw [hv]
  · show readChar ((0xE0 + c / 0x1000) :: (0x80 + c / 0x40 % 0x40)
      :: (0x80 + c % 0x40) :: r) = .ok (c, r)
    have hw : utf8Width (0xE0 + c / 0x1000) = 3 := by
      unfold utf8Width
      rw [if_neg (by omega), if_neg (by omega), if_neg (by omega),
        if_pos (by omega)]
    simp only [readChar, hw]
    rw [if_neg (by omega), if_neg (by simp only [List.length_cons]; omega),
      show ((0xE0 + c / 0x1000) :: (0x80 + c / 0x40 % 0x40) :: (0x80 + c % 0x40) :: r).take 3
        = [0xE0 + c / 0x1000, 0x80 + c / 0x40 % 0x40, 0x80 + c % 0x40] from rfl,
      show ((0xE0 + c / 0x1000) :: (0x80 + c / 0x40 % 0x40) :: (0x80 + c % 0x40) :: r).drop 3
        = r from rfl]
    have hd : utf8Decode1 [0xE0 + c / 0x1000, 0x80 + c / 0x40 % 0x40,
        0x80 + c % 0x40] = some ((0xE0 + c / 0x1000 - 0xE0) * 0x1000
          + (0x80 + c / 0x40 % 0x40 - 0x80) * 0x40 + (0x80 + c % 0x40 - 0x80)) := by
      simp only [utf8Decode1]
      rw [if_pos ?_]
      refine ⟨by omega, by omega, ?_, ?_, by omega, by omega⟩
      · split_ifs with he
        · have h0 : c / 0x1000 = 0 := by omega
          omega
        · omega
      · split_ifs with he
        · have h0 : c / 0x1000 = 0xD := by omega
          rcases h2 with h2 | h2
          · omega
          · omega
        · omega
    rw [hd]
    have hv : (0xE0 + c / 0x1000 - 0xE0) * 0x1000
        + (0x80 + c / 0x40 % 0x40 - 0x80) * 0x40 + (0x80 + c % 0x40 - 0x80) = c := by
      omega
    rw [hv]
  · show readChar ((0xF0 + c / 0x40000) :: (0x80 + c / 0x1000 % 0x40)
      :: (0x80 + c / 0x40 % 0x40) :: (0x80 + c % 0x40) :: r) = .ok (c, r)
    have hw : utf8Width (0xF0 + c / 0x40000) = 4 := by
      unfold utf8Width
      rw [if_neg (by omega), if_neg (by omega), if_neg (by omega),
        if_neg (by omega), if_pos (by omega)]
    simp only [readChar, hw]
    rw [if_neg (by omega), if_neg (by simp only [List.length_cons]; omega),
      show ((0xF0 + c / 0x40000) :: (0x80 + c / 0x1000 % 0x40)
        :: (0x80 + c / 0x40 % 0x40) :: (0x80 + c % 0x40) :: r).take 4
        = [0xF0 + c / 0x40000, 0x80 + c / 0x1000 % 0x40, 0x80 + c / 0x40 % 0x40,
          0x80 + c % 0x40] from rfl,
      show ((0xF0 + c / 0x40000) :: (0x80 + c / 0x1000 % 0x40)
        :: (0x80 + c / 0x40 % 0x40) :: (0x80 + c % 0x40) :: r).drop 4 = r from rfl]
    have hd : utf8Decode1 [0xF0 + c / 0x40000, 0x80 + c / 0x1000 % 0x40,
        0x80 + c / 0x40 % 0x40, 0x80 + c % 0x40]
        = some ((0xF0 + c / 0x40000 - 0xF0) * 0x40000
          + (0x80 + c / 0x1000 % 0x40 - 0x80) * 0x1000
          + (0x80 + c / 0x40 % 0x40 - 0x80) * 0x40 + (0x80 + c % 0x40 - 0x80)) := by
      simp only [utf8Decode1]
      rw [if_pos ?_]
      refine ⟨by omega, by omega, ?_, ?_, by omega, by omega, by omega, by omega⟩
      · split_ifs with he
        · have h0 : c / 0x40000 = 0 := by omega
          omega
        · omega
      · split_ifs with he
        · have h0 : c / 0x40000 = 4 := by omega
          omega
        · omega
    rw [hd]
    have hv : (0xF0 + c / 0x40000 - 0xF0) * 0x40000
        + (0x80 + c / 0x1000 % 0x40 - 0x80) * 0x1000
        + (0x80 + c / 0x40 % 0x40 - 0x80) * 0x40 + (0x80 + c % 0x40 - 0x80) = c := by
      omega
    rw [hv]

theorem utf8Str_append (s t : List Nat) :
    utf8Str (s ++ t) = utf8Str s ++ utf8Str t := by
  induction s with
  | nil => rfl
  | cons c s ih => simp [utf8Str, ih]

/-- `read_str` round trip for NUL-free strings of scalars: the chars are
read back and the terminator is consumed. -/
theorem read_str_emit {s : List Nat} (hs : ∀ c ∈ s, isScalar c ∧ c ≠ 0)
    (r : List Nat) : read_str (utf8Str s ++ (0 :: r)) = .ok (s, r) := by
  induction s with
  | nil =>
    rw [read_str]
    have h0 : readChar (utf8Str [] ++ (0 :: r)) = .ok (0, r) := by
      have := readChar_utf8Char (c := 0) (by unfold isScalar; omega) r
      simpa [utf8Char, utf8Str] using this
    rw [h0]
    rfl
  | cons c s ih =>
    obtain ⟨hc, hc0⟩ := hs c (by simp)
    rw [read_str]
    have h1 : utf8Str (c :: s) ++ (0 :: r) = utf8Char c ++ (utf8Str s ++ (0 :: r)) := by
      simp [utf8Str]
    rw [h1, readChar_utf8Char hc]
    show (if c = 0 then Except.ok ([], utf8Str s ++ (0 :: r))
      else match read_str (utf8Str s ++ (0 :: r)) with
        | .error e => .error e
        | .ok (s', r') => .ok (c :: s', r')) = Except.ok (c :: s, r)
    rw [if_neg hc0, ih (fun d hd => hs d (by simp [hd]))]

/-- Appending the `0x00` terminator to both sides preserves the
lexicographic comparison of arbitrary byte strings. -/
theorem lexCompare_append_zero :
    ∀ x y : List Nat, lexCompare (x ++ [0]) (y ++ [0]) = lexCompare x y := by
  intro x
  induction x with
  | nil =>
    intro y
    cases y with
    | nil => rfl
    | cons b t =>
      show lexCompare (0 :: []) (b :: (t ++ [0])) = .lt
      rcases Nat.eq_zero_or_pos b with hb | hb
      · subst hb
        rw [lexCompare_cons_self]
        cases t <;> rfl
      · exact lexCompare_cons_lt hb _ _
  | cons a xs ih =>
    intro y
    cases y with
    | nil =>
      show lexCompare (a :: (xs ++ [0])) (0 :: []) = .gt
      rcases Nat.eq_zero_or_pos a with ha | ha
      · subst ha
        rw [lexCompare_cons_self]
        cases xs <;> rfl
      · exact lexCompare_cons_gt ha _ _
    | cons b t =>
      show lexCompare (a :: (xs ++ [0])) (b :: (t ++ [0])) = lexCompare (a :: xs) (b :: t)
      rw [lexCompare_cons, lexCompare_cons]
      cases compare a b <;> simp [ih t]


/-! ## Booleans, options, enum variants (§4.6–§4.8) -/

/-- encoder.rs `emit_bool`: one byte, `1` for true, `0` for false. -/
def emit_bool (v : Bool) : List Nat := [if v then 1 else 0]

/-- decoder.rs `read_bool`: `0` is `false`, any other byte is `true`. -/
def read_bool (l : List Nat) : Except Err (Bool × List Nat) :=
  match l with
  | [] => .error .eof
  | b :: r => .ok (if b = 0 then false else true, r)

/-- encoder.rs `emit_option_none` / `emit_option_some`: the presence byte
(`emit_bool`), then the payload encoding for `Some`. -/
def emit_option {α : Type} (enc : α → List Nat) : Option α → List Nat
  | none => [0]
  | some v => 1 :: enc v

/-- decoder.rs `read_option`: reads the presence byte with `read_bool`, so
any non-zero byte selects the `Some` branch. -/
def read_option {α : Type} (dec : List Nat → Except Err (α × List Nat))
    (l : List Nat) : Except Err (Option α × List Nat) :=
  match read_bool l with
  | .error e => .error e
  | .ok (false, r) => .ok (none, r)
  | .ok (true, r) =>
    match dec r with
    | .error e => .error e
    | .ok (v, r') => .ok (some v, r')

/-- de.rs `deserialize_option`: a presence byte other than `0` or `1` is a
`Message` error. -/
def deserialize_option {α : Type} (dec : List Nat → Except Err (α × List Nat))
    (l : List Nat) : Except Err (Option α × List Nat) :=
  match l with
  | [] => .error .eof
  | 0 :: r => .ok (none, r)
  | 1 :: r =>
    match dec r with
    | .error e => .error e
    | .ok (v, r') => .ok (some v, r')
  | _ :: _ => .error .msg

/-- encoder.rs `emit_enum_variant`: the 0-based variant index in the
variable-length `u64` format (`emit_usize`), then the payload fields. -/
def emit_enum_variant (id : Nat) (payload : List Nat) : List Nat :=
  emit_var_u64 id ++ payload

/-- decoder.rs `read_enum_variant`: reads the index back with `read_usize`,
i.e. the variable-length format. -/
def read_enum_variant (l : List Nat) : Except Err (Nat × List Nat) :=
  read_var_u64 l

/-- de.rs `variant_seed` in `deserialize_enum`: `let idx: u32 =
Deserialize::deserialize(&mut *self)?` dispatches to `deserialize_u32`,
which reads a fixed four-byte big-endian word — not the variable-length
format. -/
def deserialize_variant_idx (l : List Nat) : Except Err (Nat × List Nat) :=
  readN 4 l

/-! ## de.rs `deserialize_str` (serde path)

`utf8::BufReadDecoder::next_strict` over a byte-slice reader yields the
longest valid-UTF-8 prefix of the remaining bytes, `InvalidByteSequence`
when the remaining bytes start with an invalid or incomplete sequence, and
`None` at end of input.  `deserialize_str` loops over these chunks,
stripping one trailing `"\0"` from each chunk, and *breaks* (returning the
accumulated string) on `InvalidByteSequence`. -/

/-- The longest prefix of `l` that is a run of valid UTF-8 sequences. -/
def utf8ValidPrefix (l : List Nat) : List Nat :=
  match h : readChar l with
  | .ok (_, r) => l.take (l.length - r.length) ++ utf8ValidPrefix r
  | .error _ => []
termination_by l.length
decreasing_by exact readChar_length h

/-- Dropping a final `"\0"` from a chunk (the `EOF_STR` check). -/
def stripNul (s : List Nat) : List Nat :=
  if s.getLast? = some 0 then s.dropLast else s

def deserializeStrGo : List Nat → List Nat → List Nat × List Nat
  | acc, [] => (acc, [])
  | acc, b :: t =>
    if hp : utf8ValidPrefix (b :: t) = [] then (acc, b :: t)
    else
      deserializeStrGo (acc ++ stripNul (utf8ValidPrefix (b :: t)))
        ((b :: t).drop (utf8ValidPrefix (b :: t)).length)
termination_by _ l => l.length
decreasing_by
  have h1 : 0 < (utf8ValidPrefix (b :: t)).length := List.length_pos.2 hp
  simp only [List.length_drop, List.length_cons]
  omega

/-- de.rs `deserialize_str` on a byte-slice reader.  It never reports
invalid UTF-8: the break swallows it. -/
def deserialize_str (l : List Nat) : Except Err (List Nat × List Nat) :=
  .ok (deserializeStrGo [] l)


/-! ## A universe of encodable types (lib.rs `encode` / `decode`)

`Ty` is the static type, `Value` the runtime value.  `encodeVal` strings
together the `emit_*` calls that a derived `Encodable` implementation
makes for a value of that type; `decodeVal` the `read_*` calls of the
derived `Decodable` implementation (struct fields and tuple components in
declared order; enums as variant index then the chosen variant's fields;
an out-of-range variant index is a decoding error in the derived code). -/

inductive Ty where
  | tBool | tU8 | tU16 | tU32 | tU64 | tUsize
  | tI8 | tI16 | tI32 | tI64 | tIsize
  | tF32 | tF64 | tChar | tStr
  | tOption : Ty → Ty
  | tTuple : List Ty → Ty
  | tEnum : List (List Ty) → Ty

inductive Value where
  | vBool : Bool → Value
  | vNat : Nat → Value
  | vInt : Int → Value
  | vChar : Nat → Value
  | vStr : List Nat → Value
  | vNone : Value
  | vSome : Value → Value
  | vTuple : List Value → Value
  | vEnum : Nat → List Value → Value

theorem sizeOf_getD (cs : List (List Ty)) (i : Nat) :
    sizeOf (cs[i]?.getD []) < 1 + sizeOf cs := by
  induction cs generalizing i with
  | nil =>
    simp
  | cons a t ih =>
    cases i with
    | zero =>
      simp only [List.getElem?_cons_zero, Option.getD_some, List.cons.sizeOf_spec]
      omega
    | succ j =>
      have h := ih j
      simp only [List.getElem?_cons_succ, List.cons.sizeOf_spec]
      omega

mutual

/-- Well-formed value of a type: machine-integer ranges, scalar validity,
a variant index inside the enum (and inside `usize`), matching shapes. -/
def wf : Ty → Value → Bool
  | .tBool, .vBool _ => true
  | .tU8, .vNat n => decide (n < 2 ^ 8)
  | .tU16, .vNat n => decide (n < 2 ^ 16)
  | .tU32, .vNat n => decide (n < 2 ^ 32)
  | .tU64, .vNat n => decide (n < 2 ^ 64)
  | .tUsize, .vNat n => decide (n < 2 ^ 64)
  | .tI8, .vInt v => decide (-(2 ^ 7) ≤ v ∧ v < 2 ^ 7)
  | .tI16, .vInt v => decide (-(2 ^ 15) ≤ v ∧ v < 2 ^ 15)
  | .tI32, .vInt v => decide (-(2 ^ 31) ≤ v ∧ v < 2 ^ 31)
  | .tI64, .vInt v => decide (-(2 ^ 63) ≤ v ∧ v < 2 ^ 63)
  | .tIsize, .vInt v => decide (-(2 ^ 63) ≤ v ∧ v < 2 ^ 63)
  | .tF32, .vNat n => decide (n < 2 ^ 32)
  | .tF64, .vNat n => decide (n < 2 ^ 64)
  | .tChar, .vChar c => decide (isScalar c)
  | .tStr, .vStr s => s.all (fun c => decide (isScalar c))
  | .tOption _, .vNone => true
  | .tOption t, .vSome v => wf t v
  | .tTuple ts, .vTuple vs => wfL ts vs
  | .tEnum cs, .vEnum i vs =>
    decide (i < cs.length) && decide (i < 2 ^ 64) && wfL (cs.getD i []) vs
  | _, _ => false
termination_by t _ => sizeOf t
decreasing_by
  all_goals simp_wf
  all_goals first
    | omega
    | (have h := sizeOf_getD cs i; omega)

def wfL : List Ty → List Value → Bool
  | [], [] => true
  | t :: ts, v :: vs => wf t v && wfL ts vs
  | _, _ => false
termination_by ts _ => sizeOf ts
decreasing_by
  all_goals simp_wf
  all_goals omega

end

mutual

/-- No string in the value contains an embedded `U+0000`. -/
def nulFree : Value → Bool
  | .vStr s => s.all (fun c => decide (c ≠ 0))
  | .vSome v => nulFree v
  | .vTuple vs => nulFreeL vs
  | .vEnum _ vs => nulFreeL vs
  | _ => true

/-- `nulFree` over a list of field values. -/
def nulFreeL : List Value → Bool
  | [] => true
  | v :: vs => nulFree v && nulFreeL vs

end

mutual

/-- The bytes a derived `Encodable` implementation writes through
encoder.rs for a value of type `t`. -/
def encodeVal : Ty → Value → List Nat
  | .tBool, .vBool b => emit_bool b
  | .tU8, .vNat n => emit_u8 n
  | .tU16, .vNat n => emit_u16 n
  | .tU32, .vNat n => emit_u32 n
  | .tU64, .vNat n => emit_u64 n
  | .tUsize, .vNat n => emit_var_u64 n
  | .tI8, .vInt v => emit_i8 v
  | .tI16, .vInt v => emit_i16 v
  | .tI32, .vInt v => emit_i32 v
  | .tI64, .vInt v => emit_i64 v
  | .tIsize, .vInt v => emit_var_i64 v
  | .tF32, .vNat n => emit_f32 n
  | .tF64, .vNat n => emit_f64 n
  | .tChar, .vChar c => emit_char c
  | .tStr, .vStr s => emit_str s
  | .tOption _, .vNone => emit_bool false
  | .tOption t, .vSome v => emit_bool true ++ encodeVal t v
  | .tTuple ts, .vTuple vs => encodeL ts vs
  | .tEnum cs, .vEnum i vs => emit_var_u64 i ++ encodeL (cs.getD i []) vs
  | _, _ => []
termination_by t _ => sizeOf t
decreasing_by
  all_goals simp_wf
  all_goals first
    | omega
    | (have h := sizeOf_getD cs i; omega)

def encodeL : List Ty → List Value → List Nat
  | t :: ts, v :: vs => encodeVal t v ++ encodeL ts vs
  | _, _ => []
termination_by ts _ => sizeOf ts
decreasing_by
  all_goals simp_wf
  all_goals omega

end

mutual

/-- The `read_*` calls a derived `Decodable` implementation makes through
decoder.rs for a value of type `t`. -/
def decodeVal : Ty → List Nat → Except Err (Value × List Nat)
  | .tBool, l =>
    match read_bool l with
    | .error e => .error e
    | .ok (b, r) => .ok (.vBool b, r)
  | .tU8, l =>
    match readN 1 l with
    | .error e => .error e
    | .ok (n, r) => .ok (.vNat n, r)
  | .tU16, l =>
    match readN 2 l with
    | .error e => .error e
    | .ok (n, r) => .ok (.vNat n, r)
  | .tU32, l =>
    match readN 4 l with
    | .error e => .error e
    | .ok (n, r) => .ok (.vNat n, r)
  | .tU64, l =>
    match readN 8 l with
    | .error e => .error e
    | .ok (n, r) => .ok (.vNat n, r)
  | .tUsize, l =>
    match read_var_u64 l with
    | .error e => .error e
    | .ok (n, r) => .ok (.vNat n, r)
  | .tI8, l =>
    match read_i 8 1 l with
    | .error e => .error e
    | .ok (v, r) => .ok (.vInt v, r)
  | .tI16, l =>
    match read_i 16 2 l with
    | .error e => .error e
    | .ok (v, r) => .ok (.vInt v, r)
  | .tI32, l =>
    match read_i 32 4 l with
    | .error e => .error e
    | .ok (v, r) => .ok (.vInt v, r)
  | .tI64, l =>
    match read_i 64 8 l with
    | .error e => .error e
    | .ok (v, r) => .ok (.vInt v, r)
  | .tIsize, l =>
    match read_var_i64 l with
    | .error e => .error e
    | .ok (v, r) => .ok (.vInt v, r)
  | .tF32, l =>
    match read_f32 l with
    | .error e => .error e
    | .ok (n, r) => .ok (.vNat n, r)
  | .tF64, l =>
    match read_f64 l with
    | .error e => .error e
    | .ok (n, r) => .ok (.vNat n, r)
  | .tChar, l =>
    match read_char l with
    | .error e => .error e
    | .ok (c, r) => .ok (.vChar c, r)
  | .tStr, l =>
    match read_str l with
    | .error e => .error e
    | .ok (s, r) => .ok (.vStr s, r)
  | .tOption t, l =>
    match read_bool l with
    | .error e => .error e
    | .ok (false, r) => .ok (.vNone, r)
    | .ok (true, r) =>
      match decodeVal t r with
      | .error e => .error e
      | .ok (v, r') => .ok (.vSome v, r')
  | .tTuple ts, l =>
    match decodeL ts l with
    | .error e => .error e
    | .ok (vs, r) => .ok (.vTuple vs, r)
  | .tEnum cs, l =>
    match read_var_u64 l with
    | .error e => .error e
    | .ok (i, r) =>
      if i < cs.length then
        match decodeL (cs.getD i []) r with
        | .error e => .error e
        | .ok (vs, r') => .ok (.vEnum i vs, r')
      else .error .msg
termination_by t _ => sizeOf t
decreasing_by
  all_goals simp_wf
  all_goals first
    | omega
    | (have h := sizeOf_getD cs i; omega)

def decodeL : List Ty → List Nat → Except Err (List Value × List Nat)
  | [], l => .ok ([], l)
  | t :: ts, l =>
    match decodeVal t l with
    | .error e => .error e
    | .ok (v, r) =>
      match decodeL ts r with
      | .error e => .error e
      | .ok (vs, r') => .ok (v :: vs, r')
termination_by ts _ => sizeOf ts
decreasing_by
  all_goals simp_wf
  all_goals omega

end

/-- lib.rs `encode`: run the encoder into a fresh buffer. -/
def encode (t : Ty) (v : Value) : List Nat := encodeVal t v

/-- lib.rs `decode`: run the decoder over the byte vector (leftover bytes
are not an error — the cursor is simply dropped). -/
def decode (t : Ty) (l : List Nat) : Except Err Value :=
  match decodeVal t l with
  | .error e => .error e
  | .ok (v, _) => .ok v


mutual

/-- Generic round trip: decoding reads back exactly the encoded value and
leaves the rest of the stream, for every well-formed value whose strings
are free of embedded `U+0000`. -/
theorem decodeVal_encodeVal (t : Ty) (v : Value) (hwf : wf t v = true)
    (hnf : nulFree v = true) (r : List Nat) :
    decodeVal t (encodeVal t v ++ r) = .ok (v, r) := by
  match t, v with
  | .tBool, .vBool b =>
    cases b <;> simp [encodeVal, decodeVal, emit_bool, read_bool]
  | .tU8, .vNat n =>
    have hn : n < 2 ^ 8 := by simpa [wf] using hwf
    simp only [encodeVal, decodeVal, emit_u8]
    rw [readN_beBytes (show n < 2 ^ (8 * 1) by omega) r]
  | .tU16, .vNat n =>
    have hn : n < 2 ^ 16 := by simpa [wf] using hwf
    simp only [encodeVal, decodeVal, emit_u16]
    rw [readN_beBytes (show n < 2 ^ (8 * 2) by omega) r]
  | .tU32, .vNat n =>
    have hn : n < 2 ^ 32 := by simpa [wf] using hwf
    simp only [encodeVal, decodeVal, emit_u32]
    rw [readN_beBytes (show n < 2 ^ (8 * 4) by omega) r]
  | .tU64, .vNat n =>
    have hn : n < 2 ^ 64 := by simpa [wf] using hwf
    simp only [encodeVal, decodeVal, emit_u64]
    rw [readN_beBytes (show n < 2 ^ (8 * 8) by omega) r]
  | .tUsize, .vNat n =>
    have hn : n < 2 ^ 64 := by simpa [wf] using hwf
    simp only [encodeVal, decodeVal]
    rw [read_var_u64_emit hn r]
  | .tI8, .vInt i =>
    have hn : -(2 ^ 7) ≤ i ∧ i < 2 ^ 7 := by simpa [wf] using hwf
    simp only [encodeVal, decodeVal, emit_i8]
    have h := read_i_emit (k := 7) (v := i) (by norm_num)
      (by push_cast; omega) (by push_cast; omega) r
    simp only [show (7 : Nat) + 1 = 8 from rfl, show (8 : Nat) / 8 = 1 from rfl] at h
    rw [h]
  | .tI16, .vInt i =>
    have hn : -(2 ^ 15) ≤ i ∧ i < 2 ^ 15 := by simpa [wf] using hwf
    simp only [encodeVal, decodeVal, emit_i16]
    have h := read_i_emit (k := 15) (v := i) (by norm_num)
      (by push_cast; omega) (by push_cast; omega) r
    simp only [show (15 : Nat) + 1 = 16 from rfl, show (16 : Nat) / 8 = 2 from rfl] at h
    rw [h]
  | .tI32, .vInt i =>
    have hn : -(2 ^ 31) ≤ i ∧ i < 2 ^ 31 := by simpa [wf] using hwf
    simp only [encodeVal, decodeVal, emit_i32]
    have h := read_i_emit (k := 31) (v := i) (by norm_num)
      (by push_cast; omega) (by push_cast; omega) r
    simp only [show (31 : Nat) + 1 = 32 from rfl, show (32 : Nat) / 8 = 4 from rfl] at h
    rw [h]
  | .tI64, .vInt i =>
    have hn : -(2 ^ 63) ≤ i ∧ i < 2 ^ 63 := by simpa [wf] using hwf
    simp only [encodeVal, decodeVal, emit_i64]
    have h := read_i_emit (k := 63) (v := i) (by norm_num)
      (by push_cast; omega) (by push_cast; omega) r
    simp only [show (63 : Nat) + 1 = 64 from rfl, show (64 : Nat) / 8 = 8 from rfl] at h
    rw [h]
  | .tIsize, .vInt i =>
    have hn : -(2 ^ 63) ≤ i ∧ i < 2 ^ 63 := by simpa [wf] using hwf
    simp only [encodeVal, decodeVal]
    rw [read_var_i64_emit hn.1 hn.2 r]
  | .tF32, .vNat n =>
    have hn : n < 2 ^ 32 := by simpa [wf] using hwf
    simp only [encodeVal, decodeVal]
    rw [read_f32_emit hn r]
  | .tF64, .vNat n =>
    have hn : n < 2 ^ 64 := by simpa [wf] using hwf
    simp only [encodeVal, decodeVal]
    rw [read_f64_emit hn r]
  | .tChar, .vChar c =>
    have hc : isScalar c := by simpa [wf] using hwf
    simp only [encodeVal, decodeVal, emit_char, read_char]
    rw [readChar_utf8Char hc r]
  | .tStr, .vStr s =>
    have hsc : ∀ c ∈ s, isScalar c := by
      have h1 := hwf
      simp only [wf, List.all_eq_true, decide_eq_true_eq] at h1
      exact h1
    have hnz : ∀ c ∈ s, c ≠ 0 := by
      have h1 := hnf
      simp only [nulFree, List.all_eq_true, decide_eq_true_eq] at h1
      exact h1
    simp only [encodeVal, decodeVal, emit_str]
    have ha : utf8Str s ++ [0] ++ r = utf8Str s ++ (0 :: r) := by simp
    rw [ha, read_str_emit (fun c hc => ⟨hsc c hc, hnz c hc⟩) r]
  | .tOption t, .vNone =>
    simp [encodeVal, decodeVal, emit_bool, read_bool]
  | .tOption t, .vSome v =>
    have hwf1 : wf t v = true := by simpa [wf] using hwf
    have hnf1 : nulFree v = true := by simpa [nulFree] using hnf
    simp only [encodeVal, decodeVal, emit_bool]
    show (match decodeVal t (encodeVal t v ++ r) with
      | Except.error e => Except.error e
      | Except.ok (v, r') => Except.ok (Value.vSome v, r')) = .ok (.vSome v, r)
    rw [decodeVal_encodeVal t v hwf1 hnf1 r]
  | .tTuple ts, .vTuple vs =>
    have hwf1 : wfL ts vs = true := by simpa [wf] using hwf
    have hnf1 : nulFreeL vs = true := by simpa [nulFree] using hnf
    simp only [encodeVal, decodeVal]
    rw [decodeL_encodeL ts vs hwf1 hnf1 r]
  | .tEnum cs, .vEnum i vs =>
    have hwf1 : i < cs.length ∧ i < 2 ^ 64 ∧ wfL (cs.getD i []) vs = true := by
      have h := hwf
      simp only [wf, Bool.and_eq_true, decide_eq_true_eq] at h
      exact ⟨h.1.1, h.1.2, h.2⟩
    have hnf1 : nulFreeL vs = true := by simpa [nulFree] using hnf
    simp only [encodeVal, decodeVal, List.append_assoc]
    rw [read_var_u64_emit hwf1.2.1]
    show (if i < cs.length then
        match decodeL (cs.getD i []) (encodeL (cs.getD i []) vs ++ r) with
        | Except.error e => Except.error e
        | Except.ok (vs', r') => Except.ok (Value.vEnum i vs', r')
      else Except.error Err.msg) = .ok (.vEnum i vs, r)
    rw [if_pos hwf1.1, decodeL_encodeL (cs.getD i []) vs hwf1.2.2 hnf1 r]
  | .tBool, .vNat _ =>
    exact absurd hwf (by simp [wf])
  | .tBool, .vInt _ =>
    exact absurd hwf (by simp [wf])
  | .tBool, .vChar _ =>
    exact absurd hwf (by simp [wf])
  | .tBool, .vStr _ =>
    exact absurd hwf (by simp [wf])
  | .tBool, .vNone =>
    exact absurd hwf (by simp [wf])
  | .tBool, .vSome _ =>
    exact absurd hwf (by simp [wf])
  | .tBool, .vTuple _ =>
    exact absurd hwf (by simp [wf])
  | .tBool, .vEnum _ _ =>
    exact absurd hwf (by simp [wf])
  | .tU8, .vBool _ =>
    exact absurd hwf (by simp [wf])
  | .tU8, .vInt _ =>
    exact absurd hwf (by simp [wf])
  | .tU8, .vChar _ =>
    exact absurd hwf (by simp [wf])
  | .tU8, .vStr _ =>
    exact absurd hwf (by simp [wf])
  | .tU8, .vNone =>
    exact absurd hwf (by simp [wf])
  | .tU8, .vSome _ =>
    exact absurd hwf (by simp [wf])
  | .tU8, .vTuple _ =>
    exact absurd hwf (by simp [wf])
  | .tU8, .vEnum _ _ =>
    exact absurd hwf (by simp [wf])
  | .tU16, .vBool _ =>
    exact absurd hwf (by simp [wf])
  | .tU16, .vInt _ =>
    exact absurd hwf (by simp [wf])
  | .tU16, .vChar _ =>
    exact absurd hwf (by simp [wf])
  | .tU16, .vStr _ =>
    exact absurd hwf (by simp [wf])
  | .tU16, .vNone =>
    exact absurd hwf (by simp [wf])
  | .tU16, .vSome _ =>
    exact absurd hwf (by simp [wf])
  | .tU16, .vTuple _ =>
    exact absurd hwf (by simp [wf])
  | .tU16, .vEnum _ _ =>
    exact absurd hwf (by simp [wf])
  | .tU32, .vBool _ =>
    exact absurd hwf (by simp [wf])
  | .tU32, .vInt _ =>
    exact absurd hwf (by simp [wf])
  | .tU32, .vChar _ =>
    exact absurd hwf (by simp [wf])
  | .tU32, .vStr _ =>
    exact absurd hwf (by simp [wf])
  | .tU32, .vNone =>
    exact absurd hwf (by simp [wf])
  | .tU32, .vSome _ =>
    exact absurd hwf (by simp [wf])
  | .tU32, .vTuple _ =>
    exact absurd hwf (by simp [wf])
  | .tU32, .vEnum _ _ =>
    exact absurd hwf (by simp [wf])
  | .tU64, .vBool _ =>
    exact absurd hwf (by simp [wf])
  | .tU64, .vInt _ =>
    exact absurd hwf (by simp [wf])
  | .tU64, .vChar _ =>
    exact absurd hwf (by simp [wf])
  | .tU64, .vStr _ =>
    exact absurd hwf (by simp [wf])
  | .tU64, .vNone =>
    exact absurd hwf (by simp [wf])
  | .tU64, .vSome _ =>
    exact absurd hwf (by simp [wf])
  | .tU64, .vTuple _ =>
    exact absurd hwf (by simp [wf])
  | .tU64, .vEnum _ _ =>
    exact absurd hwf (by simp [wf])
  | .tUsize, .vBool _ =>
    exact absurd hwf (by simp [wf])
  | .tUsize, .vInt _ =>
    exact absurd hwf (by simp [wf])
  | .tUsize, .vChar _ =>
    exact absurd hwf (by simp [wf])
  | .tUsize, .vStr _ =>
    exact absurd hwf (by simp [wf])
  | .tUsize, .vNone =>
    exact absurd hwf (by simp [wf])
  | .tUsize, .vSome _ =>
    exact absurd hwf (by simp [wf])
  | .tUsize, .vTuple _ =>
    exact absurd hwf (by simp [wf])
  | .tUsize, .vEnum _ _ =>
    exact absurd hwf (by simp [wf])
  | .tI8, .vBool _ =>
    exact absurd hwf (by simp [wf])
  | .tI8, .vNat _ =>
    exact absurd hwf (by simp [wf])
  | .tI8, .vChar _ =>
    exact absurd hwf (by simp [wf])
  | .tI8, .vStr _ =>
    exact absurd hwf (by simp [wf])
  | .tI8, .vNone =>
    exact absurd hwf (by simp [wf])
  | .tI8, .vSome _ =>
    exact absurd hwf (by simp [wf])
  | .tI8, .vTuple _ =>
    exact absurd hwf (by simp [wf])
  | .tI8, .vEnum _ _ =>
    exact absurd hwf (by simp [wf])
  | .tI16, .vBool _ =>
    exact absurd hwf (by simp [wf])
  | .tI16, .vNat _ =>
    exact absurd hwf (by simp [wf])
  | .tI16, .vChar _ =>
    exact absurd hwf (by simp [wf])
  | .tI16, .vStr _ =>
    exact absurd hwf (by simp [wf])
  | .tI16, .vNone =>
    exact absurd hwf (by simp [wf])
  | .tI16, .vSome _ =>
    exact absurd hwf (by simp [wf])
  | .tI16, .vTuple _ =>
    exact absurd hwf (by simp [wf])
  | .tI16, .vEnum _ _ =>
    exact absurd hwf (by simp [wf])
  | .tI32, .vBool _ =>
    exact absurd hwf (by simp [wf])
  | .tI32, .vNat _ =>
    exact absurd hwf (by simp [wf])
  | .tI32, .vChar _ =>
    exact absurd hwf (by simp [wf])
  | .tI32, .vStr _ =>
    exact absurd hwf (by simp [wf])
  | .tI32, .vNone =>
    exact absurd hwf (by simp [wf])
  | .tI32, .vSome _ =>
    exact absurd hwf (by simp [wf])
  | .tI32, .vTuple _ =>
    exact absurd hwf (by simp [wf])
  | .tI32, .vEnum _ _ =>
    exact absurd hwf (by simp [wf])
  | .tI64, .vBool _ =>
    exact absurd hwf (by simp [wf])
  | .tI64, .vNat _ =>
    exact absurd hwf (by simp [wf])
  | .tI64, .vChar _ =>
    exact absurd hwf (by simp [wf])
  | .tI64, .vStr _ =>
    exact absurd hwf (by simp [wf])
  | .tI64, .vNone =>
    exact absurd hwf (by simp [wf])
  | .tI64, .vSome _ =>
    exact absurd hwf (by simp [wf])
  | .tI64, .vTuple _ =>
    exact absurd hwf (by simp [wf])
  | .tI64, .vEnum _ _ =>
    exact absurd hwf (by simp [wf])
  | .tIsize, .vBool _ =>
    exact absurd hwf (by simp [wf])
  | .tIsize, .vNat _ =>
    exact absurd hwf (by simp [wf])
  | .tIsize, .vChar _ =>
    exact absurd hwf (by simp [wf])
  | .tIsize, .vStr _ =>
    exact absurd hwf (by simp [wf])
  | .tIsize, .vNone =>
    exact absurd hwf (by simp [wf])
  | .tIsize, .vSome _ =>
    exact absurd hwf (by simp [wf])
  | .tIsize, .vTuple _ =>
    exact absurd hwf (by simp [wf])
  | .tIsize, .vEnum _ _ =>
    exact absurd hwf (by simp [wf])
  | .tF32, .vBool _ =>
    exact absurd hwf (by simp [wf])
  | .tF32, .vInt _ =>
    exact absurd hwf (by simp [wf])
  | .tF32, .vChar _ =>
    exact absurd hwf (by simp [wf])
  | .tF32, .vStr _ =>
    exact absurd hwf (by simp [wf])
  | .tF32, .vNone =>
    exact absurd hwf (by simp [wf])
  | .tF32, .vSome _ =>
    exact absurd hwf (by simp [wf])
  | .tF32, .vTuple _ =>
    exact absurd hwf (by simp [wf])
  | .tF32, .vEnum _ _ =>
    exact absurd hwf (by simp [wf])
  | .tF64, .vBool _ =>
    exact absurd hwf (by simp [wf])
  | .tF64, .vInt _ =>
    exact absurd hwf (by simp [wf])
  | .tF64, .vChar _ =>
    exact absurd hwf (by simp [wf])
  | .tF64, .vStr _ =>
    exact absurd hwf (by simp [wf])
  | .tF64, .vNone =>
    exact absurd hwf (by simp [wf])
  | .tF64, .vSome _ =>
    exact absurd hwf (by simp [wf])
  | .tF64, .vTuple _ =>
    exact absurd hwf (by simp [wf])
  | .tF64, .vEnum _ _ =>
    exact absurd hwf (by simp [wf])
  | .tChar, .vBool _ =>
    exact absurd hwf (by simp [wf])
  | .tChar, .vNat _ =>
    exact absurd hwf (by simp [wf])
  | .tChar, .vInt _ =>
    exact absurd hwf (by simp [wf])
  | .tChar, .vStr _ =>
    exact absurd hwf (by simp [wf])
  | .tChar, .vNone =>
    exact absurd hwf (by simp [wf])
  | .tChar, .vSome _ =>
    exact absurd hwf (by simp [wf])
  | .tChar, .vTuple _ =>
    exact absurd hwf (by simp [wf])
  | .tChar, .vEnum _ _ =>
    exact absurd hwf (by simp [wf])
  | .tStr, .vBool _ =>
    exact absurd hwf (by simp [wf])
  | .tStr, .vNat _ =>
    exact absurd hwf (by simp [wf])
  | .tStr, .vInt _ =>
    exact absurd hwf (by simp [wf])
  | .tStr, .vChar _ =>
    exact absurd hwf (by simp [wf])
  | .tStr, .vNone =>
    exact absurd hwf (by simp [wf])
  | .tStr, .vSome _ =>
    exact absurd hwf (by simp [wf])
  | .tStr, .vTuple _ =>
    exact absurd hwf (by simp [wf])
  | .tStr, .vEnum _ _ =>
    exact absurd hwf (by simp [wf])
  | .tOption _, .vBool _ =>
    exact absurd hwf (by simp [wf])
  | .tOption _, .vNat _ =>
    exact absurd hwf (by simp [wf])
  | .tOption _, .vInt _ =>
    exact absurd hwf (by simp [wf])
  | .tOption _, .vChar _ =>
    exact absurd hwf (by simp [wf])
  | .tOption _, .vStr _ =>
    exact absurd hwf (by simp [wf])
  | .tOption _, .vTuple _ =>
    exact absurd hwf (by simp [wf])
  | .tOption _, .vEnum _ _ =>
    exact absurd hwf (by simp [wf])
  | .tTuple _, .vBool _ =>
    exact absurd hwf (by simp [wf])
  | .tTuple _, .vNat _ =>
    exact absurd hwf (by simp [wf])
  | .tTuple _, .vInt _ =>
    exact absurd hwf (by simp [wf])
  | .tTuple _, .vChar _ =>
    exact absurd hwf (by simp [wf])
  | .tTuple _, .vStr _ =>
    exact absurd hwf (by simp [wf])
  | .tTuple _, .vNone =>
    exact absurd hwf (by simp [wf])
  | .tTuple _, .vSome _ =>
    exact absurd hwf (by simp [wf])
  | .tTuple _, .vEnum _ _ =>
    exact absurd hwf (by simp [wf])
  | .tEnum _, .vBool _ =>
    exact absurd hwf (by simp [wf])
  | .tEnum _, .vNat _ =>
    exact absurd hwf (by simp [wf])
  | .tEnum _, .vInt _ =>
    exact absurd hwf (by simp [wf])
  | .tEnum _, .vChar _ =>
    exact absurd hwf (by simp [wf])
  | .tEnum _, .vStr _ =>
    exact absurd hwf (by simp [wf])
  | .tEnum _, .vNone =>
    exact absurd hwf (by simp [wf])
  | .tEnum _, .vSome _ =>
    exact absurd hwf (by simp [wf])
  | .tEnum _, .vTuple _ =>
    exact absurd hwf (by simp [wf])
termination_by sizeOf t
decreasing_by
  all_goals simp_wf
  all_goals first
    | omega
    | (have h := sizeOf_getD cs i; omega)

theorem decodeL_encodeL (ts : List Ty) (vs : List Value)
    (hwf : wfL ts vs = true) (hnf : nulFreeL vs = true) (r : List Nat) :
    decodeL ts (encodeL ts vs ++ r) = .ok (vs, r) := by
  match ts, vs with
  | [], [] =>
    simp [encodeL, decodeL]
  | [], _ :: _ =>
    exact absurd hwf (by simp [wfL])
  | _ :: _, [] =>
    exact absurd hwf (by simp [wfL])
  | t :: ts, v :: vs =>
    have h1 : wf t v = true ∧ wfL ts vs = true := by
      simpa [wfL, Bool.and_eq_true] using hwf
    have h2 : nulFree v = true ∧ nulFreeL vs = true := by
      simpa [nulFreeL, Bool.and_eq_true] using hnf
    simp only [encodeL, decodeL, List.append_assoc]
    rw [decodeVal_encodeVal t v h1.1 h2.1]
    show (match decodeL ts (encodeL ts vs ++ r) with
      | Except.error e => Except.error e
      | Except.ok (vs', r') => Except.ok (v :: vs', r')) = .ok (v :: vs, r)
    rw [decodeL_encodeL ts vs h1.2 h2.2 r]
termination_by sizeOf ts
decreasing_by
  all_goals simp_wf
  all_goals omega

end

/-- lib.rs round trip for well-formed, NUL-free values. -/
theorem decode_encode {t : Ty} {v : Value} (hwf : wf t v = true)
    (hnf : nulFree v = true) : decode t (encode t v) = .ok v := by
  unfold decode encode
  have h := decodeVal_encodeVal t v hwf hnf []
  rw [List.append_nil] at h
  rw [h]


/-! ## Supporting lemmas for the claim theorems -/

/-- decoder.rs `read_str` propagates the invalid-UTF-8 error of the char
reader. -/
theorem read_str_notUtf8 {l : List Nat} (h : readChar l = .error .notUtf8) :
    read_str l = .error .notUtf8 := by
  rw [read_str, h]

/-- Order preservation of the fixed-width signed codec at width `k + 1`. -/
theorem signed_fixed_compare {k : Nat} {a b : Int}
    (halo : -((2 ^ k : Nat) : Int) ≤ a) (hahi : a < ((2 ^ k : Nat) : Int))
    (hblo : -((2 ^ k : Nat) : Int) ≤ b) (hbhi : b < ((2 ^ k : Nat) : Int))
    (h8 : (k + 1) % 8 = 0) :
    lexCompare (beBytes ((k + 1) / 8) (toU (k + 1) a ^^^ 2 ^ k))
      (beBytes ((k + 1) / 8) (toU (k + 1) b ^^^ 2 ^ k)) = i64Cmp a b := by
  have hwk : 8 * ((k + 1) / 8) = k + 1 := by omega
  have hpow : ((2 : Nat) ^ (k + 1)) = 2 * 2 ^ k := by ring
  have hpa : toU (k + 1) a ^^^ 2 ^ k < 2 ^ (8 * ((k + 1) / 8)) := by
    rw [hwk, toU_xor_bias halo hahi]
    omega
  have hpb : toU (k + 1) b ^^^ 2 ^ k < 2 ^ (8 * ((k + 1) / 8)) := by
    rw [hwk, toU_xor_bias hblo hbhi]
    omega
  rw [beBytes_compare hpa hpb, biased_compare halo hahi hblo hbhi]

/-- The class of `emit_var_u64` is minimal: a value below a class bound
lies in that class or an earlier one. -/
theorem clsU_min {v k : Nat} (hk : k < 8) (h : v < 2 ^ (8 * k + 4)) :
    clsU v ≤ k := by
  unfold clsU
  interval_cases k <;> split_ifs <;> omega

/-- `deserialize_var_u64` is total: end-of-input or a value, never another
error, whatever the header (count nibbles 9–15 included). -/
theorem deserialize_var_u64_total (l : List Nat) :
    deserialize_var_u64 l = .error .eof
      ∨ ∃ v r, deserialize_var_u64 l = .ok (v, r)
        ∧ r = l.tail.drop (l.headD 0 >>> 4) := by
  cases l with
  | nil => exact Or.inl rfl
  | cons b t =>
    show readVarTail (b >>> 4) _ t = .error .eof ∨ _
    rcases Nat.lt_or_ge t.length (b >>> 4) with h | h
    · exact Or.inl (readVarTail_eof h _)
    · obtain ⟨v, _, he⟩ := readVarTail_ok h (Nat.mod_lt _ (by norm_num))
      exact Or.inr ⟨v, t.drop (b >>> 4), he, by simp⟩


/-! ## Comparison with continuations

To lift per-field order preservation to tuples, structs and enums we prove
each field codec's comparison in continuation form: comparing two encoded
fields with arbitrary rests attached either resolves inside the encodings
or reduces to comparing the rests. -/

theorem lexCompare_append_congr {x1 x2 : List Nat} (r1 r2 : List Nat)
    (hlen : x1.length = x2.length) :
    lexCompare (x1 ++ r1) (x2 ++ r2)
      = match lexCompare x1 x2 with
        | .eq => lexCompare r1 r2
        | o => o := by
  induction x1 generalizing x2 with
  | nil =>
    cases x2 with
    | nil => rfl
    | cons b u => simp at hlen
  | cons a t ih =>
    cases x2 with
    | nil => simp at hlen
    | cons b u =>
      show lexCompare (a :: (t ++ r1)) (b :: (u ++ r2)) = _
      rw [lexCompare_cons, lexCompare_cons]
      cases h : compare a b
      · rfl
      · exact ih (by simpa using hlen)
      · rfl

theorem lexCompare_append_of_head_ne {x1 x2 r1 r2 : List Nat}
    (h1 : x1 ≠ []) (h2 : x2 ≠ []) (h : x1.headD 0 ≠ x2.headD 0) :
    lexCompare (x1 ++ r1) (x2 ++ r2) = lexCompare x1 x2 := by
  cases x1 with
  | nil => exact absurd rfl h1
  | cons a t =>
    cases x2 with
    | nil => exact absurd rfl h2
    | cons b u =>
      simp only [List.headD_cons] at h
      rcases Nat.lt_or_ge a b with hab | hab
      · rw [List.cons_append, List.cons_append, lexCompare_cons_lt hab,
          lexCompare_cons_lt hab]
      · have hab2 : b < a := by omega
        rw [List.cons_append, List.cons_append, lexCompare_cons_gt hab2,
          lexCompare_cons_gt hab2]

/-- For NUL-free byte strings, the `0x00`-terminated comparison with rests
attached resolves like the bare comparison. -/
theorem lexCompare_nulterm_app :
    ∀ x1 x2 r1 r2 : List Nat, (∀ b ∈ x1, b ≠ 0) → (∀ b ∈ x2, b ≠ 0) →
    lexCompare ((x1 ++ [0]) ++ r1) ((x2 ++ [0]) ++ r2)
      = match lexCompare x1 x2 with
        | .eq => lexCompare r1 r2
        | o => o := by
  intro x1
  induction x1 with
  | nil =>
    intro x2 r1 r2 h1 h2
    cases x2 with
    | nil =>
      show lexCompare (0 :: r1) (0 :: r2) = lexCompare r1 r2
      rw [lexCompare_cons_self]
    | cons b u =>
      have hb : b ≠ 0 := h2 b (by simp)
      show lexCompare (0 :: r1) (b :: ((u ++ [0]) ++ r2)) = .lt
      exact lexCompare_cons_lt (by omega) _ _
  | cons a t ih =>
    intro x2 r1 r2 h1 h2
    cases x2 with
    | nil =>
      have ha : a ≠ 0 := h1 a (by simp)
      show lexCompare (a :: ((t ++ [0]) ++ r1)) (0 :: r2) = .gt
      exact lexCompare_cons_gt (by omega) _ _
    | cons b u =>
      show lexCompare (a :: ((t ++ [0]) ++ r1)) (b :: ((u ++ [0]) ++ r2)) = _
      rw [lexCompare_cons, lexCompare_cons]
      cases h : compare a b
      · rfl
      · exact ih u r1 r2 (fun c hc => h1 c (List.mem_cons_of_mem _ hc))
          (fun c hc => h2 c (List.mem_cons_of_mem _ hc))
      · rfl

/-- NUL-free scalars have NUL-free UTF-8 bytes. -/
theorem utf8Str_ne_zero {s : List Nat} (h : ∀ c ∈ s, isScalar c ∧ c ≠ 0) :
    ∀ b ∈ utf8Str s, b ≠ 0 := by
  induction s with
  | nil => simp [utf8Str]
  | cons c t ih =>
    intro b hb
    obtain ⟨⟨hc1, _⟩, hc2⟩ := h c (by simp)
    simp only [utf8Str, List.mem_append] at hb
    rcases hb with hb | hb
    · rw [utf8Char_eq hc1] at hb
      split_ifs at hb
      · simp at hb
        omega
      · simp at hb
        rcases hb with rfl | rfl <;> omega
      · simp at hb
        rcases hb with rfl | rfl | rfl <;> omega
      · simp at hb
        rcases hb with rfl | rfl | rfl | rfl <;> omega
    · exact ih (fun d hd => h d (List.mem_cons_of_mem _ hd)) b hb
/-- UTF-8 preserves code-point order, in continuation form: the
encodings of two scalars with arbitrary rests attached compare like the
scalars, and equal scalars reduce to comparing the rests. -/
theorem utf8Char_app {a b : Nat} (ha : isScalar a) (hb : isScalar b)
    (r1 r2 : List Nat) :
    lexCompare (utf8Char a ++ r1) (utf8Char b ++ r2)
      = match compare a b with
        | .eq => lexCompare r1 r2
        | o => o := by
  obtain ⟨ha1, ha2⟩ := ha
  obtain ⟨hb1, hb2⟩ := hb
  rw [utf8Char_eq ha1, utf8Char_eq hb1]
  rcases Nat.lt_or_ge a 0x80 with hA1 | hA1
  · rcases Nat.lt_or_ge b 0x80 with hB1 | hB1
    · rw [if_pos (show a < 0x80 by omega), if_pos (show b < 0x80 by omega)]
      simp only [List.cons_append]
      rcases lt_trichotomy (a) (b) with h0 | h0 | h0
      · rw [Nat.compare_eq_lt.2 (show a < b by omega)]
        exact lexCompare_cons_lt (by omega) _ _
      · have hab : a = b := by omega
        subst hab
        rw [nat_compare_self]
        exact lexCompare_cons_self _ _ _
      · rw [Nat.compare_eq_gt.2 (show b < a by omega)]
        exact lexCompare_cons_gt (by omega) _ _
    · rcases Nat.lt_or_ge b 0x800 with hB2 | hB2
      · rw [if_pos (show a < 0x80 by omega), if_neg (show ¬b < 0x80 by omega), if_pos (show b < 0x800 by omega)]
        simp only [List.cons_append]
        rw [Nat.compare_eq_lt.2 (show a < b by omega)]
        exact lexCompare_cons_lt (by omega) _ _
      · rcases Nat.lt_or_ge b 0x10000 with hB3 | hB3
        · rw [if_pos (show a < 0x80 by omega), if_neg (show ¬b < 0x80 by omega), if_neg (show ¬b < 0x800 by omega), if_pos (show b < 0x10000 by omega)]
          simp only [List.cons_append]
          rw [Nat.compare_eq_lt.2 (show a < b by omega)]
          exact lexCompare_cons_lt (by omega) _ _
        · rw [if_pos (show a < 0x80 by omega), if_neg (show ¬b < 0x80 by omega), if_neg (show ¬b < 0x800 by omega), if_neg (show ¬b < 0x10000 by omega)]
          simp only [List.cons_append]
          rw [Nat.compare_eq_lt.2 (show a < b by omega)]
          exact lexCompare_cons_lt (by omega) _ _
  · rcases Nat.lt_or_ge a 0x800 with hA2 | hA2
    · rcases Nat.lt_or_ge b 0x80 with hB1 | hB1
      · rw [if_neg (show ¬a < 0x80 by omega), if_pos (show a < 0x800 by omega), if_pos (show b < 0x80 by omega)]
        simp only [List.cons_append]
        rw [Nat.compare_eq_gt.2 (show b < a by omega)]
        exact lexCompare_cons_gt (by omega) _ _
      · rcases Nat.lt_or_ge b 0x800 with hB2 | hB2
        · rw [if_neg (show ¬a < 0x80 by omega), if_pos (show a < 0x800 by omega), if_neg (show ¬b < 0x80 by omega), if_pos (show b < 0x800 by omega)]
          simp only [List.cons_append]
          rcases lt_trichotomy (a / 0x40) (b / 0x40) with h0 | h0 | h0
          · rw [Nat.compare_eq_lt.2 (show a < b by omega)]
            exact lexCompare_cons_lt (by omega) _ _
          · have e0 : (0xC0 + a / 0x40 : Nat) = 0xC0 + b / 0x40 := by omega
            rw [e0, lexCompare_cons_self]
            rcases lt_trichotomy (a % 0x40) (b % 0x40) with h1 | h1 | h1
            · rw [Nat.compare_eq_lt.2 (show a < b by omega)]
              exact lexCompare_cons_lt (by omega) _ _
            · have hab : a = b := by omega
              subst hab
              rw [nat_compare_self]
              exact lexCompare_cons_self _ _ _
            · rw [Nat.compare_eq_gt.2 (show b < a by omega)]
              exact lexCompare_cons_gt (by omega) _ _
          · rw [Nat.compare_eq_gt.2 (show b < a by omega)]
            exact lexCompare_cons_gt (by omega) _ _
        · rcases Nat.lt_or_ge b 0x10000 with hB3 | hB3
          · rw [if_neg (show ¬a < 0x80 by omega), if_pos (show a < 0x800 by omega), if_neg (show ¬b < 0x80 by omega), if_neg (show ¬b < 0x800 by omega), if_pos (show b < 0x10000 by omega)]
            simp only [List.cons_append]
            rw [Nat.compare_eq_lt.2 (show a < b by omega)]
            exact lexCompare_cons_lt (by omega) _ _
          · rw [if_neg (show ¬a < 0x80 by omega), if_pos (show a < 0x800 by omega), if_neg (show ¬b < 0x80 by omega), if_neg (show ¬b < 0x800 by omega), if_neg (show ¬b < 0x10000 by omega)]
            simp only [List.cons_append]
            rw [Nat.compare_eq_lt.2 (show a < b by omega)]
            exact lexCompare_cons_lt (by omega) _ _
    · rcases Nat.lt_or_ge a 0x10000 with hA3 | hA3
      · rcases Nat.lt_or_ge b 0x80 with hB1 | hB1
        · rw [if_neg (show ¬a < 0x80 by omega), if_neg (show ¬a < 0x800 by omega), if_pos (show a < 0x10000 by omega), if_pos (show b < 0x80 by omega)]
          simp only [List.cons_append]
          rw [Nat.compare_eq_gt.2 (show b < a by omega)]
          exact lexCompare_cons_gt (by omega) _ _
        · rcases Nat.lt_or_ge b 0x800 with hB2 | hB2
          · rw [if_neg (show ¬a < 0x80 by omega), if_neg (show ¬a < 0x800 by omega), if_pos (show a < 0x10000 by omega), if_neg (show ¬b < 0x80 by omega), if_pos (show b < 0x800 by omega)]
            simp only [List.cons_append]
            rw [Nat.compare_eq_gt.2 (show b < a by omega)]
            exact lexCompare_cons_gt (by omega) _ _
          · rcases Nat.lt_or_ge b 0x10000 with hB3 | hB3
            · rw [if_neg (show ¬a < 0x80 by omega), if_neg (show ¬a < 0x800 by omega), if_pos (show a < 0x10000 by omega), if_neg (show ¬b < 0x80 by omega), if_neg (show ¬b < 0x800 by omega), if_pos (show b < 0x10000 by omega)]
              simp only [List.cons_append]
              rcases lt_trichotomy (a / 0x1000) (b / 0x1000) with h0 | h0 | h0
              · rw [Nat.compare_eq_lt.2 (show a < b by omega)]
                exact lexCompare_cons_lt (by omega) _ _
              · have e0 : (0xE0 + a / 0x1000 : Nat) = 0xE0 + b / 0x1000 := by omega
                rw [e0, lexCompare_cons_self]
                rcases lt_trichotomy (a / 0x40 % 0x40) (b / 0x40 % 0x40) with h1 | h1 | h1
                · rw [Nat.compare_eq_lt.2 (show a < b by omega)]
                  exact lexCompare_cons_lt (by omega) _ _
                · have e1 : (0x80 + a / 0x40 % 0x40 : Nat) = 0x80 + b / 0x40 % 0x40 := by omega
                  rw [e1, lexCompare_cons_self]
                  rcases lt_trichotomy (a % 0x40) (b % 0x40) with h2 | h2 | h2
                  · rw [Nat.compare_eq_lt.2 (show a < b by omega)]
                    exact lexCompare_cons_lt (by omega) _ _
                  · have hab : a = b := by omega
                    subst hab
                    rw [nat_compare_self]
                    exact lexCompare_cons_self _ _ _
                  · rw [Nat.compare_eq_gt.2 (show b < a by omega)]
                    exact lexCompare_cons_gt (by omega) _ _
                · rw [Nat.compare_eq_gt.2 (show b < a by omega)]
                  exact lexCompare_cons_gt (by omega) _ _
              · rw [Nat.compare_eq_gt.2 (show b < a by omega)]
                exact lexCompare_cons_gt (by omega) _ _
            · rw [if_neg (show ¬a < 0x80 by omega), if_neg (show ¬a < 0x800 by omega), if_pos (show a < 0x10000 by omega), if_neg (show ¬b < 0x80 by omega), if_neg (show ¬b < 0x800 by omega), if_neg (show ¬b < 0x10000 by omega)]
              simp only [List.cons_append]
              rw [Nat.compare_eq_lt.2 (show a < b by omega)]
              exact lexCompare_cons_lt (by omega) _ _
      · rcases Nat.lt_or_ge b 0x80 with hB1 | hB1
        · rw [if_neg (show ¬a < 0x80 by omega), if_neg (show ¬a < 0x800 by omega), if_neg (show ¬a < 0x10000 by omega), if_pos (show b < 0x80 by omega)]
          simp only [List.cons_append]
          rw [Nat.compare_eq_gt.2 (show b < a by omega)]
          exact lexCompare_cons_gt (by omega) _ _
        · rcases Nat.lt_or_ge b 0x800 with hB2 | hB2
          · rw [if_neg (show ¬a < 0x80 by omega), if_neg (show ¬a < 0x800 by omega), if_neg (show ¬a < 0x10000 by omega), if_neg (show ¬b < 0x80 by omega), if_pos (show b < 0x800 by omega)]
            simp only [List.cons_append]
            rw [Nat.compare_eq_gt.2 (show b < a by omega)]
            exact lexCompare_cons_gt (by omega) _ _
          · rcases Nat.lt_or_ge b 0x10000 with hB3 | hB3
            · rw [if_neg (show ¬a < 0x80 by omega), if_neg (show ¬a < 0x800 by omega), if_neg (show ¬a < 0x10000 by omega), if_neg (show ¬b < 0x80 by omega), if_neg (show ¬b < 0x800 by omega), if_pos (show b < 0x10000 by omega)]
              simp only [List.cons_append]
              rw [Nat.compare_eq_gt.2 (show b < a by omega)]
              exact lexCompare_cons_gt (by omega) _ _
            · rw [if_neg (show ¬a < 0x80 by omega), if_neg (show ¬a < 0x800 by omega), if_neg (show ¬a < 0x10000 by omega), if_neg (show ¬b < 0x80 by omega), if_neg (show ¬b < 0x800 by omega), if_neg (show ¬b < 0x10000 by omega)]
              simp only [List.cons_append]
              rcases lt_trichotomy (a / 0x40000) (b / 0x40000) with h0 | h0 | h0
              · rw [Nat.compare_eq_lt.2 (show a < b by omega)]
                exact lexCompare_cons_lt (by omega) _ _
              · have e0 : (0xF0 + a / 0x40000 : Nat) = 0xF0 + b / 0x40000 := by omega
                rw [e0, lexCompare_cons_self]
                rcases lt_trichotomy (a / 0x1000 % 0x40) (b / 0x1000 % 0x40) with h1 | h1 | h1
                · rw [Nat.compare_eq_lt.2 (show a < b by omega)]
                  exact lexCompare_cons_lt (by omega) _ _
                · have e1 : (0x80 + a / 0x1000 % 0x40 : Nat) = 0x80 + b / 0x1000 % 0x40 := by omega
                  rw [e1, lexCompare_cons_self]
                  rcases lt_trichotomy (a / 0x40 % 0x40) (b / 0x40 % 0x40) with h2 | h2 | h2
                  · rw [Nat.compare_eq_lt.2 (show a < b by omega)]
                    exact lexCompare_cons_lt (by omega) _ _
                  · have e2 : (0x80 + a / 0x40 % 0x40 : Nat) = 0x80 + b / 0x40 % 0x40 := by omega
                    rw [e2, lexCompare_cons_self]
                    rcases lt_trichotomy (a % 0x40) (b % 0x40) with h3 | h3 | h3
                    · rw [Nat.compare_eq_lt.2 (show a < b by omega)]
                      exact lexCompare_cons_lt (by omega) _ _
                    · have hab : a = b := by omega
                      subst hab
                      rw [nat_compare_self]
                      exact lexCompare_cons_self _ _ _
                    · rw [Nat.compare_eq_gt.2 (show b < a by omega)]
                      exact lexCompare_cons_gt (by omega) _ _
                  · rw [Nat.compare_eq_gt.2 (show b < a by omega)]
                    exact lexCompare_cons_gt (by omega) _ _
                · rw [Nat.compare_eq_gt.2 (show b < a by omega)]
                  exact lexCompare_cons_gt (by omega) _ _
              · rw [Nat.compare_eq_gt.2 (show b < a by omega)]
                exact lexCompare_cons_gt (by omega) _ _

/-- UTF-8 preserves code-point order (`emit_char` is order preserving). -/
theorem utf8Char_compare {a b : Nat} (ha : isScalar a) (hb : isScalar b) :
    lexCompare (utf8Char a) (utf8Char b) = compare a b := by
  have h := utf8Char_app ha hb [] []
  rw [List.append_nil, List.append_nil] at h
  rw [h]
  cases compare a b <;> rfl


theorem emit_var_u64_app {a b : Nat} (ha : a < 2 ^ 64) (hb : b < 2 ^ 64)
    (r1 r2 : List Nat) :
    lexCompare (emit_var_u64 a ++ r1) (emit_var_u64 b ++ r2)
      = match compare a b with
        | .eq => lexCompare r1 r2
        | o => o := by
  by_cases hc : clsU a = clsU b
  · rw [lexCompare_append_congr r1 r2
      (by rw [emit_var_u64_length ha, emit_var_u64_length hb, hc]),
      emit_var_u64_compare ha hb]
  · have hda : a / 2 ^ (8 * clsU a) < 16 := by
      apply Nat.div_lt_of_lt_mul
      calc a < 2 ^ (8 * clsU a + 4) := clsU_lt ha
      _ = 2 ^ (8 * clsU a) * 16 := by rw [pow_add]; norm_num
    have hdb : b / 2 ^ (8 * clsU b) < 16 := by
      apply Nat.div_lt_of_lt_mul
      calc b < 2 ^ (8 * clsU b + 4) := clsU_lt hb
      _ = 2 ^ (8 * clsU b) * 16 := by rw [pow_add]; norm_num
    rw [emit_var_u64_head ha, emit_var_u64_head hb,
      lexCompare_append_of_head_ne (by simp) (by simp) (by
        simp only [List.headD_cons]
        obtain ⟨da, hda2, hda3⟩ : ∃ d, a / 2 ^ (8 * clsU a) = d ∧ d < 16 :=
          ⟨_, rfl, hda⟩
        obtain ⟨db, hdb2, hdb3⟩ : ∃ d, b / 2 ^ (8 * clsU b) = d ∧ d < 16 :=
          ⟨_, rfl, hdb⟩
        rw [hda2, hdb2]
        omega),
      ← emit_var_u64_head ha, ← emit_var_u64_head hb, emit_var_u64_compare ha hb]
    rcases lt_trichotomy a b with h | h | h
    · rw [Nat.compare_eq_lt.2 h]
    · exact absurd (h ▸ rfl) hc
    · rw [Nat.compare_eq_gt.2 h]

theorem emit_var_i64_app {a b : Int}
    (halo : -(2 ^ 63) ≤ a) (hahi : a < 2 ^ 63)
    (hblo : -(2 ^ 63) ≤ b) (hbhi : b < 2 ^ 63) (r1 r2 : List Nat) :
    lexCompare (emit_var_i64 a ++ r1) (emit_var_i64 b ++ r2)
      = match i64Cmp a b with
        | .eq => lexCompare r1 r2
        | o => o := by
  by_cases hc : (emit_var_i64 a).length = (emit_var_i64 b).length
  · rw [lexCompare_append_congr r1 r2 hc, emit_var_i64_compare halo hahi hblo hbhi]
  · have hne : a ≠ b := by
      intro he
      exact hc (he ▸ rfl)
    have hda : mI a / 2 ^ (8 * clsI (mI a)) < 8 := by
      apply Nat.div_lt_of_lt_mul
      calc mI a < 2 ^ (8 * clsI (mI a) + 3) := clsI_lt (mI_lt halo hahi)
      _ = 2 ^ (8 * clsI (mI a)) * 8 := by rw [pow_add]; norm_num
    have hdb : mI b / 2 ^ (8 * clsI (mI b)) < 8 := by
      apply Nat.div_lt_of_lt_mul
      calc mI b < 2 ^ (8 * clsI (mI b) + 3) := clsI_lt (mI_lt hblo hbhi)
      _ = 2 ^ (8 * clsI (mI b)) * 8 := by rw [pow_add]; norm_num
    have hca := clsI_le (mI a)
    have hcb := clsI_le (mI b)
    have hcne : clsI (mI a) ≠ clsI (mI b) := by
      intro he
      exact hc (by rw [emit_var_i64_length halo hahi, emit_var_i64_length hblo hbhi, he])
    have hstep : lexCompare (emit_var_i64 a ++ r1) (emit_var_i64 b ++ r2)
        = lexCompare (emit_var_i64 a) (emit_var_i64 b) := by
      rcases le_or_lt 0 a with hsa | hsa <;> rcases le_or_lt 0 b with hsb | hsb
      · rw [emit_var_i64_head_pos hsa hahi, emit_var_i64_head_pos hsb hbhi]
        exact lexCompare_append_of_head_ne (by simp) (by simp) (by
          simp only [List.headD_cons]
          obtain ⟨da, hda2, hda3⟩ : ∃ d, mI a / 2 ^ (8 * clsI (mI a)) = d ∧ d < 8 :=
            ⟨_, rfl, hda⟩
          obtain ⟨db, hdb2, hdb3⟩ : ∃ d, mI b / 2 ^ (8 * clsI (mI b)) = d ∧ d < 8 :=
            ⟨_, rfl, hdb⟩
          rw [hda2, hdb2]
          omega)
      · rw [emit_var_i64_head_pos hsa hahi, emit_var_i64_head_neg hsb hblo]
        exact lexCompare_append_of_head_ne (by simp) (by simp) (by
          simp only [List.headD_cons]
          obtain ⟨da, hda2, hda3⟩ : ∃ d, mI a / 2 ^ (8 * clsI (mI a)) = d ∧ d < 8 :=
            ⟨_, rfl, hda⟩
          obtain ⟨db, hdb2, hdb3⟩ : ∃ d, mI b / 2 ^ (8 * clsI (mI b)) = d ∧ d < 8 :=
            ⟨_, rfl, hdb⟩
          rw [hda2, hdb2]
          omega)
      · rw [emit_var_i64_head_neg hsa halo, emit_var_i64_head_pos hsb hbhi]
        exact lexCompare_append_of_head_ne (by simp) (by simp) (by
          simp only [List.headD_cons]
          obtain ⟨da, hda2, hda3⟩ : ∃ d, mI a / 2 ^ (8 * clsI (mI a)) = d ∧ d < 8 :=
            ⟨_, rfl, hda⟩
          obtain ⟨db, hdb2, hdb3⟩ : ∃ d, mI b / 2 ^ (8 * clsI (mI b)) = d ∧ d < 8 :=
            ⟨_, rfl, hdb⟩
          rw [hda2, hdb2]
          omega)
      · rw [emit_var_i64_head_neg hsa halo, emit_var_i64_head_neg hsb hblo]
        exact lexCompare_append_of_head_ne (by simp) (by simp) (by
          simp only [List.headD_cons]
          obtain ⟨da, hda2, hda3⟩ : ∃ d, mI a / 2 ^ (8 * clsI (mI a)) = d ∧ d < 8 :=
            ⟨_, rfl, hda⟩
          obtain ⟨db, hdb2, hdb3⟩ : ∃ d, mI b / 2 ^ (8 * clsI (mI b)) = d ∧ d < 8 :=
            ⟨_, rfl, hdb⟩
          rw [hda2, hdb2]
          omega)
    rw [hstep, emit_var_i64_compare halo hahi hblo hbhi]
    rcases lt_trichotomy a b with h | h | h
    · rw [i64Cmp_lt h]
    · exact absurd h hne
    · rw [i64Cmp_gt h]

theorem emit_f32_app {a b : Nat} (ha : a < 2 ^ 32) (hb : b < 2 ^ 32)
    (hz : ¬(a % 2 ^ 31 = 0 ∧ b % 2 ^ 31 = 0 ∧ a ≠ b)) (r1 r2 : List Nat) :
    lexCompare (emit_f32 a ++ r1) (emit_f32 b ++ r2)
      = match floatCmp 32 a b with
        | .eq => lexCompare r1 r2
        | o => o := by
  have hl : (emit_f32 a).length = (emit_f32 b).length := by
    unfold emit_f32
    rw [beBytes_length, beBytes_length]
  rw [lexCompare_append_congr r1 r2 hl, emit_f32_compare ha hb hz]

theorem emit_f64_app {a b : Nat} (ha : a < 2 ^ 64) (hb : b < 2 ^ 64)
    (hz : ¬(a % 2 ^ 63 = 0 ∧ b % 2 ^ 63 = 0 ∧ a ≠ b)) (r1 r2 : List Nat) :
    lexCompare (emit_f64 a ++ r1) (emit_f64 b ++ r2)
      = match floatCmp 64 a b with
        | .eq => lexCompare r1 r2
        | o => o := by
  have hl : (emit_f64 a).length = (emit_f64 b).length := by
    unfold emit_f64
    rw [beBytes_length, beBytes_length]
  rw [lexCompare_append_congr r1 r2 hl, emit_f64_compare ha hb hz]

theorem emit_str_app {s1 s2 : List Nat}
    (h1 : ∀ c ∈ s1, isScalar c ∧ c ≠ 0) (h2 : ∀ c ∈ s2, isScalar c ∧ c ≠ 0)
    (r1 r2 : List Nat) :
    lexCompare (emit_str s1 ++ r1) (emit_str s2 ++ r2)
      = match lexCompare (utf8Str s1) (utf8Str s2) with
        | .eq => lexCompare r1 r2
        | o => o := by
  unfold emit_str
  exact lexCompare_nulterm_app _ _ r1 r2 (utf8Str_ne_zero h1) (utf8Str_ne_zero h2)


/-! ## Value ordering (Rust `PartialOrd`) and the composite agreement -/

/-- Rust `Ord` on `bool`: `false < true`. -/
def boolCmp : Bool → Bool → Ordering
  | false, true => .lt
  | true, false => .gt
  | _, _ => .eq

mutual

/-- The derived Rust `PartialOrd` on supported values: scalars by value,
strings by their UTF-8 bytes, `None < Some`, tuples and structs field-wise
in declared order, enums by variant index and then field-wise, floats by
`floatCmp`. -/
def valCmp : Ty → Value → Value → Ordering
  | .tBool, .vBool a, .vBool b => boolCmp a b
  | .tU8, .vNat a, .vNat b => compare a b
  | .tU16, .vNat a, .vNat b => compare a b
  | .tU32, .vNat a, .vNat b => compare a b
  | .tU64, .vNat a, .vNat b => compare a b
  | .tUsize, .vNat a, .vNat b => compare a b
  | .tI8, .vInt a, .vInt b => i64Cmp a b
  | .tI16, .vInt a, .vInt b => i64Cmp a b
  | .tI32, .vInt a, .vInt b => i64Cmp a b
  | .tI64, .vInt a, .vInt b => i64Cmp a b
  | .tIsize, .vInt a, .vInt b => i64Cmp a b
  | .tF32, .vNat a, .vNat b => floatCmp 32 a b
  | .tF64, .vNat a, .vNat b => floatCmp 64 a b
  | .tChar, .vChar a, .vChar b => compare a b
  | .tStr, .vStr a, .vStr b => lexCompare (utf8Str a) (utf8Str b)
  | .tOption _, .vNone, .vNone => .eq
  | .tOption _, .vNone, .vSome _ => .lt
  | .tOption _, .vSome _, .vNone => .gt
  | .tOption t, .vSome a, .vSome b => valCmp t a b
  | .tTuple ts, .vTuple va, .vTuple vb => valCmpL ts va vb
  | .tEnum cs, .vEnum i va, .vEnum j vb =>
    match compare i j with
    | .eq => valCmpL (cs.getD i []) va vb
    | o => o
  | _, _, _ => .eq
termination_by t _ _ => sizeOf t
decreasing_by
  all_goals simp_wf
  all_goals first
    | omega
    | (have h := sizeOf_getD cs i; omega)

def valCmpL : List Ty → List Value → List Value → Ordering
  | t :: ts, a :: va, b :: vb =>
    match valCmp t a b with
    | .eq => valCmpL ts va vb
    | o => o
  | _, _, _ => .eq
termination_by ts _ _ => sizeOf ts
decreasing_by
  all_goals simp_wf
  all_goals omega

end

mutual

/-- No float position of the value holds a NaN or the `-0.0` pattern —
exactly the patterns where Rust `partial_cmp` and the `(-0.0, +0.0)` key
split make the claimed order agreement fail. -/
def floatsTotal : Ty → Value → Bool
  | .tF32, .vNat n => !decide (f32IsNaN n) && decide (n ≠ 2 ^ 31)
  | .tF64, .vNat n => !decide (f64IsNaN n) && decide (n ≠ 2 ^ 63)
  | .tOption t, .vSome v => floatsTotal t v
  | .tTuple ts, .vTuple vs => floatsTotalL ts vs
  | .tEnum cs, .vEnum i vs => floatsTotalL (cs.getD i []) vs
  | _, _ => true
termination_by t _ => sizeOf t
decreasing_by
  all_goals simp_wf
  all_goals first
    | omega
    | (have h := sizeOf_getD cs i; omega)

def floatsTotalL : List Ty → List Value → Bool
  | t :: ts, v :: vs => floatsTotal t v && floatsTotalL ts vs
  | _, _ => true
termination_by ts _ => sizeOf ts
decreasing_by
  all_goals simp_wf
  all_goals omega

end


theorem wf_tBool {v : Value} (h : wf .tBool v = true) : ∃ x, v = .vBool x := by
  cases v
  case vBool x => exact ⟨x, rfl⟩
  all_goals exact absurd h (by simp [wf])

theorem wf_tU8 {v : Value} (h : wf .tU8 v = true) :
    ∃ n, v = .vNat n ∧ n < 2 ^ 8 := by
  cases v
  case vNat n => exact ⟨n, rfl, by simpa [wf] using h⟩
  all_goals exact absurd h (by simp [wf])

theorem wf_tU16 {v : Value} (h : wf .tU16 v = true) :
    ∃ n, v = .vNat n ∧ n < 2 ^ 16 := by
  cases v
  case vNat n => exact ⟨n, rfl, by simpa [wf] using h⟩
  all_goals exact absurd h (by simp [wf])

theorem wf_tU32 {v : Value} (h : wf .tU32 v = true) :
    ∃ n, v = .vNat n ∧ n < 2 ^ 32 := by
  cases v
  case vNat n => exact ⟨n, rfl, by simpa [wf] using h⟩
  all_goals exact absurd h (by simp [wf])

theorem wf_tU64 {v : Value} (h : wf .tU64 v = true) :
    ∃ n, v = .vNat n ∧ n < 2 ^ 64 := by
  cases v
  case vNat n => exact ⟨n, rfl, by simpa [wf] using h⟩
  all_goals exact absurd h (by simp [wf])

theorem wf_tUsize {v : Value} (h : wf .tUsize v = true) :
    ∃ n, v = .vNat n ∧ n < 2 ^ 64 := by
  cases v
  case vNat n => exact ⟨n, rfl, by simpa [wf] using h⟩
  all_goals exact absurd h (by simp [wf])

theorem wf_tF32 {v : Value} (h : wf .tF32 v = true) :
    ∃ n, v = .vNat n ∧ n < 2 ^ 32 := by
  cases v
  case vNat n => exact ⟨n, rfl, by simpa [wf] using h⟩
  all_goals exact absurd h (by simp [wf])

theorem wf_tF64 {v : Value} (h : wf .tF64 v = true) :
    ∃ n, v = .vNat n ∧ n < 2 ^ 64 := by
  cases v
  case vNat n => exact ⟨n, rfl, by simpa [wf] using h⟩
  all_goals exact absurd h (by simp [wf])

theorem wf_tI8 {v : Value} (h : wf .tI8 v = true) :
    ∃ x : Int, v = .vInt x ∧ -(2 ^ 7) ≤ x ∧ x < 2 ^ 7 := by
  cases v
  case vInt x =>
    have h1 : -(2 ^ 7) ≤ x ∧ x < 2 ^ 7 := by simpa [wf] using h
    exact ⟨x, rfl, h1.1, h1.2⟩
  all_goals exact absurd h (by simp [wf])

theorem wf_tI16 {v : Value} (h : wf .tI16 v = true) :
    ∃ x : Int, v = .vInt x ∧ -(2 ^ 15) ≤ x ∧ x < 2 ^ 15 := by
  cases v
  case vInt x =>
    have h1 : -(2 ^ 15) ≤ x ∧ x < 2 ^ 15 := by simpa [wf] using h
    exact ⟨x, rfl, h1.1, h1.2⟩
  all_goals exact absurd h (by simp [wf])

theorem wf_tI32 {v : Value} (h : wf .tI32 v = true) :
    ∃ x : Int, v = .vInt x ∧ -(2 ^ 31) ≤ x ∧ x < 2 ^ 31 := by
  cases v
  case vInt x =>
    have h1 : -(2 ^ 31) ≤ x ∧ x < 2 ^ 31 := by simpa [wf] using h
    exact ⟨x, rfl, h1.1, h1.2⟩
  all_goals exact absurd h (by simp [wf])

theorem wf_tI64 {v : Value} (h : wf .tI64 v = true) :
    ∃ x : Int, v = .vInt x ∧ -(2 ^ 63) ≤ x ∧ x < 2 ^ 63 := by
  cases v
  case vInt x =>
    have h1 : -(2 ^ 63) ≤ x ∧ x < 2 ^ 63 := by simpa [wf] using h
    exact ⟨x, rfl, h1.1, h1.2⟩
  all_goals exact absurd h (by simp [wf])

theorem wf_tIsize {v : Value} (h : wf .tIsize v = true) :
    ∃ x : Int, v = .vInt x ∧ -(2 ^ 63) ≤ x ∧ x < 2 ^ 63 := by
  cases v
  case vInt x =>
    have h1 : -(2 ^ 63) ≤ x ∧ x < 2 ^ 63 := by simpa [wf] using h
    exact ⟨x, rfl, h1.1, h1.2⟩
  all_goals exact absurd h (by simp [wf])

theorem wf_tChar {v : Value} (h : wf .tChar v = true) :
    ∃ c, v = .vChar c ∧ isScalar c := by
  cases v
  case vChar c => exact ⟨c, rfl, by simpa [wf] using h⟩
  all_goals exact absurd h (by simp [wf])

theorem wf_tStr {v : Value} (h : wf .tStr v = true) :
    ∃ s, v = .vStr s ∧ ∀ c ∈ s, isScalar c := by
  cases v
  case vStr s =>
    refine ⟨s, rfl, ?_⟩
    have h1 := h
    simp only [wf, List.all_eq_true, decide_eq_true_eq] at h1
    exact h1
  all_goals exact absurd h (by simp [wf])

theorem wf_tOption {t : Ty} {v : Value} (h : wf (.tOption t) v = true) :
    v = .vNone ∨ ∃ w, v = .vSome w ∧ wf t w = true := by
  cases v
  case vNone => exact Or.inl rfl
  case vSome w => exact Or.inr ⟨w, rfl, by simpa [wf] using h⟩
  all_goals exact absurd h (by simp [wf])

theorem wf_tTuple {ts : List Ty} {v : Value} (h : wf (.tTuple ts) v = true) :
    ∃ vs, v = .vTuple vs ∧ wfL ts vs = true := by
  cases v
  case vTuple vs => exact ⟨vs, rfl, by simpa [wf] using h⟩
  all_goals exact absurd h (by simp [wf])

theorem wf_tEnum {cs : List (List Ty)} {v : Value} (h : wf (.tEnum cs) v = true) :
    ∃ i vs, v = .vEnum i vs ∧ i < cs.length ∧ i < 2 ^ 64
      ∧ wfL (cs.getD i []) vs = true := by
  cases v
  case vEnum i vs =>
    have h1 := h
    simp only [wf, Bool.and_eq_true, decide_eq_true_eq] at h1
    exact ⟨i, vs, rfl, h1.1.1, h1.1.2, h1.2⟩
  all_goals exact absurd h (by simp [wf])

theorem wfL_nil {vs : List Value} (h : wfL [] vs = true) : vs = [] := by
  cases vs with
  | nil => rfl
  | cons v vs => exact absurd h (by simp [wfL])

theorem wfL_cons {t : Ty} {ts : List Ty} {vs : List Value}
    (h : wfL (t :: ts) vs = true) :
    ∃ v vs2, vs = v :: vs2 ∧ wf t v = true ∧ wfL ts vs2 = true := by
  cases vs with
  | nil => exact absurd h (by simp [wfL])
  | cons v vs2 =>
    have h1 := h
    simp only [wfL, Bool.and_eq_true] at h1
    exact ⟨v, vs2, rfl, h1.1, h1.2⟩


set_option maxHeartbeats 3200000 in
mutual

/-- Composite order agreement, continuation form: for well-formed values
free of embedded NULs, NaNs and `-0.0` patterns, the encodings with
arbitrary rests attached compare like the values, and equal values reduce
to comparing the rests. -/
theorem encCmp (t : Ty) (a b : Value) (hwa : wf t a = true) (hwb : wf t b = true)
    (hna : nulFree a = true) (hnb : nulFree b = true)
    (hfa : floatsTotal t a = true) (hfb : floatsTotal t b = true)
    (r1 r2 : List Nat) :
    lexCompare (encodeVal t a ++ r1) (encodeVal t b ++ r2)
      = match valCmp t a b with
        | .eq => lexCompare r1 r2
        | o => o := by
  match t with
  | .tBool =>
    obtain ⟨x, rfl⟩ := wf_tBool hwa
    obtain ⟨y, rfl⟩ := wf_tBool hwb
    simp only [encodeVal, valCmp]
    cases x <;> cases y
    · show lexCompare (0 :: r1) (0 :: r2) = _
      rw [lexCompare_cons_self]
      rfl
    · show lexCompare (0 :: r1) (1 :: r2) = _
      exact lexCompare_cons_lt (by norm_num) _ _
    · show lexCompare (1 :: r1) (0 :: r2) = _
      exact lexCompare_cons_gt (by norm_num) _ _
    · show lexCompare (1 :: r1) (1 :: r2) = _
      rw [lexCompare_cons_self]
      rfl
  | .tU8 =>
    obtain ⟨x, rfl, hx⟩ := wf_tU8 hwa
    obtain ⟨y, rfl, hy⟩ := wf_tU8 hwb
    simp only [encodeVal, valCmp, emit_u8]
    rw [lexCompare_append_congr r1 r2 (by rw [beBytes_length, beBytes_length]),
      beBytes_compare (show x < 2 ^ (8 * 1) by omega) (show y < 2 ^ (8 * 1) by omega)]
  | .tU16 =>
    obtain ⟨x, rfl, hx⟩ := wf_tU16 hwa
    obtain ⟨y, rfl, hy⟩ := wf_tU16 hwb
    simp only [encodeVal, valCmp, emit_u16]
    rw [lexCompare_append_congr r1 r2 (by rw [beBytes_length, beBytes_length]),
      beBytes_compare (show x < 2 ^ (8 * 2) by omega) (show y < 2 ^ (8 * 2) by omega)]
  | .tU32 =>
    obtain ⟨x, rfl, hx⟩ := wf_tU32 hwa
    obtain ⟨y, rfl, hy⟩ := wf_tU32 hwb
    simp only [encodeVal, valCmp, emit_u32]
    rw [lexCompare_append_congr r1 r2 (by rw [beBytes_length, beBytes_length]),
      beBytes_compare (show x < 2 ^ (8 * 4) by omega) (show y < 2 ^ (8 * 4) by omega)]
  | .tU64 =>
    obtain ⟨x, rfl, hx⟩ := wf_tU64 hwa
    obtain ⟨y, rfl, hy⟩ := wf_tU64 hwb
    simp only [encodeVal, valCmp, emit_u64]
    rw [lexCompare_append_congr r1 r2 (by rw [beBytes_length, beBytes_length]),
      beBytes_compare (show x < 2 ^ (8 * 8) by omega) (show y < 2 ^ (8 * 8) by omega)]
  | .tUsize =>
    obtain ⟨x, rfl, hx⟩ := wf_tUsize hwa
    obtain ⟨y, rfl, hy⟩ := wf_tUsize hwb
    simp only [encodeVal, valCmp]
    exact emit_var_u64_app hx hy r1 r2
  | .tI8 =>
    obtain ⟨x, rfl, hx1, hx2⟩ := wf_tI8 hwa
    obtain ⟨y, rfl, hy1, hy2⟩ := wf_tI8 hwb
    simp only [encodeVal, valCmp, emit_i8]
    rw [lexCompare_append_congr r1 r2 (by rw [beBytes_length, beBytes_length]),
      show lexCompare (beBytes 1 (toU 8 x ^^^ 2 ^ 7)) (beBytes 1 (toU 8 y ^^^ 2 ^ 7))
        = i64Cmp x y from signed_fixed_compare (k := 7) (by push_cast; omega)
        (by push_cast; omega) (by push_cast; omega) (by push_cast; omega) (by norm_num)]
  | .tI16 =>
    obtain ⟨x, rfl, hx1, hx2⟩ := wf_tI16 hwa
    obtain ⟨y, rfl, hy1, hy2⟩ := wf_tI16 hwb
    simp only [encodeVal, valCmp, emit_i16]
    rw [lexCompare_append_congr r1 r2 (by rw [beBytes_length, beBytes_length]),
      show lexCompare (beBytes 2 (toU 16 x ^^^ 2 ^ 15)) (beBytes 2 (toU 16 y ^^^ 2 ^ 15))
        = i64Cmp x y from signed_fixed_compare (k := 15) (by push_cast; omega)
        (by push_cast; omega) (by push_cast; omega) (by push_cast; omega) (by norm_num)]
  | .tI32 =>
    obtain ⟨x, rfl, hx1, hx2⟩ := wf_tI32 hwa
    obtain ⟨y, rfl, hy1, hy2⟩ := wf_tI32 hwb
    simp only [encodeVal, valCmp, emit_i32]
    rw [lexCompare_append_congr r1 r2 (by rw [beBytes_length, beBytes_length]),
      show lexCompare (beBytes 4 (toU 32 x ^^^ 2 ^ 31)) (beBytes 4 (toU 32 y ^^^ 2 ^ 31))
        = i64Cmp x y from signed_fixed_compare (k := 31) (by push_cast; omega)
        (by push_cast; omega) (by push_cast; omega) (by push_cast; omega) (by norm_num)]
  | .tI64 =>
    obtain ⟨x, rfl, hx1, hx2⟩ := wf_tI64 hwa
    obtain ⟨y, rfl, hy1, hy2⟩ := wf_tI64 hwb
    simp only [encodeVal, valCmp, emit_i64]
    rw [lexCompare_append_congr r1 r2 (by rw [beBytes_length, beBytes_length]),
      show lexCompare (beBytes 8 (toU 64 x ^^^ 2 ^ 63)) (beBytes 8 (toU 64 y ^^^ 2 ^ 63))
        = i64Cmp x y from signed_fixed_compare (k := 63) (by push_cast; omega)
        (by push_cast; omega) (by push_cast; omega) (by push_cast; omega) (by norm_num)]
  | .tIsize =>
    obtain ⟨x, rfl, hx1, hx2⟩ := wf_tIsize hwa
    obtain ⟨y, rfl, hy1, hy2⟩ := wf_tIsize hwb
    simp only [encodeVal, valCmp]
    exact emit_var_i64_app hx1 hx2 hy1 hy2 r1 r2
  | .tF32 =>
    obtain ⟨x, rfl, hx⟩ := wf_tF32 hwa
    obtain ⟨y, rfl, hy⟩ := wf_tF32 hwb
    have hfx : ¬f32IsNaN x ∧ x ≠ 2 ^ 31 := by simpa [floatsTotal] using hfa
    have hfy : ¬f32IsNaN y ∧ y ≠ 2 ^ 31 := by simpa [floatsTotal] using hfb
    simp only [encodeVal, valCmp]
    exact emit_f32_app hx hy (by omega) r1 r2
  | .tF64 =>
    obtain ⟨x, rfl, hx⟩ := wf_tF64 hwa
    obtain ⟨y, rfl, hy⟩ := wf_tF64 hwb
    have hfx : ¬f64IsNaN x ∧ x ≠ 2 ^ 63 := by simpa [floatsTotal] using hfa
    have hfy : ¬f64IsNaN y ∧ y ≠ 2 ^ 63 := by simpa [floatsTotal] using hfb
    simp only [encodeVal, valCmp]
    exact emit_f64_app hx hy (by omega) r1 r2
  | .tChar =>
    obtain ⟨x, rfl, hx⟩ := wf_tChar hwa
    obtain ⟨y, rfl, hy⟩ := wf_tChar hwb
    simp only [encodeVal, valCmp, emit_char]
    exact utf8Char_app hx hy r1 r2
  | .tStr =>
    obtain ⟨x, rfl, hx⟩ := wf_tStr hwa
    obtain ⟨y, rfl, hy⟩ := wf_tStr hwb
    have hnx : ∀ c ∈ x, c ≠ 0 := by
      have h1 := hna
      simp only [nulFree, List.all_eq_true, decide_eq_true_eq] at h1
      exact h1
    have hny : ∀ c ∈ y, c ≠ 0 := by
      have h1 := hnb
      simp only [nulFree, List.all_eq_true, decide_eq_true_eq] at h1
      exact h1
    simp only [encodeVal, valCmp]
    exact emit_str_app (fun c hc => ⟨hx c hc, hnx c hc⟩)
      (fun c hc => ⟨hy c hc, hny c hc⟩) r1 r2
  | .tOption t =>
    rcases wf_tOption hwa with rfl | ⟨w1, rfl, hw1⟩
    · rcases wf_tOption hwb with rfl | ⟨w2, rfl, hw2⟩
      · simp only [encodeVal, valCmp]
        show lexCompare (0 :: r1) (0 :: r2) = lexCompare r1 r2
        rw [lexCompare_cons_self]
      · simp only [encodeVal, valCmp]
        show lexCompare (0 :: r1) (1 :: (encodeVal t w2 ++ r2)) = .lt
        exact lexCompare_cons_lt (by norm_num) _ _
    · rcases wf_tOption hwb with rfl | ⟨w2, rfl, hw2⟩
      · simp only [encodeVal, valCmp]
        show lexCompare (1 :: (encodeVal t w1 ++ r1)) (0 :: r2) = .gt
        exact lexCompare_cons_gt (by norm_num) _ _
      · have hn1 : nulFree w1 = true := by simpa [nulFree] using hna
        have hn2 : nulFree w2 = true := by simpa [nulFree] using hnb
        have hf1 : floatsTotal t w1 = true := by simpa [floatsTotal] using hfa
        have hf2 : floatsTotal t w2 = true := by simpa [floatsTotal] using hfb
        simp only [encodeVal, valCmp]
        show lexCompare (1 :: (encodeVal t w1 ++ r1)) (1 :: (encodeVal t w2 ++ r2)) = _
        rw [lexCompare_cons_self, encCmp t w1 w2 hw1 hw2 hn1 hn2 hf1 hf2 r1 r2]
  | .tTuple ts =>
    obtain ⟨vs1, rfl, hv1⟩ := wf_tTuple hwa
    obtain ⟨vs2, rfl, hv2⟩ := wf_tTuple hwb
    have hn1 : nulFreeL vs1 = true := by simpa [nulFree] using hna
    have hn2 : nulFreeL vs2 = true := by simpa [nulFree] using hnb
    have hf1 : floatsTotalL ts vs1 = true := by simpa [floatsTotal] using hfa
    have hf2 : floatsTotalL ts vs2 = true := by simpa [floatsTotal] using hfb
    simp only [encodeVal, valCmp]
    exact encCmpL ts vs1 vs2 hv1 hv2 hn1 hn2 hf1 hf2 r1 r2
  | .tEnum cs =>
    obtain ⟨i, vs1, rfl, hi1, hi2, hv1⟩ := wf_tEnum hwa
    obtain ⟨j, vs2, rfl, hj1, hj2, hv2⟩ := wf_tEnum hwb
    have hn1 : nulFreeL vs1 = true := by simpa [nulFree] using hna
    have hn2 : nulFreeL vs2 = true := by simpa [nulFree] using hnb
    have hf1 : floatsTotalL (cs.getD i []) vs1 = true := by
      simpa [floatsTotal] using hfa
    have hf2 : floatsTotalL (cs.getD j []) vs2 = true := by
      simpa [floatsTotal] using hfb
    simp only [encodeVal, valCmp]
    rw [List.append_assoc, List.append_assoc, emit_var_u64_app hi2 hj2]
    cases h : compare i j
    · rfl
    · have hij : i = j := Nat.compare_eq_eq.1 h
      subst hij
      exact encCmpL (cs.getD i []) vs1 vs2 hv1 hv2 hn1 hn2 hf1 hf2 r1 r2
    · rfl
termination_by sizeOf t
decreasing_by
  all_goals simp_wf
  all_goals first
    | omega
    | (have h := sizeOf_getD cs i; omega)

theorem encCmpL (ts : List Ty) (va vb : List Value)
    (hwa : wfL ts va = true) (hwb : wfL ts vb = true)
    (hna : nulFreeL va = true) (hnb : nulFreeL vb = true)
    (hfa : floatsTotalL ts va = true) (hfb : floatsTotalL ts vb = true)
    (r1 r2 : List Nat) :
    lexCompare (encodeL ts va ++ r1) (encodeL ts vb ++ r2)
      = match valCmpL ts va vb with
        | .eq => lexCompare r1 r2
        | o => o := by
  match ts with
  | [] =>
    have h1 := wfL_nil hwa
    have h2 := wfL_nil hwb
    subst h1
    subst h2
    simp only [encodeL, valCmpL, List.nil_append]
  | t :: ts =>
    obtain ⟨v1, vs1, rfl, hw1, hw1s⟩ := wfL_cons hwa
    obtain ⟨v2, vs2, rfl, hw2, hw2s⟩ := wfL_cons hwb
    have hn1 : nulFree v1 = true ∧ nulFreeL vs1 = true := by
      simpa [nulFreeL, Bool.and_eq_true] using hna
    have hn2 : nulFree v2 = true ∧ nulFreeL vs2 = true := by
      simpa [nulFreeL, Bool.and_eq_true] using hnb
    have hf1 : floatsTotal t v1 = true ∧ floatsTotalL ts vs1 = true := by
      simpa [floatsTotalL, Bool.and_eq_true] using hfa
    have hf2 : floatsTotal t v2 = true ∧ floatsTotalL ts vs2 = true := by
      simpa [floatsTotalL, Bool.and_eq_true] using hfb
    simp only [encodeL, valCmpL, List.append_assoc]
    rw [encCmp t v1 v2 hw1 hw2 hn1.1 hn2.1 hf1.1 hf2.1]
    cases h : valCmp t v1 v2
    · rfl
    · exact encCmpL ts vs1 vs2 hw1s hw2s hn1.2 hn2.2 hf1.2 hf2.2 r1 r2
    · rfl
termination_by sizeOf ts
decreasing_by
  all_goals simp_wf
  all_goals omega

end

/-- Composite order agreement: the encoding of every supported type —
tuples, structs, options and enums included — compares like the values,
for well-formed values free of embedded NULs, NaNs and `-0.0`. -/
theorem encodeVal_compare {t : Ty} {a b : Value}
    (hwa : wf t a = true) (hwb : wf t b = true)
    (hna : nulFree a = true) (hnb : nulFree b = true)
    (hfa : floatsTotal t a = true) (hfb : floatsTotal t b = true) :
    lexCompare (encodeVal t a) (encodeVal t b) = valCmp t a b := by
  have h := encCmp t a b hwa hwb hna hnb hfa hfb [] []
  rw [List.append_nil, List.append_nil] at h
  rw [h]
  cases valCmp t a b <;> rfl

/-! ## The claims -/

/-- C3: variable-length u64 layout.  `emit_var_u64 v` is a header byte —
high nibble the trailing-byte count `clsU v`, low nibble the top four value
bits — followed by `clsU v` big-endian trailing bytes; `clsU` is exactly the
§4.2.1 class table (`clsU v ≤ k` iff `v < 2^(8k+4)` for `k < 8`, nine bytes
from `2^60` with header exactly `0x80`); decoding reads the header and
`clsU v` more bytes and reassembles `v`; the encoding preserves order, in
particular across every class boundary. -/
theorem c3_var_u64_layout (v : Nat) (hv : v < 2 ^ 64) (r : List Nat) :
    emit_var_u64 v = (16 * clsU v + v / 2 ^ (8 * clsU v)) :: beBytes (clsU v) v
    ∧ v / 2 ^ (8 * clsU v) < 16
    ∧ (emit_var_u64 v).length = clsU v + 1
    ∧ clsU v ≤ 8
    ∧ (∀ k, k < 8 → (clsU v ≤ k ↔ v < 2 ^ (8 * k + 4)))
    ∧ (2 ^ 60 ≤ v → emit_var_u64 v = 0x80 :: beBytes 8 v)
    ∧ read_var_u64 (emit_var_u64 v ++ r) = .ok (v, r)
    ∧ (∀ w, w < 2 ^ 64 → lexCompare (emit_var_u64 v) (emit_var_u64 w) = compare v w) := by
  have hd : v / 2 ^ (8 * clsU v) < 16 := by
    apply Nat.div_lt_of_lt_mul
    calc v < 2 ^ (8 * clsU v + 4) := clsU_lt hv
    _ = 2 ^ (8 * clsU v) * 16 := by rw [pow_add]; norm_num
  have hchar : ∀ k, k < 8 → (clsU v ≤ k ↔ v < 2 ^ (8 * k + 4)) := by
    intro k hk
    constructor
    · intro hle
      calc v < 2 ^ (8 * clsU v + 4) := clsU_lt hv
      _ ≤ 2 ^ (8 * k + 4) := Nat.pow_le_pow_right (by norm_num) (by omega)
    · exact clsU_min hk
  have h9 : 2 ^ 60 ≤ v → emit_var_u64 v = 0x80 :: beBytes 8 v := by
    intro h60
    have hc8 : clsU v = 8 := by
      have h1 := clsU_le v
      rcases Nat.lt_or_ge (clsU v) 8 with h2 | h2
      · have h3 := (hchar 7 (by norm_num)).1 (by omega)
        omega
      · omega
    rw [emit_var_u64_head hv, hc8]
    have hz : v / 2 ^ (8 * 8) = 0 := Nat.div_eq_of_lt hv
    rw [hz]
  exact ⟨emit_var_u64_head hv, hd, emit_var_u64_length hv, clsU_le v, hchar, h9,
    read_var_u64_emit hv r, fun w hw => emit_var_u64_compare hv hw⟩

theorem c3_var_u64_layout_witness :
    read_var_u64 (emit_var_u64 (2 ^ 60) ++ [7]) = .ok (2 ^ 60, [7])
    ∧ (emit_var_u64 (2 ^ 60)).length = clsU (2 ^ 60) + 1 :=
  ⟨(c3_var_u64_layout (2 ^ 60) (by norm_num) [7]).2.2.2.2.2.2.1,
   (c3_var_u64_layout (2 ^ 60) (by norm_num) [7]).2.2.1⟩

/-- C4: variable-length i64 algorithm.  `m = |v| − (1 if v < 0)`; the
encoding is the class-`clsI m` word with header `(16 + clsI m)` OR-ed in,
and on negatives every byte is complemented (the XOR with the all-ones
mask); decoding recovers `v` exactly; `0 → 80`, `−1 → 7F`,
`i64::MIN → 3F 80 00 00 00 00 00 00 00`; the encoding preserves order. -/
theorem c4_var_i64_algorithm (v : Int) (hlo : -(2 ^ 63) ≤ v) (hhi : v < 2 ^ 63)
    (r : List Nat) :
    ((mI v : Int) = if v < 0 then -v - 1 else v)
    ∧ emit_var_i64 v =
        (if 0 ≤ v then
          beBytes (clsI (mI v) + 1)
            (mI v + (16 + clsI (mI v)) * 2 ^ (8 * clsI (mI v) + 3))
        else
          (beBytes (clsI (mI v) + 1)
            (mI v + (16 + clsI (mI v)) * 2 ^ (8 * clsI (mI v) + 3))).map
            (fun b => 255 - b))
    ∧ (emit_var_i64 v).length = clsI (mI v) + 1
    ∧ read_var_i64 (emit_var_i64 v ++ r) = .ok (v, r)
    ∧ emit_var_i64 0 = [0x80]
    ∧ emit_var_i64 (-1) = [0x7F]
    ∧ emit_var_i64 (-(2 ^ 63)) = [0x3F, 0x80, 0, 0, 0, 0, 0, 0, 0]
    ∧ (∀ w, -(2 ^ 63) ≤ w → w < 2 ^ 63 →
        lexCompare (emit_var_i64 v) (emit_var_i64 w) = i64Cmp v w) := by
  refine ⟨?_, emit_var_i64_eq hlo hhi, emit_var_i64_length hlo hhi,
    read_var_i64_emit hlo hhi r, by decide, by decide, by decide,
    fun w h1 h2 => emit_var_i64_compare hlo hhi h1 h2⟩
  unfold mI
  split_ifs with h <;> omega

theorem c4_var_i64_algorithm_witness :
    read_var_i64 (emit_var_i64 (-(2 ^ 63)) ++ []) = .ok (-(2 ^ 63), []) :=
  (c4_var_i64_algorithm (-(2 ^ 63)) (by norm_num) (by norm_num) []).2.2.2.1

/-- C10: de.rs `deserialize_var_u64` is total over arbitrary input: it
returns end-of-input or a value, never panics and never rejects a header —
count nibbles 9–15 are accepted and that many trailing bytes are read (the
`overflowing_shl` masks the 64-bit header shift, as the concrete nine-byte
evaluation shows: the first trailing byte lands on a shift of 64 masked
to 0). -/
theorem c10_deserialize_var_u64_total :
    (∀ l : List Nat, deserialize_var_u64 l = .error .eof
      ∨ ∃ v r, deserialize_var_u64 l = .ok (v, r))
    ∧ (∀ (b : Nat) (t : List Nat), 9 ≤ b >>> 4 → b >>> 4 ≤ t.length →
        ∃ v r, deserialize_var_u64 (b :: t) = .ok (v, r)
          ∧ r.length = t.length - b >>> 4)
    ∧ deserialize_var_u64 (0x90 :: List.replicate 9 1) = .ok (0x0101010101010102, [])
    ∧ deserialize_var_u64 [0x90] = .error .eof := by
  refine ⟨?_, ?_, by rfl, by rfl⟩
  · intro l
    rcases deserialize_var_u64_total l with h | ⟨v, r, h1, _⟩
    · exact Or.inl h
    · exact Or.inr ⟨v, r, h1⟩
  · intro b t h9 hlen
    show ∃ v r,
      readVarTail (b >>> 4) (((b &&& 0x0F) <<< (8 * (b >>> 4) % 64)) % 2 ^ 64) t
        = .ok (v, r) ∧ r.length = t.length - b >>> 4
    obtain ⟨v, _, he⟩ := readVarTail_ok hlen (Nat.mod_lt _ (by norm_num))
    exact ⟨v, t.drop (b >>> 4), he, by simp⟩


/-- C5: float transform.  The encoded word is `bits + 2^(w-1)` for a
non-negative pattern and the bitwise complement for a negative one (exactly
`bits XOR t` with `t = (bits >> (w-1)) | MIN`); decoding inverts it
exactly; `-0.0` encodes strictly below `+0.0`; negative infinity has the
smallest encoding *among non-NaN patterns* and a *sign-positive* NaN
encodes above every non-NaN pattern (sign-negative NaNs fall below
negative infinity — see the counterexample). -/
theorem c5_float_transform (bits : Nat) (h32 : bits < 2 ^ 32) (r : List Nat) :
    emit_f32 bits
      = beBytes 4 (if bits < 2 ^ 31 then 2 ^ 31 + bits else 2 ^ 32 - 1 - bits)
    ∧ read_f32 (emit_f32 bits ++ r) = .ok (bits, r)
    ∧ (∀ b, b < 2 ^ 64 →
        emit_f64 b = beBytes 8 (if b < 2 ^ 63 then 2 ^ 63 + b else 2 ^ 64 - 1 - b)
        ∧ read_f64 (emit_f64 b ++ r) = .ok (b, r))
    ∧ lexCompare (emit_f32 (2 ^ 31)) (emit_f32 0) = .lt
    ∧ (¬f32IsNaN bits → bits ≠ 0xFF800000 →
        lexCompare (emit_f32 0xFF800000) (emit_f32 bits) = .lt)
    ∧ (f32IsNaN bits → bits < 2 ^ 31 → ∀ b, b < 2 ^ 32 → ¬f32IsNaN b →
        lexCompare (emit_f32 b) (emit_f32 bits) = .lt) := by
  have hw : ∀ x : Nat, x < 2 ^ 32 → emit_f32 x
      = beBytes 4 (if x < 2 ^ 31 then 2 ^ 31 + x else 2 ^ 32 - 1 - x) := by
    intro x hx
    unfold emit_f32
    rw [emit_f32_word hx]
  refine ⟨hw bits h32, read_f32_emit h32 r, ?_, by decide, ?_, ?_⟩
  · intro b hb
    refine ⟨?_, read_f64_emit hb r⟩
    unfold emit_f64
    rw [emit_f64_word hb]
  · intro hnan hne
    rw [hw 0xFF800000 (by norm_num), hw bits h32,
      beBytes_compare (by split_ifs <;> omega) (by split_ifs <;> omega)]
    unfold f32IsNaN at hnan
    apply Nat.compare_eq_lt.2
    split_ifs <;> omega
  · intro hnan hneg b hb hbn
    rw [hw b hb, hw bits h32,
      beBytes_compare (by split_ifs <;> omega) (by split_ifs <;> omega)]
    unfold f32IsNaN at hnan hbn
    apply Nat.compare_eq_lt.2
    split_ifs <;> omega

theorem c5_float_transform_witness :
    read_f32 (emit_f32 0x3F800000 ++ []) = .ok (0x3F800000, []) :=
  (c5_float_transform 0x3F800000 (by norm_num) []).2.1

theorem c5_counterexample :
    f32IsNaN 0xFF800001
    ∧ lexCompare (emit_f32 0xFF800001) (emit_f32 0xFF800000) = .lt
    ∧ lexCompare (emit_f32 0xFF800001) (emit_f32 0x7F800000) = .lt := by
  exact ⟨by decide, by decide, by decide⟩

/-- C6: string framing.  Encoding emits the UTF-8 bytes plus a `0x00`
terminator, always.  decoder.rs `read_str` behaves as the claim says:
it reads code points up to the first NUL, discards the terminator and
propagates an invalid-UTF-8 error.  de.rs `deserialize_str` does not: it
never reports invalid UTF-8 (it returns what was accumulated), and it reads
past interior NUL terminators to the end of the input, stripping a chunk's
final NUL. -/
theorem c6_string_framing :
    (∀ s : List Nat, emit_str s = utf8Str s ++ [0])
    ∧ (∀ (s r : List Nat), (∀ c ∈ s, isScalar c ∧ c ≠ 0) →
        read_str (utf8Str s ++ (0 :: r)) = .ok (s, r))
    ∧ (∀ l : List Nat, readChar l = .error .notUtf8 → read_str l = .error .notUtf8)
    ∧ (∀ l : List Nat, ∃ out rest, deserialize_str l = .ok (out, rest))
    ∧ deserialize_str [0x61, 0x00, 0x62, 0x00] = .ok ([0x61, 0x00, 0x62], [])
    ∧ deserialize_str [0xFF] = .ok ([], [0xFF]) := by
  refine ⟨fun s => rfl, fun s r h => read_str_emit h r,
    fun l h => read_str_notUtf8 h, fun l => ⟨_, _, rfl⟩, ?_, ?_⟩
  · simp [deserialize_str, deserializeStrGo, utf8ValidPrefix, readChar, utf8Width,
      utf8Decode1, stripNul]
  · simp [deserialize_str, deserializeStrGo, utf8ValidPrefix, readChar, utf8Width,
      utf8Decode1, stripNul]

theorem c6_counterexample :
    read_str [0x61, 0x00, 0x62, 0x00] = .ok ([0x61], [0x62, 0x00])
    ∧ deserialize_str [0x61, 0x00, 0x62, 0x00] = .ok ([0x61, 0x00, 0x62], [])
    ∧ deserialize_str [0xFF] = .ok ([], [0xFF]) := by
  refine ⟨?_, ?_, ?_⟩ <;>
    simp [read_str, deserialize_str, deserializeStrGo, utf8ValidPrefix, readChar,
      utf8Width, utf8Decode1, stripNul]

/-- C7: option tags.  `None → 0x00`, `Some v → 0x01 ++ enc v`, and every
`None` sorts before every `Some`.  de.rs `deserialize_option` rejects
presence bytes other than 0 and 1; decoder.rs `read_option` does not — any
non-zero byte selects the `Some` branch (`read_bool`). -/
theorem c7_option_tags :
    (∀ (α : Type) (enc : α → List Nat), emit_option enc none = [0])
    ∧ (∀ (α : Type) (enc : α → List Nat) (v : α),
        emit_option enc (some v) = 1 :: enc v)
    ∧ (∀ (α : Type) (enc enc2 : α → List Nat) (v : α),
        lexCompare (emit_option enc none) (emit_option enc2 (some v)) = .lt)
    ∧ (∀ (α : Type) (dec : List Nat → Except Err (α × List Nat)) (r : List Nat),
        deserialize_option dec (0 :: r) = .ok (none, r))
    ∧ (∀ (α : Type) (dec : List Nat → Except Err (α × List Nat))
        (r r' : List Nat) (v : α), dec r = .ok (v, r') →
        deserialize_option dec (1 :: r) = .ok (some v, r'))
    ∧ (∀ (α : Type) (dec : List Nat → Except Err (α × List Nat))
        (r : List Nat) (b : Nat), 2 ≤ b →
        deserialize_option dec (b :: r) = .error .msg)
    ∧ (∀ (α : Type) (dec : List Nat → Except Err (α × List Nat)) (r : List Nat),
        read_option dec (0 :: r) = .ok (none, r))
    ∧ (∀ (α : Type) (dec : List Nat → Except Err (α × List Nat))
        (r r' : List Nat) (v : α) (b : Nat), b ≠ 0 → dec r = .ok (v, r') →
        read_option dec (b :: r) = .ok (some v, r')) := by
  refine ⟨fun α enc => rfl, fun α enc v => rfl,
    fun α enc enc2 v => lexCompare_cons_lt (by norm_num) _ _,
    fun α dec r => rfl, ?_, ?_, fun α dec r => rfl, ?_⟩
  · intro α dec r r' v hdec
    show (match dec r with
      | Except.error e => Except.error e
      | Except.ok (v, r') => Except.ok (some v, r')) = Except.ok (some v, r')
    rw [hdec]
  · intro α dec r b hb
    match b with
    | 0 => exact absurd hb (by omega)
    | 1 => exact absurd hb (by omega)
    | n + 2 => rfl
  · intro α dec r r' v b hb hdec
    show (match read_bool (b :: r) with
      | Except.error e => Except.error e
      | Except.ok (false, r) => Except.ok (none, r)
      | Except.ok (true, r) =>
        match dec r with
        | Except.error e => Except.error e
        | Except.ok (v, r') => Except.ok (some v, r')) = Except.ok (some v, r')
    rw [show read_bool (b :: r) = .ok (if b = 0 then false else true, r) from rfl,
      if_neg hb]
    show (match dec r with
      | Except.error e => Except.error e
      | Except.ok (v, r') => Except.ok (some v, r')) = Except.ok (some v, r')
    rw [hdec]

theorem c7_counterexample :
    read_option (fun l => match l with
      | [] => (.error .eof : Except Err (Nat × List Nat))
      | x :: xs => .ok (x, xs)) [2, 5] = .ok (some 5, [])
    ∧ deserialize_option (fun l => match l with
      | [] => (.error .eof : Except Err (Nat × List Nat))
      | x :: xs => .ok (x, xs)) [2, 5] = .error .msg := ⟨rfl, rfl⟩

/-- C8: enum variant framing.  The encoder writes the 0-based variant index
in the §4.2.1 variable-length format (a single byte below 16) then the
payload; decoder.rs `read_enum_variant` reads it back in the same format;
de.rs `variant_seed` instead reads a fixed four-byte big-endian `u32` and
so misparses the encoder's output (see the counterexample). -/
theorem c8_enum_variant_framing (i : Nat) (hi : i < 2 ^ 64) (fields : List Nat) :
    emit_enum_variant i fields = emit_var_u64 i ++ fields
    ∧ read_enum_variant (emit_enum_variant i fields) = .ok (i, fields)
    ∧ (i < 16 → emit_enum_variant i fields = i :: fields)
    ∧ deserialize_variant_idx (emit_enum_variant 1 [0, 0, 0]) = .ok (0x01000000, [])
    ∧ deserialize_variant_idx (emit_enum_variant 1 []) = .error .eof := by
  refine ⟨rfl, read_var_u64_emit hi fields, ?_, by rfl, by rfl⟩
  intro h16
  unfold emit_enum_variant
  have hc : clsU i = 0 := Nat.le_zero.1 (clsU_min (by norm_num) (by omega))
  rw [emit_var_u64_head hi, hc]
  norm_num [beBytes]

theorem c8_enum_variant_framing_witness :
    read_enum_variant (emit_enum_variant 3 [9]) = .ok (3, [9]) :=
  (c8_enum_variant_framing 3 (by norm_num) [9]).2.1

theorem c8_counterexample :
    read_enum_variant (emit_enum_variant 1 []) = .ok (1, [])
    ∧ deserialize_variant_idx (emit_enum_variant 1 []) = .error .eof
    ∧ deserialize_variant_idx (emit_enum_variant 1 [0, 0, 0]) = .ok (0x01000000, [])
    ∧ (0x01000000 : Nat) ≠ 1 := ⟨rfl, rfl, rfl, by norm_num⟩

/-- C9: embedded NUL.  Encoding a string with an interior `U+0000` succeeds
and writes all its UTF-8 bytes (the interior NUL byte included, unescaped)
plus the final terminator; decoding that output stops at the first NUL and
returns only the prefix before it, which differs from the original
string. -/
theorem c9_embedded_nul (p q r : List Nat) (hp : ∀ c ∈ p, isScalar c ∧ c ≠ 0) :
    emit_str (p ++ 0 :: q) = utf8Str p ++ 0 :: (utf8Str q ++ [0])
    ∧ read_str (emit_str (p ++ 0 :: q) ++ r) = .ok (p, utf8Str q ++ (0 :: r))
    ∧ p ++ 0 :: q ≠ p := by
  have h1 : emit_str (p ++ 0 :: q) = utf8Str p ++ 0 :: (utf8Str q ++ [0]) := by
    unfold emit_str
    rw [utf8Str_append p (0 :: q)]
    show utf8Str p ++ (utf8Char 0 ++ utf8Str q) ++ [0] = _
    rw [show utf8Char 0 = [0] from rfl]
    simp
  refine ⟨h1, ?_, ?_⟩
  · rw [h1]
    have h2 : (utf8Str p ++ 0 :: (utf8Str q ++ [0])) ++ r
        = utf8Str p ++ (0 :: (utf8Str q ++ (0 :: r))) := by simp
    rw [h2, read_str_emit hp (utf8Str q ++ (0 :: r))]
  · intro h
    have hlen := congrArg List.length h
    simp at hlen

theorem c9_embedded_nul_witness :
    read_str (emit_str ([104] ++ 0 :: [105]) ++ [])
      = .ok ([104], utf8Str [105] ++ (0 :: [])) :=
  (c9_embedded_nul [104] [105] [] (by decide)).2.1


/-- C1: round-trip identity, corrected.  Decoding inverts encoding for every
well-formed value of every supported type — booleans, fixed-width ints,
variable-length usize/isize, f32/f64 at the bit-pattern level (hence
bitwise, NaN payloads included), chars, strings, options, tuples/structs
and enums — *provided no string in the value contains an embedded U+0000*;
a string with an interior NUL instead decodes to its prefix before the NUL
(counterexample). -/
theorem c1_round_trip (t : Ty) (v : Value) (hwf : wf t v = true)
    (hnf : nulFree v = true) : decode t (encode t v) = .ok v :=
  decode_encode hwf hnf

theorem c1_round_trip_witness :
    decode (.tTuple [.tU8, .tStr])
      (encode (.tTuple [.tU8, .tStr]) (.vTuple [.vNat 7, .vStr [104, 105]]))
      = .ok (.vTuple [.vNat 7, .vStr [104, 105]]) :=
  c1_round_trip _ _ (by simp [wf, wfL, isScalar]) (by simp [nulFree, nulFreeL])

theorem c1_counterexample :
    wf .tStr (.vStr [0]) = true
    ∧ decode .tStr (encode .tStr (.vStr [0])) = .ok (.vStr [])
    ∧ Value.vStr [] ≠ .vStr [0] := by
  refine ⟨by simp [wf, isScalar], ?_, by simp⟩
  simp [decode, encode, encodeVal, decodeVal, emit_str, utf8Str, utf8Char,
    read_str, readChar, utf8Width, utf8Decode1]

/-- C2: order preservation, corrected.  `sign(cmp(a, b)) =
sign(lex_cmp(encode a, encode b))` holds for booleans, the fixed-width
unsigned and signed integers, variable-length usize/isize, chars (UTF-8
order is code-point order), strings (Rust compares them by UTF-8 bytes)
and options, and it lifts to every composite — tuples, structs, options
and enums — of well-formed values whose strings are NUL-free and whose
floats avoid the exceptional patterns; the exceptions, each forced by the
counterexample, are: the float pair `(-0.0, +0.0)` compares equal yet
encodes as two distinct adjacent keys, `encode(x) < encode(NaN)` holds for
sign-positive NaNs but not sign-negative NaN patterns, and a tuple whose
non-final string field contains an embedded NUL can invert the order. -/
theorem c2_order_preservation :
    (∀ a b : Bool, lexCompare (emit_bool a) (emit_bool b)
      = (if a = b then .eq else if b then .lt else .gt))
    ∧ (∀ a b : Nat, a < 2 ^ 8 → b < 2 ^ 8 →
        lexCompare (emit_u8 a) (emit_u8 b) = compare a b)
    ∧ (∀ a b : Nat, a < 2 ^ 16 → b < 2 ^ 16 →
        lexCompare (emit_u16 a) (emit_u16 b) = compare a b)
    ∧ (∀ a b : Nat, a < 2 ^ 32 → b < 2 ^ 32 →
        lexCompare (emit_u32 a) (emit_u32 b) = compare a b)
    ∧ (∀ a b : Nat, a < 2 ^ 64 → b < 2 ^ 64 →
        lexCompare (emit_u64 a) (emit_u64 b) = compare a b)
    ∧ (∀ a b : Nat, a < 2 ^ 64 → b < 2 ^ 64 →
        lexCompare (emit_var_u64 a) (emit_var_u64 b) = compare a b)
    ∧ (∀ a b : Int, -(2 ^ 7) ≤ a → a < 2 ^ 7 → -(2 ^ 7) ≤ b → b < 2 ^ 7 →
        lexCompare (emit_i8 a) (emit_i8 b) = i64Cmp a b)
    ∧ (∀ a b : Int, -(2 ^ 15) ≤ a → a < 2 ^ 15 → -(2 ^ 15) ≤ b → b < 2 ^ 15 →
        lexCompare (emit_i16 a) (emit_i16 b) = i64Cmp a b)
    ∧ (∀ a b : Int, -(2 ^ 31) ≤ a → a < 2 ^ 31 → -(2 ^ 31) ≤ b → b < 2 ^ 31 →
        lexCompare (emit_i32 a) (emit_i32 b) = i64Cmp a b)
    ∧ (∀ a b : Int, -(2 ^ 63) ≤ a → a < 2 ^ 63 → -(2 ^ 63) ≤ b → b < 2 ^ 63 →
        lexCompare (emit_i64 a) (emit_i64 b) = i64Cmp a b)
    ∧ (∀ a b : Int, -(2 ^ 63) ≤ a → a < 2 ^ 63 → -(2 ^ 63) ≤ b → b < 2 ^ 63 →
        lexCompare (emit_var_i64 a) (emit_var_i64 b) = i64Cmp a b)
    ∧ (∀ s u : List Nat, lexCompare (emit_str s) (emit_str u)
        = lexCompare (utf8Str s) (utf8Str u))
    ∧ (∀ (α : Type) (enc : α → List Nat) (v : α),
        lexCompare (emit_option enc none) (emit_option enc (some v)) = .lt)
    ∧ (∀ (α : Type) (enc : α → List Nat) (v w : α),
        lexCompare (emit_option enc (some v)) (emit_option enc (some w))
          = lexCompare (enc v) (enc w))
    ∧ (∀ a b : Nat, a < 2 ^ 32 → b < 2 ^ 32 →
        ¬(a % 2 ^ 31 = 0 ∧ b % 2 ^ 31 = 0 ∧ a ≠ b) →
        lexCompare (emit_f32 a) (emit_f32 b) = floatCmp 32 a b)
    ∧ (∀ a b : Nat, a < 2 ^ 64 → b < 2 ^ 64 →
        ¬(a % 2 ^ 63 = 0 ∧ b % 2 ^ 63 = 0 ∧ a ≠ b) →
        lexCompare (emit_f64 a) (emit_f64 b) = floatCmp 64 a b)
    ∧ lexCompare (emit_f32 (2 ^ 31)) (emit_f32 0) = .lt
    ∧ lexCompare (emit_f32 0x7F800000) (emit_f32 0x7FC00000) = .lt
    ∧ (∀ a b : Nat, isScalar a → isScalar b →
        lexCompare (emit_char a) (emit_char b) = compare a b)
    ∧ (∀ (t : Ty) (a b : Value), wf t a = true → wf t b = true →
        nulFree a = true → nulFree b = true →
        floatsTotal t a = true → floatsTotal t b = true →
        lexCompare (encodeVal t a) (encodeVal t b) = valCmp t a b) := by
  refine ⟨by decide, ?_, ?_, ?_, ?_,
    fun a b ha hb => emit_var_u64_compare ha hb,
    ?_, ?_, ?_, ?_,
    fun a b h1 h2 h3 h4 => emit_var_i64_compare h1 h2 h3 h4,
    fun s u => lexCompare_append_zero (utf8Str s) (utf8Str u),
    fun α enc v => lexCompare_cons_lt (by norm_num) _ _,
    fun α enc v w => lexCompare_cons_self 1 _ _,
    fun a b ha hb hz => emit_f32_compare ha hb hz,
    fun a b ha hb hz => emit_f64_compare ha hb hz,
    by decide, by decide,
    fun a b ha hb => utf8Char_compare ha hb,
    fun t a b h1 h2 h3 h4 h5 h6 => encodeVal_compare h1 h2 h3 h4 h5 h6⟩
  · intro a b ha hb
    exact beBytes_compare (k := 1) (by omega) (by omega)
  · intro a b ha hb
    exact beBytes_compare (k := 2) (by omega) (by omega)
  · intro a b ha hb
    exact beBytes_compare (k := 4) (by omega) (by omega)
  · intro a b ha hb
    exact beBytes_compare (k := 8) (by omega) (by omega)
  · intro a b h1 h2 h3 h4
    exact signed_fixed_compare (k := 7) (by push_cast; omega) (by push_cast; omega)
      (by push_cast; omega) (by push_cast; omega) (by norm_num)
  · intro a b h1 h2 h3 h4
    exact signed_fixed_compare (k := 15) (by push_cast; omega) (by push_cast; omega)
      (by push_cast; omega) (by push_cast; omega) (by norm_num)
  · intro a b h1 h2 h3 h4
    exact signed_fixed_compare (k := 31) (by push_cast; omega) (by push_cast; omega)
      (by push_cast; omega) (by push_cast; omega) (by norm_num)
  · intro a b h1 h2 h3 h4
    exact signed_fixed_compare (k := 63) (by push_cast; omega) (by push_cast; omega)
      (by push_cast; omega) (by push_cast; omega) (by norm_num)

theorem c2_counterexample :
    (floatCmp 32 (2 ^ 31) 0 = .eq
      ∧ lexCompare (emit_f32 (2 ^ 31)) (emit_f32 0) = .lt)
    ∧ (f32IsNaN 0xFF800001
      ∧ lexCompare (emit_f32 0xFF800001) (emit_f32 0xBF800000) = .lt)
    ∧ (lexCompare (utf8Str [97]) (utf8Str [97, 0]) = .lt
      ∧ lexCompare (emit_str [97, 0] ++ emit_str [])
          (emit_str [97] ++ emit_str [98]) = .lt) := by
  exact ⟨⟨by decide, by decide⟩, ⟨by decide, by decide⟩, ⟨by decide, by decide⟩⟩


end Bytekey
